import Mathlib

/-!
Verification of the erg-vanity-gpu host-side core against its specification.

Rust strings are embedded as `List Char`, bytes and machine integers as `Nat`
with explicit `% 2^w` at the points where the Rust code wraps, fixed-size
arrays as `List Nat` with length hypotheses, and fallible functions as
`Except`/`Option`.  Every definition mirrors the corresponding item in the
Rust sources (crate and file named in its doc comment).
-/

set_option maxRecDepth 10000

/-! ## CLI pattern validation (crates/erg-vanity-cli/src/main.rs) -/

/-- `BASE58_ALPHABET` from main.rs: the Bitcoin Base58 alphabet. -/
def BASE58_ALPHABET : List Char :=
  "123456789ABCDEFGHJKLMNPQRSTUVWXYZabcdefghijkmnopqrstuvwxyz".toList

/-- `VALID_SECOND_CHARS` from main.rs. -/
def VALID_SECOND_CHARS : List Char := ['e', 'f', 'g', 'h', 'i']

/-- `MAX_PATTERN_LEN` from main.rs. -/
def MAX_PATTERN_LEN : Nat := 32

/-- Rust `u8::to_ascii_lowercase` / `char::to_ascii_lowercase`. -/
def asciiLowerChar (c : Char) : Char :=
  if 'A' ≤ c ∧ c ≤ 'Z' then Char.ofNat (c.toNat + 32) else c

/-- Rust `char::to_ascii_uppercase`. -/
def asciiUpperChar (c : Char) : Char :=
  if 'a' ≤ c ∧ c ≤ 'z' then Char.ofNat (c.toNat - 32) else c

/-- Rust `str::len`: the UTF-8 byte length of a string. -/
def utf8Len (s : List Char) : Nat := (s.map Char.utf8Size).sum

/-- Rust `str::is_ascii`. -/
def isAsciiStr (s : List Char) : Bool := s.all (fun c => c.toNat < 128)

/-- Does `needle` occur as a contiguous run inside `hay`?  Used to state
"the error message mentions ..." claims. -/
def listHasPrefix : List Char → List Char → Bool
  | [], _ => true
  | _ :: _, [] => false
  | a :: as, b :: bs => a == b && listHasPrefix as bs

/-- Substring occurrence check over `List Char`. -/
def listMentions (needle : List Char) : List Char → Bool
  | [] => listHasPrefix needle []
  | c :: rest => listHasPrefix needle (c :: rest) || listMentions needle rest

/-- `validate_pattern` from crates/erg-vanity-cli/src/main.rs (lines 93-179).
Strings are `List Char`; `Result<String, String>` is `Except`.  The Rust
`to_lowercase` on the success path is applied to a string already known to be
ASCII, where it agrees with per-character ASCII lowercasing. -/
def validate_pattern (pattern : List Char) (ignore_case : Bool) :
    Except (List Char) (List Char) :=
  match pattern with
  | [] => .error "pattern must not be empty".toList
  | c0 :: rest =>
    if utf8Len (c0 :: rest) > MAX_PATTERN_LEN then
      .error ("pattern '".toList ++ (c0 :: rest) ++ "' too long: ".toList ++
        (toString (utf8Len (c0 :: rest))).toList ++ " chars exceeds ".toList ++
        (toString MAX_PATTERN_LEN).toList ++ " limit".toList)
    else if ¬ isAsciiStr (c0 :: rest) then
      .error ("pattern '".toList ++ (c0 :: rest) ++
        "' contains non-ASCII characters".toList)
    else
      match (c0 :: rest).find? (fun c => !(BASE58_ALPHABET.contains c)) with
      | some c =>
        .error ("pattern '".toList ++ (c0 :: rest) ++
          "' contains invalid Base58 character '".toList ++ [c] ++
          "' (valid: 123456789ABCDEFGHJKLMNPQRSTUVWXYZabcdefghijkmnopqrstuvwxyz)".toList)
      | none =>
        if c0 ≠ '9' then
          .error ("invalid pattern '".toList ++ (c0 :: rest) ++
            "': mainnet P2PK addresses start with 9e/9f/9g/9h/9i (or just '9')".toList)
        else
          match rest with
          | [] => .ok (if ignore_case then (c0 :: rest).map asciiLowerChar else c0 :: rest)
          | c1 :: _ =>
            if ¬ VALID_SECOND_CHARS.contains
                (if ignore_case then asciiLowerChar c1 else c1) then
              if ignore_case then
                .error ("invalid pattern '".toList ++ (c0 :: rest) ++
                  "': mainnet P2PK addresses start with 9e/9f/9g/9h/9i (or just '9')".toList)
              else if (VALID_SECOND_CHARS.map asciiUpperChar).contains c1 then
                .error ("invalid pattern '".toList ++ (c0 :: rest) ++
                  "': second char '".toList ++ [c1] ++
                  "' is uppercase but --ignore-case not set (use -i or lowercase to 9".toList ++
                  [asciiLowerChar c1] ++ "...)".toList)
              else
                .error ("invalid pattern '".toList ++ (c0 :: rest) ++
                  "': mainnet P2PK addresses start with 9e/9f/9g/9h/9i (or just '9')".toList)
            else
              .ok (if ignore_case then (c0 :: rest).map asciiLowerChar else c0 :: rest)

/-- The success condition claimed for `validate_pattern`: non-empty ASCII
pattern, at most 32 characters, all in the Base58 alphabet, first character
`'9'`, and (when a second character is present) its lowercase-iff-ignore-case
form in `{e,f,g,h,i}`. -/
def PatternOk (pattern : List Char) (ignore_case : Bool) : Prop :=
  pattern ≠ [] ∧ isAsciiStr pattern = true ∧ pattern.length ≤ 32 ∧
  (∀ c ∈ pattern, BASE58_ALPHABET.contains c = true) ∧
  pattern.head? = some '9' ∧
  (∀ c, pattern.get? 1 = some c →
    VALID_SECOND_CHARS.contains (if ignore_case then asciiLowerChar c else c) = true)

instance (pattern : List Char) (ignore_case : Bool) :
    Decidable (PatternOk pattern ignore_case) := by
  unfold PatternOk
  infer_instance

/-! ## Base58 encoding (crates/erg-vanity-crypto/src/base58.rs) -/

namespace base58

/-- `ALPHABET` from base58.rs: the Bitcoin Base58 alphabet. -/
def ALPHABET : List Char :=
  "123456789ABCDEFGHJKLMNPQRSTUVWXYZabcdefghijkmnopqrstuvwxyz".toList

/-- The inner loop of `encode` for one input byte: the digit buffer is kept
little-endian (the reverse of the Rust big-endian buffer, which the Rust loop
iterates in reverse, i.e. least-significant digit first).  Carry left over at
the end of the buffer is dropped, exactly as in the Rust loop. -/
def pushByte (carry : Nat) : List Nat → List Nat
  | [] => []
  | d :: rest =>
    let c := carry + d * 256
    (c % 58) :: pushByte (c / 58) rest

/-- `encode` from base58.rs.  Bytes are `Nat`, the output string is
`List Char`.  The Rust buffer is big-endian; here the fold keeps it
little-endian and it is reversed once at the end, so Rust's
"skip leading zeros" is `dropWhile` on the reversed buffer. -/
def encode (data : List Nat) : List Char :=
  if data = [] then []
  else
    let leading_zeros := (data.takeWhile (· == 0)).length
    let size := data.length * 138 / 100 + 1
    let buf := data.foldl (fun buf byte => pushByte byte buf) (List.replicate size 0)
    let digits := buf.reverse.dropWhile (· == 0)
    List.replicate leading_zeros '1' ++ digits.map (fun d => ALPHABET.getD d ' ')

end base58

/-! ## Blake2b-256 (crates/erg-vanity-crypto/src/blake2b.rs) -/

/-- 64-bit rotate right, Rust `u64::rotate_right`. -/
def rotr64 (x k : Nat) : Nat := ((x >>> k) ||| (x <<< (64 - k))) % 2 ^ 64

namespace blake2b

/-- `IV` from blake2b.rs. -/
def IV : List Nat :=
  [0x6a09e667f3bcc908, 0xbb67ae8584caa73b, 0x3c6ef372fe94f82b, 0xa54ff53a5f1d36f1,
   0x510e527fade682d1, 0x9b05688c2b3e6c1f, 0x1f83d9abfb41bd6b, 0x5be0cd19137e2179]

/-- `SIGMA` from blake2b.rs. -/
def SIGMA : List (List Nat) :=
  [[0, 1, 2, 3, 4, 5, 6, 7, 8, 9, 10, 11, 12, 13, 14, 15],
   [14, 10, 4, 8, 9, 15, 13, 6, 1, 12, 0, 2, 11, 7, 5, 3],
   [11, 8, 12, 0, 5, 2, 15, 13, 10, 14, 3, 6, 7, 1, 9, 4],
   [7, 9, 3, 1, 13, 12, 11, 14, 2, 6, 5, 10, 4, 0, 15, 8],
   [9, 0, 5, 7, 2, 4, 10, 15, 14, 1, 11, 12, 6, 8, 3, 13],
   [2, 12, 6, 10, 0, 11, 8, 3, 4, 13, 7, 5, 15, 14, 1, 9],
   [12, 5, 1, 15, 14, 13, 4, 10, 0, 7, 6, 3, 9, 2, 8, 11],
   [13, 11, 7, 14, 12, 1, 3, 9, 5, 0, 15, 4, 8, 6, 2, 10],
   [6, 15, 14, 9, 11, 3, 0, 8, 12, 2, 13, 7, 1, 4, 10, 5],
   [10, 2, 8, 4, 7, 6, 1, 5, 15, 11, 9, 14, 3, 12, 13, 0],
   [0, 1, 2, 3, 4, 5, 6, 7, 8, 9, 10, 11, 12, 13, 14, 15],
   [14, 10, 4, 8, 9, 15, 13, 6, 1, 12, 0, 2, 11, 7, 5, 3]]

/-- `g` from blake2b.rs: the G mixing function on the 16-word working
vector, all additions wrapping mod 2^64. -/
def g (v : List Nat) (a b c d x y : Nat) : List Nat :=
  let v := v.set a ((v.getD a 0 + v.getD b 0 + x) % 2 ^ 64)
  let v := v.set d (rotr64 ((v.getD d 0) ^^^ (v.getD a 0)) 32)
  let v := v.set c ((v.getD c 0 + v.getD d 0) % 2 ^ 64)
  let v := v.set b (rotr64 ((v.getD b 0) ^^^ (v.getD c 0)) 24)
  let v := v.set a ((v.getD a 0 + v.getD b 0 + y) % 2 ^ 64)
  let v := v.set d (rotr64 ((v.getD d 0) ^^^ (v.getD a 0)) 16)
  let v := v.set c ((v.getD c 0 + v.getD d 0) % 2 ^ 64)
  let v := v.set b (rotr64 ((v.getD b 0) ^^^ (v.getD c 0)) 63)
  v

/-- One of the 12 rounds of `compress`: eight G applications driven by a
SIGMA row. -/
def roundStep (m : List Nat) (v : List Nat) (s : List Nat) : List Nat :=
  let v := g v 0 4 8 12 (m.getD (s.getD 0 0) 0) (m.getD (s.getD 1 0) 0)
  let v := g v 1 5 9 13 (m.getD (s.getD 2 0) 0) (m.getD (s.getD 3 0) 0)
  let v := g v 2 6 10 14 (m.getD (s.getD 4 0) 0) (m.getD (s.getD 5 0) 0)
  let v := g v 3 7 11 15 (m.getD (s.getD 6 0) 0) (m.getD (s.getD 7 0) 0)
  let v := g v 0 5 10 15 (m.getD (s.getD 8 0) 0) (m.getD (s.getD 9 0) 0)
  let v := g v 1 6 11 12 (m.getD (s.getD 10 0) 0) (m.getD (s.getD 11 0) 0)
  let v := g v 2 7 8 13 (m.getD (s.getD 12 0) 0) (m.getD (s.getD 13 0) 0)
  let v := g v 3 4 9 14 (m.getD (s.getD 14 0) 0) (m.getD (s.getD 15 0) 0)
  v

/-- `compress` from blake2b.rs.  `t` is the 128-bit byte counter. -/
def compress (h : List Nat) (block : List Nat) (t : Nat) (last : Bool) : List Nat :=
  let m := (List.range 16).map
    (fun i => ((block.drop (8 * i)).take 8).foldr (fun b acc => b + 256 * acc) 0)
  let v := h ++ IV
  let v := v.set 12 ((v.getD 12 0) ^^^ (t % 2 ^ 64))
  let v := v.set 13 ((v.getD 13 0) ^^^ (t / 2 ^ 64 % 2 ^ 64))
  let v := if last then v.set 14 ((v.getD 14 0) ^^^ (2 ^ 64 - 1)) else v
  let v := SIGMA.foldl (roundStep m) v
  (List.range 8).map (fun i => (h.getD i 0) ^^^ (v.getD i 0) ^^^ (v.getD (i + 8) 0))

/-- The block-processing loop of `digest`: a full block is compressed while
strictly more than 128 bytes remain; the final (1..=128 byte, or empty) block
is zero-padded and compressed with the `last` flag. -/
def digestLoop (h : List Nat) (t : Nat) (rest : List Nat) : List Nat :=
  if hfull : 128 < rest.length then
    digestLoop (compress h (rest.take 128) (t + 128) false) (t + 128) (rest.drop 128)
  else
    compress h (rest ++ List.replicate (128 - rest.length) 0) (t + rest.length) true
termination_by rest.length
decreasing_by simp only [List.length_drop]; omega

/-- `digest` from blake2b.rs: Blake2b-256, no key, 32-byte output. -/
def digest (data : List Nat) : List Nat :=
  let h := IV.set 0 ((IV.getD 0 0) ^^^ (0x01010000 ^^^ 32))
  let h := digestLoop h 0 data
  (h.take 4).flatMap (fun w => (List.range 8).map (fun i => w / 256 ^ i % 256))

end blake2b

/-! ## P2PK address encoding (crates/erg-vanity-address) -/

/-- `Network` from network.rs. -/
inductive Network
  | Mainnet
  | Testnet
deriving DecidableEq

/-- `Network::prefix` from network.rs. -/
def Network.prefixVal : Network → Nat
  | .Mainnet => 0x00
  | .Testnet => 0x10

/-- `AddressType` from network.rs. -/
inductive AddressType
  | P2PK
  | P2SH
  | P2S
deriving DecidableEq

/-- `AddressType::type_byte` from network.rs. -/
def AddressType.type_byte : AddressType → Nat
  | .P2PK => 0x01
  | .P2SH => 0x02
  | .P2S => 0x03

/-- `prefix_byte` from network.rs (lines 53-55). -/
def prefixByte (network : Network) (addr_type : AddressType) : Nat :=
  network.prefixVal ||| addr_type.type_byte

/-- `encode_p2pk` from p2pk.rs (lines 24-43).  The 33-byte compressed public
key is a `List Nat` with a length hypothesis at the theorems. -/
def encode_p2pk (pubkey : List Nat) (network : Network) : List Char :=
  let pfx := prefixByte network .P2PK
  let content := pfx :: pubkey
  let hash := blake2b.digest content
  let checksum := hash.take 4
  let address_bytes := pfx :: (pubkey ++ checksum)
  base58.encode address_bytes

/-! ## SHA-256 (crates/erg-vanity-crypto/src/sha256.rs) -/

/-- 32-bit rotate right, Rust `u32::rotate_right`. -/
def rotr32 (x k : Nat) : Nat := ((x >>> k) ||| (x <<< (32 - k))) % 2 ^ 32

/-- Rust `chunks_exact(k)` body: the list of complete `k`-chunks, any
remainder dropped.  `fuel` is a structural recursion bound (each step removes
at least one element when a chunk is produced); `chunksExact` instantiates it
with the list length, which is never exhausted early. -/
def chunksExactGo (k : Nat) : Nat → List Nat → List (List Nat)
  | 0, _ => []
  | fuel + 1, l =>
    if k ≠ 0 ∧ k ≤ l.length then
      l.take k :: chunksExactGo k fuel (l.drop k)
    else []

/-- Rust `chunks_exact(k)`. -/
def chunksExact (k : Nat) (l : List Nat) : List (List Nat) :=
  chunksExactGo k l.length l

namespace sha256

/-- `H` from sha256.rs. -/
def H0 : List Nat :=
  [0x6a09e667, 0xbb67ae85, 0x3c6ef372, 0xa54ff53a,
   0x510e527f, 0x9b05688c, 0x1f83d9ab, 0x5be0cd19]

/-- `K` from sha256.rs (written as eight rows of eight constants). -/
def K : List Nat :=
  [0x428a2f98, 0x71374491, 0xb5c0fbcf, 0xe9b5dba5,
   0x3956c25b, 0x59f111f1, 0x923f82a4, 0xab1c5ed5] ++
  [0xd807aa98, 0x12835b01, 0x243185be, 0x550c7dc3,
   0x72be5d74, 0x80deb1fe, 0x9bdc06a7, 0xc19bf174] ++
  [0xe49b69c1, 0xefbe4786, 0x0fc19dc6, 0x240ca1cc,
   0x2de92c6f, 0x4a7484aa, 0x5cb0a9dc, 0x76f988da] ++
  [0x983e5152, 0xa831c66d, 0xb00327c8, 0xbf597fc7,
   0xc6e00bf3, 0xd5a79147, 0x06ca6351, 0x14292967] ++
  [0x27b70a85, 0x2e1b2138, 0x4d2c6dfc, 0x53380d13,
   0x650a7354, 0x766a0abb, 0x81c2c92e, 0x92722c85] ++
  [0xa2bfe8a1, 0xa81a664b, 0xc24b8b70, 0xc76c51a3,
   0xd192e819, 0xd6990624, 0xf40e3585, 0x106aa070] ++
  [0x19a4c116, 0x1e376c08, 0x2748774c, 0x34b0bcb5,
   0x391c0cb3, 0x4ed8aa4a, 0x5b9cca4f, 0x682e6ff3] ++
  [0x748f82ee, 0x78a5636f, 0x84c87814, 0x8cc70208,
   0x90befffa, 0xa4506ceb, 0xbef9a3f7, 0xc67178f2]

/-- `pad` from sha256.rs: append 0x80, zero-fill to 56 mod 64, then the
64-bit big-endian bit length.  The Rust zero-filling `while` loop appends
exactly `(56 + 64 - (len+1) % 64) % 64` zeros. -/
def pad (data : List Nat) : List Nat :=
  let bit_len := data.length % 2 ^ 64 * 8 % 2 ^ 64
  data ++ [0x80]
    ++ List.replicate ((56 + 64 - (data.length + 1) % 64) % 64) 0
    ++ (List.range 8).map (fun i => bit_len / 256 ^ (7 - i) % 256)

/-- `compress` from sha256.rs: one 512-bit block. -/
def compress (state : List Nat) (block : List Nat) : List Nat :=
  let w0 := (List.range 16).map
    (fun i => ((block.drop (4 * i)).take 4).foldl (fun acc b => acc * 256 + b) 0)
  let w := (List.range 48).foldl
    (fun w j =>
      let i := j + 16
      let x15 := w.getD (i - 15) 0
      let x2 := w.getD (i - 2) 0
      let s0 := rotr32 x15 7 ^^^ rotr32 x15 18 ^^^ (x15 >>> 3)
      let s1 := rotr32 x2 17 ^^^ rotr32 x2 19 ^^^ (x2 >>> 10)
      w ++ [(w.getD (i - 16) 0 + s0 + w.getD (i - 7) 0 + s1) % 2 ^ 32])
    w0
  let vars := (List.range 64).foldl
    (fun st i =>
      let a := st.getD 0 0
      let b := st.getD 1 0
      let c := st.getD 2 0
      let d := st.getD 3 0
      let e := st.getD 4 0
      let f := st.getD 5 0
      let g := st.getD 6 0
      let h := st.getD 7 0
      let s1 := rotr32 e 6 ^^^ rotr32 e 11 ^^^ rotr32 e 25
      let ch := (e &&& f) ^^^ ((e ^^^ (2 ^ 32 - 1)) &&& g)
      let temp1 := (h + s1 + ch + K.getD i 0 + w.getD i 0) % 2 ^ 32
      let s0 := rotr32 a 2 ^^^ rotr32 a 13 ^^^ rotr32 a 22
      let maj := (a &&& b) ^^^ (a &&& c) ^^^ (b &&& c)
      let temp2 := (s0 + maj) % 2 ^ 32
      [(temp1 + temp2) % 2 ^ 32, a, b, c, (d + temp1) % 2 ^ 32, e, f, g])
    state
  (List.range 8).map (fun i => (state.getD i 0 + vars.getD i 0) % 2 ^ 32)

/-- `digest` from sha256.rs. -/
def digest (data : List Nat) : List Nat :=
  let state := (chunksExact 64 (pad data)).foldl compress H0
  state.flatMap (fun word => (List.range 4).map (fun i => word / 256 ^ (3 - i) % 256))

end sha256

/-! ## BIP39 (crates/erg-vanity-bip/src/bip39.rs, crates/erg-vanity-core) -/

/-- Modelled from the spec: the BIP39 English wordlist table
(`crates/erg-vanity-core/src/wordlist.rs`, re-exported as `WORDLIST`) is not
in the sources provided; the spec describes it only as "a static 2048-entry
table".  The claims about it depend only on there being 2048 distinct,
non-empty, whitespace-free words, so the table is modelled as 2048 distinct
three-letter lowercase words. -/
def WORDLIST : List (List Char) :=
  (List.range 2048).map
    (fun n => [Char.ofNat (97 + n / 676 % 26), Char.ofNat (97 + n / 26 % 26),
      Char.ofNat (97 + n % 26)])

/-- `MnemonicType` from bip39.rs. -/
inductive MnemonicType
  | Words12
  | Words15
  | Words18
  | Words21
  | Words24
deriving DecidableEq

/-- `MnemonicType::entropy_bytes` from bip39.rs. -/
def MnemonicType.entropy_bytes : MnemonicType → Nat
  | .Words12 => 16
  | .Words15 => 20
  | .Words18 => 24
  | .Words21 => 28
  | .Words24 => 32

/-- `MnemonicType::entropy_bits` from bip39.rs. -/
def MnemonicType.entropy_bits (m : MnemonicType) : Nat := m.entropy_bytes * 8

/-- `MnemonicType::checksum_bits` from bip39.rs. -/
def MnemonicType.checksum_bits (m : MnemonicType) : Nat := m.entropy_bits / 32

/-- `MnemonicType::word_count` from bip39.rs. -/
def MnemonicType.word_count : MnemonicType → Nat
  | .Words12 => 12
  | .Words15 => 15
  | .Words18 => 18
  | .Words21 => 21
  | .Words24 => 24

/-- The `match entropy.len()` table at the top of `entropy_to_mnemonic`. -/
def mtypeOfEntropyLen (n : Nat) : Option MnemonicType :=
  if n = 16 then some .Words12
  else if n = 20 then some .Words15
  else if n = 24 then some .Words18
  else if n = 28 then some .Words21
  else if n = 32 then some .Words24
  else none

/-- The `match words.len()` table at the top of `validate_mnemonic`. -/
def mtypeOfWordCount (n : Nat) : Option MnemonicType :=
  if n = 12 then some .Words12
  else if n = 15 then some .Words15
  else if n = 18 then some .Words18
  else if n = 21 then some .Words21
  else if n = 24 then some .Words24
  else none

/-- Rust `char::is_whitespace`: the Unicode White_Space code points. -/
def isWsChar (c : Char) : Bool :=
  (([0x09, 0x0A, 0x0B, 0x0C, 0x0D, 0x20, 0x85, 0xA0, 0x1680,
     0x2000, 0x2001, 0x2002, 0x2003, 0x2004, 0x2005, 0x2006, 0x2007,
     0x2008, 0x2009, 0x200A, 0x2028, 0x2029, 0x202F, 0x205F, 0x3000] : List Nat)).contains
    c.toNat

/-- Rust `str::split_whitespace` body: maximal non-whitespace runs, empty
runs dropped.  `fuel` is a structural recursion bound (each step consumes at
least one character); `splitWs` instantiates it with the string length, which
is never exhausted early. -/
def splitWsGo : Nat → List Char → List (List Char)
  | 0, _ => []
  | fuel + 1, s =>
    match s with
    | [] => []
    | c :: rest =>
      if isWsChar c then splitWsGo fuel rest
      else (c :: rest.takeWhile (fun ch => !(isWsChar ch)))
        :: splitWsGo fuel (rest.dropWhile (fun ch => !(isWsChar ch)))

/-- Rust `str::split_whitespace`. -/
def splitWs (s : List Char) : List (List Char) :=
  splitWsGo s.length s

/-- Rust `Vec::join(" ")` over word lists. -/
def joinSpace : List (List Char) → List Char
  | [] => []
  | [w] => w
  | w :: rest => w ++ ' ' :: joinSpace rest

/-- `entropy_to_mnemonic` from bip39.rs (lines 69-113). -/
def entropy_to_mnemonic (entropy : List Nat) : Except (List Char) (List Char) :=
  match mtypeOfEntropyLen entropy.length with
  | none => .error "invalid entropy length".toList
  | some mtype =>
    let hash := sha256.digest entropy
    let checksum_bits := mtype.checksum_bits
    let bits := entropy.flatMap
        (fun byte => (List.range 8).reverse.map (fun i => byte >>> i &&& 1))
      ++ (List.range checksum_bits).map
        (fun i => hash.getD (i / 8) 0 >>> (7 - i % 8) &&& 1)
    let words := (chunksExact 11 bits).map
      (fun chunk => WORDLIST.getD (chunk.foldl (fun idx bit => (idx <<< 1) ||| bit) 0) [])
    .ok (joinSpace words)

/-- `validate_mnemonic` from bip39.rs (lines 142-195). -/
def validate_mnemonic (mnemonic : List Char) : Bool :=
  let words := splitWs mnemonic
  match mtypeOfWordCount words.length with
  | none => false
  | some mtype =>
    match words.mapM (fun w => WORDLIST.findIdx? (fun wx => wx == w)) with
    | none => false
    | some indices =>
      let bits := indices.flatMap
        (fun index => (List.range 11).reverse.map (fun i => index >>> i &&& 1))
      let entropy := (List.range mtype.entropy_bytes).map
        (fun i => (List.range 8).foldl
          (fun byte j => (byte <<< 1) ||| bits.getD (i * 8 + j) 0) 0)
      let hash := sha256.digest entropy
      let expected := (List.range mtype.checksum_bits).map
        (fun i => hash.getD (i / 8) 0 >>> (7 - i % 8) &&& 1)
      let actual := bits.drop mtype.entropy_bits
      expected == actual

/-- Big-endian bit expansion helper: the `k` bits of `v` from bit `k-1` down
to bit `0`, exactly the `(0..k).rev()` loops of bip39.rs. -/
def bitsBE (k v : Nat) : List Nat :=
  (List.range k).reverse.map (fun i => v >>> i &&& 1)

/-! ## secp256k1 limb arithmetic
(crates/erg-vanity-crypto/src/secp256k1/field.rs and scalar.rs; the two
files are textually identical up to the modulus constant and the wide
reduction, so the shared parts are embedded once and instantiated with the
`P` and `N` limb constants) -/

/-- Rust `u64::carrying_add` (also `overflowing_add` when the carry-in is
false). -/
def carryingAdd (a b : Nat) (c : Bool) : Nat × Bool :=
  let s := a + b + (if c then 1 else 0)
  (s % 2 ^ 64, decide (2 ^ 64 ≤ s))

/-- Rust `u64::borrowing_sub` (also `overflowing_sub` when the borrow-in is
false): wrapping subtraction with borrow-out. -/
def borrowingSub (a b : Nat) (c : Bool) : Nat × Bool :=
  let t := b + (if c then 1 else 0)
  (if a < t then a + 2 ^ 64 - t else a - t, decide (a < t))

/-- The limb-wise carry chain of the 4-limb additions in field.rs/scalar.rs. -/
def addLimbs : List Nat → List Nat → Bool → List Nat × Bool
  | a :: as, b :: bs, c =>
    let rc := carryingAdd a b c
    let rest := addLimbs as bs rc.2
    (rc.1 :: rest.1, rest.2)
  | _, _, c => ([], c)

/-- The limb-wise borrow chain of the 4-limb subtractions in
field.rs/scalar.rs. -/
def subLimbs : List Nat → List Nat → Bool → List Nat × Bool
  | a :: as, b :: bs, c =>
    let rc := borrowingSub a b c
    let rest := subLimbs as bs rc.2
    (rc.1 :: rest.1, rest.2)
  | _, _, c => ([], c)

/-- The most-significant-first limb comparison `gte_p`/`gte_n` (the
`for i in (0..4).rev()` loop); arguments are big-endian limb lists. -/
def cmpGeBE : List Nat → List Nat → Bool
  | a :: as, b :: bs =>
    if a > b then true
    else if a < b then false
    else cmpGeBE as bs
  | _, _ => true

/-- `is_zero` from field.rs/scalar.rs: all limbs zero. -/
def isZeroL (a : List Nat) : Bool := a.all (fun x => x == 0)

/-- `self >= m` on little-endian limb lists, comparing from the most
significant limb as in the source. -/
def gteModBE (m a : List Nat) : Bool := cmpGeBE a.reverse m.reverse

/-- `add` from field.rs/scalar.rs: limb addition, then a conditional
subtraction of the modulus on carry-out or `>= m`. -/
def modAdd (m a b : List Nat) : List Nat :=
  let rc := addLimbs a b false
  if rc.2 || gteModBE m rc.1 then (subLimbs rc.1 m false).1 else rc.1

/-- `sub` from field.rs/scalar.rs: limb subtraction, then a conditional
addition of the modulus on borrow-out. -/
def modSub (m a b : List Nat) : List Nat :=
  let rb := subLimbs a b false
  if rb.2 then (addLimbs rb.1 m false).1 else rb.1

/-- `neg` from field.rs/scalar.rs: `m - a` unless zero. -/
def modNeg (m a : List Nat) : List Nat :=
  if isZeroL a then a else (subLimbs m a false).1

/-- The carry-spill `while carry != 0` loop inside the schoolbook multiply. -/
def spillCarry (carry : Nat) : List Nat → List Nat
  | [] => []
  | w :: ws =>
    if carry = 0 then w :: ws
    else (w + carry) % 2 ^ 64 :: spillCarry ((w + carry) / 2 ^ 64) ws

/-- One row (fixed `i`, inner `j` loop) of the schoolbook multiply: multiply
the row limb into the `b` limbs, accumulating into the wide suffix, then
spill the leftover carry. -/
def mulAddRow (ai carry : Nat) : List Nat → List Nat → List Nat
  | b :: bs, w :: ws =>
    let lo := ai * b % 2 ^ 64
    let hi := ai * b / 2 ^ 64
    let acc := w + lo + carry
    acc % 2 ^ 64 :: mulAddRow ai (acc / 2 ^ 64 + hi) bs ws
  | [], ws => spillCarry carry ws
  | _ :: _, [] => []

/-- The outer `i` loop of the schoolbook multiply: each row writes into the
wide buffer starting at its own offset. -/
def mulWideGo (b : List Nat) : List Nat → List Nat → List Nat
  | [], wide => wide
  | ai :: arest, wide =>
    match mulAddRow ai 0 b wide with
    | [] => []
    | w0 :: wrest => w0 :: mulWideGo b arest wrest

/-- `mul`'s 4x4-to-8-limb schoolbook product from field.rs/scalar.rs. -/
def mulWide (a b : List Nat) : List Nat :=
  mulWideGo b a (List.replicate 8 0)

/-- The carry-propagation loop of field.rs `reduce` (`for i in 0..5`); any
carry past the last limb is discarded (provably zero for the inputs that
occur). -/
def carryChain (carry : Nat) : List Nat → List Nat
  | [] => []
  | a :: as => (carry + a) % 2 ^ 64 :: carryChain ((carry + a) / 2 ^ 64) as

/-- `P` from field.rs (little-endian limbs). -/
def P_LIMBS : List Nat :=
  [0xFFFFFFFEFFFFFC2F, 0xFFFFFFFFFFFFFFFF, 0xFFFFFFFFFFFFFFFF, 0xFFFFFFFFFFFFFFFF]

/-- `P_MINUS_2` from field.rs. -/
def P_MINUS_2_LIMBS : List Nat :=
  [0xFFFFFFFEFFFFFC2D, 0xFFFFFFFFFFFFFFFF, 0xFFFFFFFFFFFFFFFF, 0xFFFFFFFFFFFFFFFF]

/-- `N` from scalar.rs (little-endian limbs). -/
def N_LIMBS : List Nat :=
  [0xBFD25E8CD0364141, 0xBAAEDCE6AF48A03B, 0xFFFFFFFFFFFFFFFE, 0xFFFFFFFFFFFFFFFF]

/-- The value of a little-endian limb list. -/
def valL (l : List Nat) : Nat := Nat.ofDigits (2 ^ 64) l

/-- The secp256k1 field prime value. -/
def pVal : Nat := 2 ^ 256 - 2 ^ 32 - 977

/-- The secp256k1 group order value. -/
def nVal : Nat :=
  0xFFFFFFFFFFFFFFFFFFFFFFFFFFFFFFFEBAAEDCE6AF48A03BBFD25E8CD0364141

namespace FieldElement

/-- `FieldElement::ZERO`. -/
def ZERO : List Nat := [0, 0, 0, 0]

/-- `FieldElement::ONE`. -/
def ONE : List Nat := [1, 0, 0, 0]

/-- `FieldElement::gte_p`. -/
def gte_p (a : List Nat) : Bool := gteModBE P_LIMBS a

/-- `FieldElement::is_zero`. -/
def is_zero (a : List Nat) : Bool := isZeroL a

/-- `FieldElement::add`. -/
def add (a b : List Nat) : List Nat := modAdd P_LIMBS a b

/-- `FieldElement::sub`. -/
def sub (a b : List Nat) : List Nat := modSub P_LIMBS a b

/-- `FieldElement::neg`. -/
def neg (a : List Nat) : List Nat := modNeg P_LIMBS a

/-- The `acc` array built at the top of field.rs `reduce`: low half plus
`977` and `2^32` multiples of the high half (u128 arithmetic, no wrap). -/
def reduceAccs (wide : List Nat) : List Nat :=
  [wide.getD 0 0 + wide.getD 4 0 * 977 + wide.getD 4 0 * 2 ^ 32,
   wide.getD 1 0 + wide.getD 5 0 * 977 + wide.getD 5 0 * 2 ^ 32,
   wide.getD 2 0 + wide.getD 6 0 * 977 + wide.getD 6 0 * 2 ^ 32,
   wide.getD 3 0 + wide.getD 7 0 * 977 + wide.getD 7 0 * 2 ^ 32,
   0]

/-- One pass of the `while result[4] != 0` loop in field.rs `reduce`:
fold `overflow * (2^32 + 977)` back into the low limbs. -/
def reduceStep (r : List Nat) : List Nat :=
  let overflow := r.getD 4 0
  let c0 := r.getD 0 0 + overflow * 977 + overflow * 2 ^ 32
  let c1 := c0 / 2 ^ 64 + r.getD 1 0
  let c2 := c1 / 2 ^ 64 + r.getD 2 0
  let c3 := c2 / 2 ^ 64 + r.getD 3 0
  [c0 % 2 ^ 64, c1 % 2 ^ 64, c2 % 2 ^ 64, c3 % 2 ^ 64, c3 / 2 ^ 64 % 2 ^ 64]

/-- The `while result[4] != 0` loop; `fuel` is a structural bound — the
loop strictly decreases the 5-limb value, and it is run with the value as
fuel, which is never exhausted. -/
def reduceLoopGo : Nat → List Nat → List Nat
  | 0, r => r
  | fuel + 1, r => if r.getD 4 0 = 0 then r else reduceLoopGo fuel (reduceStep r)

/-- The final `while fe.gte_p()` subtraction loop of field.rs `reduce`;
`fuel` as in `reduceLoopGo`. -/
def subPLoopGo : Nat → List Nat → List Nat
  | 0, fe => fe
  | fuel + 1, fe =>
    if gte_p fe then subPLoopGo fuel (subLimbs fe P_LIMBS false).1 else fe

/-- `FieldElement::reduce` from field.rs: fold the high half with
`2^256 ≡ 2^32 + 977 (mod p)`, propagate carries, repeat while a fifth limb
remains, then subtract `p` while `>= p`. -/
def reduce (wide : List Nat) : List Nat :=
  let r := carryChain 0 (reduceAccs wide)
  let r := reduceLoopGo (valL r) r
  subPLoopGo (valL (r.take 4)) (r.take 4)

/-- `FieldElement::mul`. -/
def mul (a b : List Nat) : List Nat := reduce (mulWide a b)

/-- `FieldElement::square`. -/
def square (a : List Nat) : List Nat := mul a a

/-- `FieldElement::pow`: square-and-multiply over the exponent limbs, LSB
first. -/
def pow (a : List Nat) (exp : List Nat) : List Nat :=
  (exp.foldl
    (fun acc limb =>
      (List.range 64).foldl
        (fun acc bit =>
          ((if (limb >>> bit) &&& 1 = 1 then mul acc.1 acc.2 else acc.1),
            square acc.2))
        acc)
    (ONE, a)).1

/-- `FieldElement::inv`: Fermat inversion, `None` for zero. -/
def inv (a : List Nat) : Option (List Nat) :=
  if is_zero a then none else some (pow a P_MINUS_2_LIMBS)

/-- `FieldElement::is_odd`. -/
def is_odd (a : List Nat) : Bool := a.getD 0 0 &&& 1 == 1

end FieldElement

namespace Scalar

/-- `Scalar::ZERO`. -/
def ZERO : List Nat := [0, 0, 0, 0]

/-- `Scalar::ONE`. -/
def ONE : List Nat := [1, 0, 0, 0]

/-- `Scalar::gte_n`. -/
def gte_n (a : List Nat) : Bool := gteModBE N_LIMBS a

/-- `Scalar::is_zero`. -/
def is_zero (a : List Nat) : Bool := isZeroL a

/-- `Scalar::add`. -/
def add (a b : List Nat) : List Nat := modAdd N_LIMBS a b

/-- `Scalar::sub`. -/
def sub (a b : List Nat) : List Nat := modSub N_LIMBS a b

/-- `Scalar::neg`. -/
def neg (a : List Nat) : List Nat := modNeg N_LIMBS a

/-- `Scalar::reduce_wide` from scalar.rs: MSB-to-LSB bitwise
shift-and-conditional-add reduction `rem = (rem*2 + bit) mod n`. -/
def reduce_wide (wide : List Nat) : List Nat :=
  wide.reverse.foldl
    (fun rem limb =>
      (List.range 64).reverse.foldl
        (fun rem bit_idx =>
          let rem2 := add rem rem
          if (limb >>> bit_idx) &&& 1 = 1 then add rem2 ONE else rem2)
        rem)
    ZERO

/-- `Scalar::mul`. -/
def mul (a b : List Nat) : List Nat := reduce_wide (mulWide a b)

/-- `Scalar::square`. -/
def square (a : List Nat) : List Nat := mul a a

end Scalar

/-- Canonical form for a 4-limb value modulo `m`: four limbs, each below
`2^64`, with value below `m`. -/
def IsCanonical (m : Nat) (l : List Nat) : Prop :=
  l.length = 4 ∧ (∀ x ∈ l, x < 2 ^ 64) ∧ valL l < m

instance (m : Nat) (l : List Nat) : Decidable (IsCanonical m l) := by
  unfold IsCanonical
  infer_instance

/-- Numeric value of a carry/borrow flag. -/
def bitN (b : Bool) : Nat := if b then 1 else 0

/-! ## secp256k1 points (crates/erg-vanity-crypto/src/secp256k1/point.rs) -/

/-- A point in Jacobian coordinates; each coordinate is a 4-limb field
element. `(X, Y, Z)` represents affine `(X/Z^2, Y/Z^3)`; infinity has
`Z = 0`. -/
structure Point where
  x : List Nat
  y : List Nat
  z : List Nat
deriving DecidableEq

/-- `GX` from point.rs. -/
def GX_LIMBS : List Nat :=
  [0x59F2815B16F81798, 0x029BFCDB2DCE28D9, 0x55A06295CE870B07, 0x79BE667EF9DCBBAC]

/-- `GY` from point.rs. -/
def GY_LIMBS : List Nat :=
  [0x9C47D08FFB10D4B8, 0xFD17B448A6855419, 0x5DA4FBFC0E1108A8, 0x483ADA7726A3C465]

namespace Point

/-- `Point::INFINITY`. -/
def INFINITY : Point := ⟨FieldElement.ONE, FieldElement.ONE, FieldElement.ZERO⟩

/-- `Point::from_jacobian`. -/
def from_jacobian (x y z : List Nat) : Point := ⟨x, y, z⟩

/-- `Point::from_affine`; the source comment states it does not validate
that the point is on the curve. -/
def from_affine (x y : List Nat) : Point := ⟨x, y, FieldElement.ONE⟩

/-- `Point::generator`. -/
def generator : Point := from_affine GX_LIMBS GY_LIMBS

/-- `Point::is_infinity`. -/
def is_infinity (p : Point) : Bool := FieldElement.is_zero p.z

/-- `Point::to_affine`. -/
def to_affine (p : Point) : Option (List Nat × List Nat) :=
  if is_infinity p then none
  else
    match FieldElement.inv p.z with
    | none => none
    | some z_inv =>
      let z_inv2 := FieldElement.square z_inv
      let z_inv3 := FieldElement.mul z_inv2 z_inv
      some (FieldElement.mul p.x z_inv2, FieldElement.mul p.y z_inv3)

/-- `Point::double`: `a = 0` Jacobian doubling with the
`S = 4XY^2`, `M = 3X^2` formulas (`X3 = M^2 - 2S`, `Y3 = M(S - X3) - 8Y^4`,
`Z3 = 2YZ`); the source's local let-bindings are inlined (all field
operations are pure). -/
def double (p : Point) : Point :=
  if is_infinity p || FieldElement.is_zero p.y then INFINITY
  else
    ⟨(FieldElement.sub (FieldElement.sub (FieldElement.square (FieldElement.mul (FieldElement.square p.x) [3, 0, 0, 0])) (FieldElement.mul (FieldElement.mul p.x (FieldElement.square p.y)) [4, 0, 0, 0])) (FieldElement.mul (FieldElement.mul p.x (FieldElement.square p.y)) [4, 0, 0, 0])),
      (FieldElement.sub (FieldElement.mul (FieldElement.mul (FieldElement.square p.x) [3, 0, 0, 0]) (FieldElement.sub (FieldElement.mul (FieldElement.mul p.x (FieldElement.square p.y)) [4, 0, 0, 0]) (FieldElement.sub (FieldElement.sub (FieldElement.square (FieldElement.mul (FieldElement.square p.x) [3, 0, 0, 0])) (FieldElement.mul (FieldElement.mul p.x (FieldElement.square p.y)) [4, 0, 0, 0])) (FieldElement.mul (FieldElement.mul p.x (FieldElement.square p.y)) [4, 0, 0, 0])))) (FieldElement.mul (FieldElement.square (FieldElement.square p.y)) [8, 0, 0, 0])),
      (FieldElement.mul (FieldElement.mul p.y p.z) [2, 0, 0, 0])⟩
/-- `Point::add`: Jacobian addition via `U1/U2/S1/S2/H/R`, with the
`H = 0` short-circuits (`R = 0` gives doubling, otherwise infinity); the
source's local let-bindings are inlined (all field operations are pure). -/
def add (p q : Point) : Point :=
  if is_infinity p then q
  else if is_infinity q then p
  else
    if FieldElement.is_zero (FieldElement.sub (FieldElement.mul q.x (FieldElement.square p.z)) (FieldElement.mul p.x (FieldElement.square q.z))) then
      if FieldElement.is_zero (FieldElement.sub (FieldElement.mul q.y (FieldElement.mul (FieldElement.square p.z) p.z)) (FieldElement.mul p.y (FieldElement.mul (FieldElement.square q.z) q.z))) then double p
      else INFINITY
    else
      ⟨(FieldElement.sub (FieldElement.sub (FieldElement.sub (FieldElement.square (FieldElement.sub (FieldElement.mul q.y (FieldElement.mul (FieldElement.square p.z) p.z)) (FieldElement.mul p.y (FieldElement.mul (FieldElement.square q.z) q.z)))) (FieldElement.mul (FieldElement.square (FieldElement.sub (FieldElement.mul q.x (FieldElement.square p.z)) (FieldElement.mul p.x (FieldElement.square q.z)))) (FieldElement.sub (FieldElement.mul q.x (FieldElement.square p.z)) (FieldElement.mul p.x (FieldElement.square q.z))))) (FieldElement.mul (FieldElement.mul p.x (FieldElement.square q.z)) (FieldElement.square (FieldElement.sub (FieldElement.mul q.x (FieldElement.square p.z)) (FieldElement.mul p.x (FieldElement.square q.z)))))) (FieldElement.mul (FieldElement.mul p.x (FieldElement.square q.z)) (FieldElement.square (FieldElement.sub (FieldElement.mul q.x (FieldElement.square p.z)) (FieldElement.mul p.x (FieldElement.square q.z)))))),
        (FieldElement.sub (FieldElement.mul (FieldElement.sub (FieldElement.mul q.y (FieldElement.mul (FieldElement.square p.z) p.z)) (FieldElement.mul p.y (FieldElement.mul (FieldElement.square q.z) q.z))) (FieldElement.sub (FieldElement.mul (FieldElement.mul p.x (FieldElement.square q.z)) (FieldElement.square (FieldElement.sub (FieldElement.mul q.x (FieldElement.square p.z)) (FieldElement.mul p.x (FieldElement.square q.z))))) (FieldElement.sub (FieldElement.sub (FieldElement.sub (FieldElement.square (FieldElement.sub (FieldElement.mul q.y (FieldElement.mul (FieldElement.square p.z) p.z)) (FieldElement.mul p.y (FieldElement.mul (FieldElement.square q.z) q.z)))) (FieldElement.mul (FieldElement.square (FieldElement.sub (FieldElement.mul q.x (FieldElement.square p.z)) (FieldElement.mul p.x (FieldElement.square q.z)))) (FieldElement.sub (FieldElement.mul q.x (FieldElement.square p.z)) (FieldElement.mul p.x (FieldElement.square q.z))))) (FieldElement.mul (FieldElement.mul p.x (FieldElement.square q.z)) (FieldElement.square (FieldElement.sub (FieldElement.mul q.x (FieldElement.square p.z)) (FieldElement.mul p.x (FieldElement.square q.z)))))) (FieldElement.mul (FieldElement.mul p.x (FieldElement.square q.z)) (FieldElement.square (FieldElement.sub (FieldElement.mul q.x (FieldElement.square p.z)) (FieldElement.mul p.x (FieldElement.square q.z)))))))) (FieldElement.mul (FieldElement.mul p.y (FieldElement.mul (FieldElement.square q.z) q.z)) (FieldElement.mul (FieldElement.square (FieldElement.sub (FieldElement.mul q.x (FieldElement.square p.z)) (FieldElement.mul p.x (FieldElement.square q.z)))) (FieldElement.sub (FieldElement.mul q.x (FieldElement.square p.z)) (FieldElement.mul p.x (FieldElement.square q.z)))))),
        (FieldElement.mul (FieldElement.mul (FieldElement.sub (FieldElement.mul q.x (FieldElement.square p.z)) (FieldElement.mul p.x (FieldElement.square q.z))) p.z) q.z)⟩

end Point

/-- Rust `u64::to_be_bytes`. -/
def u64beBytes (x : Nat) : List Nat :=
  [x >>> 56 &&& 255, x >>> 48 &&& 255, x >>> 40 &&& 255, x >>> 32 &&& 255,
   x >>> 24 &&& 255, x >>> 16 &&& 255, x >>> 8 &&& 255, x &&& 255]

/-- `Scalar::to_bytes`: big-endian 32 bytes, most significant limb first. -/
def scalarToBytesBE (k : List Nat) : List Nat :=
  u64beBytes (k.getD 3 0) ++ u64beBytes (k.getD 2 0) ++
    u64beBytes (k.getD 1 0) ++ u64beBytes (k.getD 0 0)

namespace Point

/-- `Point::mul`: double-and-add over the scalar bytes, LSB to MSB. -/
def mul (p : Point) (k : List Nat) : Point :=
  if Scalar.is_zero k || is_infinity p then INFINITY
  else
    ((scalarToBytesBE k).reverse.foldl
      (fun acc byte =>
        (List.range 8).foldl
          (fun acc bit =>
            ((if (byte >>> bit) &&& 1 = 1 then add acc.1 acc.2 else acc.1),
              double acc.2))
          acc)
      (INFINITY, p)).1

/-- `Point::mul_generator`. -/
def mul_generator (k : List Nat) : Point := mul generator k

end Point

/-- Coordinate-wise canonical form of a point. -/
def PtCanonical (p : Point) : Prop :=
  IsCanonical pVal p.x ∧ IsCanonical pVal p.y ∧ IsCanonical pVal p.z

/-- The curve invariant from the spec in Jacobian form: `Y^2 = X^3 + 7 Z^6`
over `GF(p)` (the cross-multiplied form of `y^2 = x^3 + 7` with `x = X/Z^2`,
`y = Y/Z^3`), stated over `ZMod pVal` on coordinate values. -/
def OnCurveN (p : Point) : Prop :=
  ((valL p.y : ZMod pVal)) ^ 2 = (valL p.x : ZMod pVal) ^ 3 + 7 * (valL p.z : ZMod pVal) ^ 6

instance (p : Point) : Decidable (PtCanonical p) := by
  unfold PtCanonical
  infer_instance

instance (p : Point) : Decidable (OnCurveN p) := by
  unfold OnCurveN
  infer_instance

/-- Modular exponentiation by squaring, used to state the primality
certificates for the secp256k1 field prime; `fuel` only bounds the
recursion (`e` halves each step, so `fuel = e` is never exhausted early). -/
def powModGo : Nat → Nat → Nat → Nat → Nat
  | 0, _, _, m => 1 % m
  | fuel + 1, b, e, m =>
    if e = 0 then 1 % m
    else
      let r := powModGo fuel (b * b % m) (e / 2) m
      if e % 2 = 1 then r * b % m else r

/-- `b ^ e % m` by square-and-multiply. -/
def powMod (b e m : Nat) : Nat := powModGo e b e m

/-! ## Theorems -/

theorem utf8Len_of_ascii (s : List Char) (h : isAsciiStr s = true) :
    utf8Len s = s.length := by
  induction s with
  | nil => rfl
  | cons c cs ih =>
    simp only [isAsciiStr, List.all_cons, Bool.and_eq_true] at h
    have h1 : c.utf8Size = 1 := by
      have hc := h.1
      simp only [decide_eq_true_eq] at hc
      simp only [Char.utf8Size]
      have hv : c.val ≤ 0x7F := by
        change c.val.toNat < 128 at hc
        rw [UInt32.le_def]
        change c.val.toNat ≤ 127
        omega
      simp [hv]
    have h2 : utf8Len cs = cs.length := ih (by
      simp only [isAsciiStr]
      exact List.all_eq_true.mpr (fun x hx => (List.all_eq_true.mp h.2) x hx))
    simp only [utf8Len, List.map_cons, List.sum_cons, List.length_cons] at *
    omega

theorem validate_pattern_isOk_iff (pattern : List Char) (ic : Bool) :
    (validate_pattern pattern ic).isOk = true ↔ PatternOk pattern ic := by
  cases pattern with
  | nil =>
    simp [validate_pattern, PatternOk, Except.isOk, Except.toBool]
  | cons c0 rest =>
    simp only [validate_pattern]
    by_cases h1 : utf8Len (c0 :: rest) > MAX_PATTERN_LEN
    · rw [if_pos h1]
      simp only [Except.isOk, Except.toBool, Bool.false_eq_true, false_iff]
      rintro ⟨-, hascii, hlen32, -⟩
      rw [utf8Len_of_ascii _ hascii] at h1
      simp only [MAX_PATTERN_LEN] at h1
      omega
    · rw [if_neg h1]
      by_cases h2 : isAsciiStr (c0 :: rest) = true
      · rw [if_neg (not_not_intro h2)]
        rcases hfind : (c0 :: rest).find? (fun c => !(BASE58_ALPHABET.contains c)) with - | c
        · dsimp only
          rw [List.find?_eq_none] at hfind
          have hall : ∀ c ∈ c0 :: rest, BASE58_ALPHABET.contains c = true := by
            intro c hc
            have := hfind c hc
            simpa using this
          have hlen32 : (c0 :: rest).length ≤ 32 := by
            rw [utf8Len_of_ascii _ h2] at h1
            simp only [MAX_PATTERN_LEN] at h1
            omega
          by_cases h9 : c0 = '9'
          · rw [if_neg (not_not_intro h9)]
            cases rest with
            | nil =>
              simp only [Except.isOk, Except.toBool, true_iff]
              refine ⟨by simp, h2, hlen32, hall, by simp [h9], ?_⟩
              intro c hc
              simp [List.get?] at hc
            | cons c1 rest' =>
              dsimp only
              by_cases hsec : VALID_SECOND_CHARS.contains
                  (if ic = true then asciiLowerChar c1 else c1) = true
              · rw [if_neg (not_not_intro hsec)]
                simp only [Except.isOk, Except.toBool, true_iff]
                refine ⟨by simp, h2, hlen32, hall, by simp [h9], ?_⟩
                intro c hc
                simp only [List.get?] at hc
                injection hc with hc
                subst hc
                exact hsec
              · rw [if_pos hsec]
                have hnot : ¬ PatternOk (c0 :: c1 :: rest') ic := by
                  rintro ⟨-, -, -, -, -, hc⟩
                  exact hsec (hc c1 rfl)
                split_ifs with hic hup
                · simp only [Except.isOk, Except.toBool, Bool.false_eq_true, false_iff]
                  exact hnot
                · simp only [Except.isOk, Except.toBool, Bool.false_eq_true, false_iff]
                  exact hnot
                · simp only [Except.isOk, Except.toBool, Bool.false_eq_true, false_iff]
                  exact hnot
          · rw [if_pos h9]
            simp only [Except.isOk, Except.toBool, Bool.false_eq_true, false_iff]
            rintro ⟨-, -, -, -, hh, -⟩
            simp only [List.head?_cons, Option.some.injEq] at hh
            exact h9 hh
        · have hc' := List.find?_some hfind
          have hcmem := List.mem_of_find?_eq_some hfind
          simp only [Except.isOk, Except.toBool, Bool.false_eq_true, false_iff]
          rintro ⟨-, -, -, hallc, -⟩
          rw [hallc c hcmem] at hc'
          simp at hc'
      · rw [if_pos h2]
        simp only [Except.isOk, Except.toBool, Bool.false_eq_true, false_iff]
        rintro ⟨-, h, -⟩
        exact h2 h

theorem validate_pattern_ok_val (pattern : List Char) (ic : Bool) (m : List Char)
    (h : validate_pattern pattern ic = .ok m) :
    m = if ic then pattern.map asciiLowerChar else pattern := by
  cases pattern with
  | nil => simp [validate_pattern] at h
  | cons c0 rest =>
    simp only [validate_pattern] at h
    by_cases h1 : utf8Len (c0 :: rest) > MAX_PATTERN_LEN
    · rw [if_pos h1] at h
      cases h
    · rw [if_neg h1] at h
      by_cases h2 : isAsciiStr (c0 :: rest) = true
      · rw [if_neg (not_not_intro h2)] at h
        rcases hfind : (c0 :: rest).find? (fun c => !(BASE58_ALPHABET.contains c)) with - | c <;>
          (try rw [hfind] at h) <;> dsimp only at h
        · by_cases h9 : c0 = '9'
          · rw [if_neg (not_not_intro h9)] at h
            cases rest with
            | nil =>
              dsimp only at h
              injection h with h
              exact h.symm
            | cons c1 rest' =>
              dsimp only at h
              by_cases hsec : VALID_SECOND_CHARS.contains
                  (if ic = true then asciiLowerChar c1 else c1) = true
              · rw [if_neg (not_not_intro hsec)] at h
                injection h with h
                exact h.symm
              · rw [if_pos hsec] at h
                split_ifs at h <;> cases h
          · rw [if_pos h9] at h
            cases h
        · cases h
      · rw [if_pos h2] at h
        cases h

/-- C9: `validate_pattern` succeeds exactly for non-empty ASCII patterns of
length at most 32 whose characters are all in the Bitcoin Base58 alphabet,
whose first character is `'9'`, and whose second character (if present,
lowercased only when `ignore_case`) is one of e,f,g,h,i; on success it
returns the pattern lowercased iff `ignore_case`, so `validate("9F", true)`
returns `"9f"` while `validate("9F", false)` errors mentioning "uppercase". -/
theorem claim_C9_validate_pattern (pattern : List Char) (ic : Bool) :
    ((validate_pattern pattern ic).isOk = true ↔ PatternOk pattern ic)
    ∧ (∀ m, validate_pattern pattern ic = .ok m →
        m = if ic then pattern.map asciiLowerChar else pattern)
    ∧ validate_pattern "9F".toList true = .ok "9f".toList
    ∧ (∃ msg, validate_pattern "9F".toList false = .error msg ∧
        listMentions "uppercase".toList msg = true) := by
  refine ⟨validate_pattern_isOk_iff pattern ic,
    fun m h => validate_pattern_ok_val pattern ic m h, rfl, ⟨_, rfl, by decide⟩⟩

theorem claim_C9_witness :
    (validate_pattern "9f".toList false).isOk = true :=
  (claim_C9_validate_pattern "9f".toList false).1.mpr (by decide)

theorem pushByte_length (c : Nat) (l : List Nat) :
    (base58.pushByte c l).length = l.length := by
  induction l generalizing c with
  | nil => rfl
  | cons d rest ih => simp [base58.pushByte, ih]

theorem pushByte_lt (c : Nat) (l : List Nat) :
    ∀ d ∈ base58.pushByte c l, d < 58 := by
  induction l generalizing c with
  | nil => simp [base58.pushByte]
  | cons d rest ih =>
    simp only [base58.pushByte, List.mem_cons]
    rintro x (rfl | hx)
    · exact Nat.mod_lt _ (by norm_num)
    · exact ih _ x hx

theorem mod_mul_factor (b M s u : Nat) (hb : 0 < b) (hM : 0 < M) (hs : s < b) :
    (s + b * u) % (b * M) = s + b * (u % M) := by
  conv_lhs => rw [← Nat.div_add_mod u M]
  have h1 : s + b * (M * (u / M) + u % M) = s + b * (u % M) + b * M * (u / M) := by ring
  rw [h1, Nat.add_mul_mod_self_left]
  refine Nat.mod_eq_of_lt ?_
  have h2 : u % M < M := Nat.mod_lt _ hM
  calc s + b * (u % M) < b * (u % M) + b := by omega
  _ = b * (u % M + 1) := by ring
  _ ≤ b * M := Nat.mul_le_mul_left _ (by omega)

theorem pushByte_ofDigits (c : Nat) (l : List Nat) :
    Nat.ofDigits 58 (base58.pushByte c l) = (c + 256 * Nat.ofDigits 58 l) % 58 ^ l.length := by
  induction l generalizing c with
  | nil => simp [base58.pushByte, Nat.ofDigits, Nat.mod_one]
  | cons d rest ih =>
    simp only [base58.pushByte, Nat.ofDigits_cons, List.length_cons]
    rw [ih]
    have hv : (Nat.ofDigits 58 rest : ℕ) = Nat.ofDigits 58 rest := rfl
    set vr : ℕ := Nat.ofDigits 58 rest with hvr
    have h1 : c + 256 * ((d : ℕ) + 58 * vr) =
        (c + d * 256) % 58 + 58 * ((c + d * 256) / 58 + 256 * vr) := by omega
    rw [h1, pow_succ, mul_comm (58 ^ rest.length) 58,
      mod_mul_factor 58 (58 ^ rest.length) _ _ (by norm_num)
        (Nat.pos_pow_of_pos _ (by norm_num)) (Nat.mod_lt _ (by norm_num))]

theorem fold_pushByte_length (data buf : List Nat) :
    (data.foldl (fun b byte => base58.pushByte byte b) buf).length = buf.length := by
  induction data generalizing buf with
  | nil => rfl
  | cons byte rest ih => simp [List.foldl_cons, ih, pushByte_length]

theorem fold_pushByte_lt (data buf : List Nat) (hd : ∀ d ∈ buf, d < 58) :
    ∀ d ∈ data.foldl (fun b byte => base58.pushByte byte b) buf, d < 58 := by
  induction data generalizing buf with
  | nil => exact hd
  | cons byte rest ih =>
    simp only [List.foldl_cons]
    exact ih _ (pushByte_lt byte buf)

theorem fold_pushByte_ofDigits (data buf : List Nat) (hd : ∀ d ∈ buf, d < 58) :
    Nat.ofDigits 58 (data.foldl (fun b byte => base58.pushByte byte b) buf)
      = (256 ^ data.length * Nat.ofDigits 58 buf + Nat.ofDigits 256 data.reverse)
          % 58 ^ buf.length := by
  induction data generalizing buf with
  | nil =>
    simp only [List.foldl_nil, List.length_nil, pow_zero, one_mul, List.reverse_nil]
    rw [show Nat.ofDigits 256 ([] : List ℕ) = 0 from rfl, Nat.add_zero]
    exact (Nat.mod_eq_of_lt (Nat.ofDigits_lt_base_pow_length (by norm_num) hd)).symm
  | cons byte rest ih =>
    simp only [List.foldl_cons, List.reverse_cons, List.length_cons]
    rw [ih _ (pushByte_lt byte buf), pushByte_length, pushByte_ofDigits,
      Nat.ofDigits_append]
    have habs :
        (256 ^ rest.length * ((byte + 256 * Nat.ofDigits 58 buf) % 58 ^ buf.length)
            + Nat.ofDigits 256 rest.reverse) % 58 ^ buf.length
          = (256 ^ rest.length * (byte + 256 * Nat.ofDigits 58 buf)
            + Nat.ofDigits 256 rest.reverse) % 58 ^ buf.length :=
      Nat.ModEq.add_right _ (Nat.ModEq.mul_left _ (Nat.mod_modEq _ _))
    rw [habs]
    congr 1
    have hone : Nat.ofDigits 256 [byte] = byte := by
      simp [Nat.ofDigits_cons, Nat.ofDigits]
    rw [List.length_reverse, hone]
    ring

theorem ofDigits_all_zero (b : Nat) (l : List Nat) (h0 : ∀ x ∈ l, x = 0) :
    Nat.ofDigits b l = 0 := by
  induction l with
  | nil => rfl
  | cons d rest ih =>
    rw [Nat.ofDigits_cons, h0 d (by simp), ih (fun x hx => h0 x (by simp [hx]))]
    simp

theorem dropWhile_head?_not {α : Type} (p : α → Bool) (l : List α) (x : α)
    (h : (l.dropWhile p).head? = some x) : p x = false := by
  induction l with
  | nil => simp at h
  | cons a rest ih =>
    by_cases hp : p a
    · rw [List.dropWhile_cons_of_pos hp] at h
      exact ih h
    · rw [List.dropWhile_cons_of_neg hp] at h
      simp only [List.head?_cons, Option.some.injEq] at h
      subst h
      simpa using hp

theorem digits_len_le_of_lt_pow {N k : Nat} (h : N < 58 ^ k) :
    (Nat.digits 58 N).length ≤ k := by
  by_cases hN : N = 0
  · simp [hN]
  · by_contra hlen
    have h1 : 58 ^ (k + 1) ≤ 58 ^ (Nat.digits 58 N).length :=
      Nat.pow_le_pow_right (by norm_num) (by omega)
    have h2 : 58 ^ (Nat.digits 58 N).length ≤ 58 * N :=
      Nat.base_pow_length_digits_le 58 N (by norm_num) hN
    have h3 : 58 * 58 ^ k ≤ 58 * N := by
      calc 58 * 58 ^ k = 58 ^ (k + 1) := by ring
      _ ≤ _ := le_trans h1 h2
    omega

theorem pow_256_lt_pow_58 (n : Nat) : 256 ^ n < 58 ^ (n * 138 / 100 + 1) := by
  rcases Nat.eq_zero_or_pos n with rfl | hn
  · norm_num
  · have key : (256 : ℕ) ^ 100 < 58 ^ 138 := by norm_num
    by_contra hcon
    push_neg at hcon
    have h1 : 138 * n ≤ 100 * (n * 138 / 100 + 1) := by omega
    have c1 : ((58 : ℕ) ^ (n * 138 / 100 + 1)) ^ 100 ≤ (256 ^ n) ^ 100 :=
      Nat.pow_le_pow_left hcon 100
    have c2 : ((256 : ℕ) ^ n) ^ 100 = (256 ^ 100) ^ n := by
      rw [← pow_mul, ← pow_mul, Nat.mul_comm]
    have c3 : ((256 : ℕ) ^ 100) ^ n < (58 ^ 138) ^ n :=
      Nat.pow_lt_pow_left key (by omega)
    have c4 : ((58 : ℕ) ^ 138) ^ n ≤ ((58 : ℕ) ^ (n * 138 / 100 + 1)) ^ 100 := by
      rw [← pow_mul, ← pow_mul]
      exact Nat.pow_le_pow_right (by norm_num) (by omega)
    omega

theorem base58_encode_eq (data : List Nat) (hB : ∀ b ∈ data, b < 256) :
    base58.encode data
      = List.replicate ((data.takeWhile (· == 0)).length) '1'
        ++ (Nat.digits 58 (Nat.ofDigits 256 data.reverse)).reverse.map
            (fun d => base58.ALPHABET.getD d ' ') := by
  by_cases hnil : data = []
  · subst hnil
    simp [base58.encode, Nat.ofDigits]
  · simp only [base58.encode, if_neg hnil]
    set size := data.length * 138 / 100 + 1 with hsize
    set buf := data.foldl (fun b byte => base58.pushByte byte b)
      (List.replicate size 0) with hbuf
    have hrep : ∀ d ∈ List.replicate size (0 : ℕ), d < 58 := by
      intro d hd
      rw [List.eq_of_mem_replicate hd]
      norm_num
    have hlenbuf : buf.length = size := by
      rw [hbuf, fold_pushByte_length, List.length_replicate]
    have hlt : ∀ d ∈ buf, d < 58 := by
      rw [hbuf]
      exact fold_pushByte_lt _ _ hrep
    have hNlt : Nat.ofDigits 256 data.reverse < 58 ^ size := by
      have h1 : Nat.ofDigits 256 data.reverse < 256 ^ data.reverse.length :=
        Nat.ofDigits_lt_base_pow_length (by norm_num)
          (fun x hx => hB x (List.mem_reverse.mp hx))
      rw [List.length_reverse] at h1
      exact lt_trans h1 (pow_256_lt_pow_58 _)
    have hN : Nat.ofDigits 58 buf = Nat.ofDigits 256 data.reverse := by
      rw [hbuf, fold_pushByte_ofDigits _ _ hrep,
        ofDigits_all_zero 58 _ (fun x hx => List.eq_of_mem_replicate hx),
        List.length_replicate, Nat.mul_zero, Nat.zero_add]
      exact Nat.mod_eq_of_lt hNlt
    set t := buf.reverse.dropWhile (· == 0) with ht
    have hsplit : buf.reverse.takeWhile (· == 0) ++ t = buf.reverse :=
      List.takeWhile_append_dropWhile (· == 0) buf.reverse
    have hvalt : Nat.ofDigits 58 t.reverse = Nat.ofDigits 58 buf := by
      conv_rhs => rw [← List.reverse_reverse buf, ← hsplit]
      rw [List.reverse_append, Nat.ofDigits_append,
        ofDigits_all_zero 58 ((buf.reverse.takeWhile (· == 0)).reverse)
          (by
            intro x hx
            have hx' := List.mem_takeWhile_imp (List.mem_reverse.mp hx)
            simpa using hx')]
      simp
    have hdigits : Nat.digits 58 (Nat.ofDigits 256 data.reverse) = t.reverse := by
      rw [← hN, ← hvalt]
      by_cases ht0 : t = []
      · rw [ht0]
        simp [Nat.ofDigits]
      · refine Nat.digits_ofDigits 58 (by norm_num) t.reverse ?_ ?_
        · intro x hx
          have hx1 : x ∈ t := List.mem_reverse.mp hx
          have hx2 : x ∈ buf.reverse := (List.dropWhile_sublist _).subset hx1
          exact hlt x (List.mem_reverse.mp hx2)
        · intro hne
          have hhead : t.head? = some (t.head ht0) := List.head?_eq_head _
          have hpf : ((t.head ht0 : ℕ) == 0) = false := by
            apply dropWhile_head?_not (· == 0) buf.reverse
            rw [← ht]
            exact hhead
          have hlast : t.reverse.getLast hne = t.head ht0 := by
            have h1 := List.getLast?_eq_getLast t.reverse hne
            rw [List.getLast?_reverse, hhead] at h1
            exact (Option.some_inj.mp h1).symm
          rw [hlast]
          simpa using hpf
    rw [hdigits, List.reverse_reverse]

theorem base58_encode_length_le (data : List Nat) (hB : ∀ b ∈ data, b < 256) :
    (base58.encode data).length ≤ (data.length * 138 + 99) / 100 + 1 := by
  rw [base58_encode_eq data hB]
  set lz := (data.takeWhile (· == 0)).length with hlz
  set N := Nat.ofDigits 256 data.reverse with hN
  have hsplit : data.takeWhile (· == 0) ++ data.dropWhile (· == 0) = data :=
    List.takeWhile_append_dropWhile (· == 0) data
  have hNdrop : N = Nat.ofDigits 256 (data.dropWhile (· == 0)).reverse := by
    rw [hN]
    conv_lhs => rw [← hsplit]
    rw [List.reverse_append, Nat.ofDigits_append,
      ofDigits_all_zero 256 ((data.takeWhile (· == 0)).reverse)
        (by
          intro x hx
          have hx' := List.mem_takeWhile_imp (List.mem_reverse.mp hx)
          simpa using hx')]
    simp
  have hm : (data.dropWhile (· == 0)).length = data.length - lz := by
    have := congrArg List.length hsplit
    simp only [List.length_append] at this
    omega
  have hNlt : N < 256 ^ (data.length - lz) := by
    rw [hNdrop, ← hm, ← List.length_reverse (data.dropWhile (· == 0))]
    exact Nat.ofDigits_lt_base_pow_length (by norm_num)
      (fun x hx => hB x ((List.dropWhile_sublist _).subset (List.mem_reverse.mp hx)))
  have hdlen : (Nat.digits 58 N).length ≤ (data.length - lz) * 138 / 100 + 1 :=
    digits_len_le_of_lt_pow (lt_trans hNlt (pow_256_lt_pow_58 _))
  have hlzle : lz ≤ data.length := by
    have := congrArg List.length hsplit
    simp only [List.length_append] at this
    omega
  simp only [List.length_append, List.length_replicate, List.length_map,
    List.length_reverse]
  omega

/-- C8: for every byte string, `base58::encode` outputs one `'1'` per leading
zero byte, then the base-58 digits (Bitcoin alphabet) of the input read as a
big-endian integer; the empty input encodes to the empty string; and the
output length is at most `⌈n·138/100⌉ + 1`. -/
theorem claim_C8_base58_encode (data : List Nat) (hB : ∀ b ∈ data, b < 256) :
    (base58.encode data
      = List.replicate ((data.takeWhile (· == 0)).length) '1'
        ++ (Nat.digits 58 (Nat.ofDigits 256 data.reverse)).reverse.map
            (fun d => base58.ALPHABET.getD d ' '))
    ∧ base58.encode [] = []
    ∧ (base58.encode data).length ≤ (data.length * 138 + 99) / 100 + 1 :=
  ⟨base58_encode_eq data hB, rfl, base58_encode_length_le data hB⟩

theorem claim_C8_witness :
    (∀ b ∈ [0, 0, 0, 1], b < 256)
    ∧ ((base58.encode [0, 0, 0, 1]
        = List.replicate (([0, 0, 0, 1].takeWhile (· == 0)).length) '1'
          ++ (Nat.digits 58 (Nat.ofDigits 256 [0, 0, 0, 1].reverse)).reverse.map
              (fun d => base58.ALPHABET.getD d ' '))
      ∧ base58.encode [] = []
      ∧ (base58.encode [0, 0, 0, 1]).length ≤ ([0, 0, 0, 1].length * 138 + 99) / 100 + 1) :=
  ⟨by decide, claim_C8_base58_encode [0, 0, 0, 1] (by decide)⟩

theorem blake2b_compress_length (h block : List Nat) (t : Nat) (last : Bool) :
    (blake2b.compress h block t last).length = 8 := by
  simp [blake2b.compress]

theorem blake2b_digestLoop_length (rest : List Nat) : ∀ h : List Nat, ∀ t : Nat,
    (blake2b.digestLoop h t rest).length = 8 := by
  generalize hn : rest.length = n
  induction n using Nat.strong_induction_on generalizing rest with
  | _ n ih =>
    intro h t
    unfold blake2b.digestLoop
    split
    · refine ih ((rest.drop 128).length) ?_ _ rfl _ _
      simp only [List.length_drop]
      omega
    · exact blake2b_compress_length _ _ _ _

theorem blake2b_digest_length (data : List Nat) :
    (blake2b.digest data).length = 32 := by
  simp only [blake2b.digest]
  rw [List.length_flatMap]
  have h8 := blake2b_digestLoop_length data
    (blake2b.IV.set 0 ((blake2b.IV.getD 0 0) ^^^ (0x01010000 ^^^ 32))) 0
  set l := blake2b.digestLoop
    (blake2b.IV.set 0 ((blake2b.IV.getD 0 0) ^^^ (0x01010000 ^^^ 32))) 0 data with hl
  rcases l with - | ⟨a, - | ⟨b, - | ⟨c, - | ⟨d, rest⟩⟩⟩⟩ <;> simp_all

/-- C1: `encode_p2pk` returns the Base58 encoding of exactly 38 bytes laid
out as prefix byte, the 33 pubkey bytes, then the first 4 bytes of
Blake2b-256 of (prefix byte ++ pubkey); the prefix byte is
`network_byte | type_byte`, and for mainnet P2PK it equals 0x01. -/
theorem claim_C1_encode_p2pk (pubkey : List Nat) (network : Network)
    (hlen : pubkey.length = 33) :
    (encode_p2pk pubkey network
      = base58.encode (prefixByte network .P2PK :: pubkey
          ++ (blake2b.digest (prefixByte network .P2PK :: pubkey)).take 4))
    ∧ (prefixByte network .P2PK :: pubkey
        ++ (blake2b.digest (prefixByte network .P2PK :: pubkey)).take 4).length = 38
    ∧ prefixByte network .P2PK = network.prefixVal ||| AddressType.P2PK.type_byte
    ∧ prefixByte .Mainnet .P2PK = 0x01 := by
  refine ⟨rfl, ?_, rfl, rfl⟩
  simp [List.length_append, hlen, List.length_take, blake2b_digest_length]

theorem claim_C1_witness :
    (List.replicate 33 (2 : Nat)).length = 33
    ∧ ((encode_p2pk (List.replicate 33 2) .Mainnet
      = base58.encode (prefixByte .Mainnet .P2PK :: List.replicate 33 2
          ++ (blake2b.digest (prefixByte .Mainnet .P2PK :: List.replicate 33 2)).take 4))
    ∧ (prefixByte .Mainnet .P2PK :: List.replicate 33 2
        ++ (blake2b.digest (prefixByte .Mainnet .P2PK :: List.replicate 33 2)).take 4).length = 38
    ∧ prefixByte .Mainnet .P2PK = Network.Mainnet.prefixVal ||| AddressType.P2PK.type_byte
    ∧ prefixByte .Mainnet .P2PK = 0x01) :=
  ⟨by decide, claim_C1_encode_p2pk (List.replicate 33 2) .Mainnet (by decide)⟩

theorem shiftl_or_bit (a b : Nat) (hb : b ≤ 1) : (a <<< 1) ||| b = 2 * a + b := by
  have hb2 : b < 2 ^ 1 := by omega
  have h := Nat.mul_add_lt_is_or hb2 a
  rw [Nat.shiftLeft_eq, pow_one, Nat.mul_comm a 2] at *
  omega

theorem shiftRight_and_one (v i : Nat) : v >>> i &&& 1 = v / 2 ^ i % 2 := by
  rw [Nat.shiftRight_eq_div_pow, Nat.and_one_is_mod]

theorem bitsBE_length (k v : Nat) : (bitsBE k v).length = k := by
  simp [bitsBE]

theorem bitsBE_le_one (k v : Nat) : ∀ b ∈ bitsBE k v, b ≤ 1 := by
  intro b hb
  simp only [bitsBE, List.mem_map] at hb
  obtain ⟨i, -, rfl⟩ := hb
  rw [shiftRight_and_one]
  omega

theorem bitsBE_succ (k v : Nat) :
    bitsBE (k + 1) v = (v >>> k &&& 1) :: bitsBE k v := by
  simp [bitsBE, List.range_succ]

theorem div_pow_mod_two_high (q rem i k : Nat) (hik : i < k) :
    (2 ^ k * q + rem) / 2 ^ i % 2 = rem / 2 ^ i % 2 := by
  have h1 : 2 ^ k * q = 2 ^ i * (2 ^ (k - i) * q) := by
    rw [← Nat.mul_assoc, ← pow_add]
    congr 2
    omega
  rw [h1, Nat.add_comm, Nat.add_mul_div_left _ _ (Nat.pos_pow_of_pos i (by norm_num))]
  have h2 : 2 ^ (k - i) * q = 2 * (2 ^ (k - i - 1) * q) := by
    have hki : k - i = (k - i - 1) + 1 := by omega
    calc 2 ^ (k - i) * q = 2 ^ ((k - i - 1) + 1) * q := by rw [← hki]
    _ = 2 * (2 ^ (k - i - 1) * q) := by rw [pow_succ]; ring
  rw [h2, Nat.add_mul_mod_self_left]

theorem bitsBE_mod (k v : Nat) : bitsBE k v = bitsBE k (v % 2 ^ k) := by
  unfold bitsBE
  refine List.map_congr_left ?_
  intro i hi
  rw [List.mem_reverse, List.mem_range] at hi
  rw [shiftRight_and_one, shiftRight_and_one]
  conv_lhs => rw [← Nat.div_add_mod v (2 ^ k)]
  exact div_pow_mod_two_high (v / 2 ^ k) (v % 2 ^ k) i k hi

theorem foldl_two_mul_acc (c : List Nat) (a : Nat) :
    c.foldl (fun x b => 2 * x + b) a
      = a * 2 ^ c.length + c.foldl (fun x b => 2 * x + b) 0 := by
  induction c generalizing a with
  | nil => simp
  | cons b rest ih =>
    simp only [List.foldl_cons, List.length_cons]
    rw [ih (2 * a + b), ih (2 * 0 + b)]
    ring

theorem foldl_two_mul_lt (c : List Nat) (hc : ∀ b ∈ c, b ≤ 1) :
    c.foldl (fun x b => 2 * x + b) 0 < 2 ^ c.length := by
  induction c with
  | nil => simp
  | cons b rest ih =>
    simp only [List.foldl_cons, List.length_cons]
    rw [foldl_two_mul_acc]
    have hb : b ≤ 1 := hc b (by simp)
    have hr : rest.foldl (fun x b => 2 * x + b) 0 < 2 ^ rest.length :=
      ih (fun x hx => hc x (by simp [hx]))
    have : (2 * 0 + b) * 2 ^ rest.length ≤ 2 ^ rest.length := by
      have := Nat.mul_le_mul_right (2 ^ rest.length) (show 2 * 0 + b ≤ 1 by omega)
      omega
    rw [pow_succ]
    omega

theorem foldl_or_eq_two_mul (c : List Nat) (a : Nat) (hc : ∀ b ∈ c, b ≤ 1) :
    c.foldl (fun x b => (x <<< 1) ||| b) a = c.foldl (fun x b => 2 * x + b) a := by
  induction c generalizing a with
  | nil => rfl
  | cons b rest ih =>
    simp only [List.foldl_cons]
    rw [shiftl_or_bit a b (hc b (by simp)), ih _ (fun x hx => hc x (by simp [hx]))]

theorem bitsBE_foldl (c : List Nat) (hc : ∀ b ∈ c, b ≤ 1) :
    bitsBE c.length (c.foldl (fun x b => 2 * x + b) 0) = c := by
  induction c with
  | nil => rfl
  | cons b rest ih =>
    have hb : b ≤ 1 := hc b (by simp)
    have hrest : ∀ x ∈ rest, x ≤ 1 := fun x hx => hc x (by simp [hx])
    have hvr : rest.foldl (fun x b => 2 * x + b) 0 < 2 ^ rest.length :=
      foldl_two_mul_lt rest hrest
    set vr := rest.foldl (fun x b => 2 * x + b) 0 with hvrdef
    have hval : (b :: rest).foldl (fun x b => 2 * x + b) 0 = 2 ^ rest.length * b + vr := by
      simp only [List.foldl_cons]
      rw [foldl_two_mul_acc]
      ring
    simp only [List.length_cons, hval]
    rw [bitsBE_succ]
    congr 1
    · rw [shiftRight_and_one, Nat.add_comm (2 ^ rest.length * b) vr,
        Nat.add_mul_div_left _ _ (Nat.pos_pow_of_pos _ (by norm_num)),
        Nat.div_eq_of_lt hvr]
      omega
    · rw [bitsBE_mod, Nat.mul_comm (2 ^ rest.length) b, Nat.add_comm,
        Nat.add_mul_mod_self_right, Nat.mod_eq_of_lt hvr, ih hrest]

theorem foldl_bitsBE (k v : Nat) (hv : v < 2 ^ k) :
    (bitsBE k v).foldl (fun x b => 2 * x + b) 0 = v := by
  induction k generalizing v with
  | zero =>
    have : v = 0 := by omega
    simp [this, bitsBE]
  | succ k ih =>
    rw [bitsBE_succ]
    simp only [List.foldl_cons]
    have hb : v >>> k &&& 1 = v / 2 ^ k := by
      rw [shiftRight_and_one]
      have hlt2 : v / 2 ^ k < 2 := by
        rw [Nat.div_lt_iff_lt_mul (Nat.pos_pow_of_pos _ (by norm_num))]
        rw [pow_succ] at hv
        omega
      exact Nat.mod_eq_of_lt hlt2
    rw [hb, foldl_two_mul_acc, bitsBE_mod, ih _ (Nat.mod_lt _ (Nat.pos_pow_of_pos _ (by norm_num))),
      bitsBE_length]
    have h2 := Nat.div_add_mod v (2 ^ k)
    calc (2 * 0 + v / 2 ^ k) * 2 ^ k + v % 2 ^ k
        = 2 ^ k * (v / 2 ^ k) + v % 2 ^ k := by ring
    _ = v := h2

theorem chunksExactGo_flatten (k : Nat) : ∀ (fuel : Nat) (l : List Nat),
    l.length ≤ fuel → 0 < k → k ∣ l.length → (chunksExactGo k fuel l).flatten = l := by
  intro fuel
  induction fuel with
  | zero =>
    intro l hl hk hdvd
    have hnil : l = [] := List.eq_nil_of_length_eq_zero (by omega)
    subst hnil
    rfl
  | succ fuel ih =>
    intro l hl hk hdvd
    simp only [chunksExactGo]
    split
    · rename_i h
      have hdvd' : k ∣ (l.drop k).length := by
        simp only [List.length_drop]
        exact Nat.dvd_sub' hdvd (Nat.dvd_refl k)
      have hle : (l.drop k).length ≤ fuel := by
        simp only [List.length_drop]
        omega
      simp only [List.flatten_cons]
      rw [ih _ hle hk hdvd', List.take_append_drop]
    · rename_i h
      push_neg at h
      have hzero : l.length = 0 := by
        rcases Nat.eq_zero_or_pos l.length with h0 | hpos
        · exact h0
        · have hle := Nat.le_of_dvd hpos hdvd
          have := h (by omega)
          omega
      simp [List.eq_nil_of_length_eq_zero hzero]

theorem chunksExact_flatten (k : Nat) (l : List Nat) (hk : 0 < k)
    (hdvd : k ∣ l.length) : (chunksExact k l).flatten = l :=
  chunksExactGo_flatten k l.length l (Nat.le_refl _) hk hdvd

theorem chunksExactGo_mem_length (k : Nat) : ∀ (fuel : Nat) (l : List Nat) (c : List Nat),
    c ∈ chunksExactGo k fuel l → c.length = k := by
  intro fuel
  induction fuel with
  | zero =>
    intro l c hc
    simp [chunksExactGo] at hc
  | succ fuel ih =>
    intro l c hc
    simp only [chunksExactGo] at hc
    split at hc
    · rename_i h
      rcases List.mem_cons.mp hc with rfl | hmem
      · rw [List.length_take]
        omega
      · exact ih _ _ hmem
    · simp at hc

theorem chunksExact_mem_length (k : Nat) (l : List Nat) (c : List Nat)
    (hc : c ∈ chunksExact k l) : c.length = k :=
  chunksExactGo_mem_length k l.length l c hc

theorem chunksExactGo_mem_subset (k : Nat) : ∀ (fuel : Nat) (l : List Nat) (c : List Nat),
    c ∈ chunksExactGo k fuel l → ∀ x ∈ c, x ∈ l := by
  intro fuel
  induction fuel with
  | zero =>
    intro l c hc
    simp [chunksExactGo] at hc
  | succ fuel ih =>
    intro l c hc
    simp only [chunksExactGo] at hc
    split at hc
    · rename_i h
      rcases List.mem_cons.mp hc with rfl | hmem
      · exact fun x hx => List.mem_of_mem_take hx
      · exact fun x hx => List.mem_of_mem_drop (ih _ _ hmem x hx)
    · simp at hc

theorem chunksExact_mem_subset (k : Nat) (l : List Nat) (c : List Nat)
    (hc : c ∈ chunksExact k l) : ∀ x ∈ c, x ∈ l :=
  chunksExactGo_mem_subset k l.length l c hc

theorem chunksExactGo_length (k : Nat) : ∀ (fuel : Nat) (l : List Nat),
    l.length ≤ fuel → 0 < k → k ∣ l.length →
    (chunksExactGo k fuel l).length = l.length / k := by
  intro fuel
  induction fuel with
  | zero =>
    intro l hl hk hdvd
    have hnil : l = [] := List.eq_nil_of_length_eq_zero (by omega)
    subst hnil
    simp [chunksExactGo]
  | succ fuel ih =>
    intro l hl hk hdvd
    simp only [chunksExactGo]
    split
    · rename_i h
      have hdvd' : k ∣ (l.drop k).length := by
        simp only [List.length_drop]
        exact Nat.dvd_sub' hdvd (Nat.dvd_refl k)
      have hle : (l.drop k).length ≤ fuel := by
        simp only [List.length_drop]
        omega
      simp only [List.length_cons]
      rw [ih _ hle hk hdvd']
      simp only [List.length_drop]
      obtain ⟨q, hq⟩ := hdvd
      have hq1 : 1 ≤ q := by
        rcases Nat.eq_zero_or_pos q with rfl | hpos
        · omega
        · omega
      rw [hq, show k * q - k = k * (q - 1) from by rw [Nat.mul_sub_one],
        Nat.mul_div_cancel_left _ hk, Nat.mul_div_cancel_left _ hk]
      omega
    · rename_i h
      push_neg at h
      have hzero : l.length = 0 := by
        rcases Nat.eq_zero_or_pos l.length with h0 | hpos
        · exact h0
        · have hle := Nat.le_of_dvd hpos hdvd
          have := h (by omega)
          omega
      simp [hzero]

theorem chunksExact_length (k : Nat) (l : List Nat) (hk : 0 < k) (hdvd : k ∣ l.length) :
    (chunksExact k l).length = l.length / k :=
  chunksExactGo_length k l.length l (Nat.le_refl _) hk hdvd

theorem length_flatMap_uniform {α : Type} (f : α → List Nat) (l : List α) (k : Nat)
    (hsz : ∀ x ∈ l, (f x).length = k) : (l.flatMap f).length = k * l.length := by
  induction l with
  | nil => simp
  | cons x rest ih =>
    simp only [List.flatMap_cons, List.length_append, List.length_cons]
    rw [hsz x (by simp), ih (fun y hy => hsz y (by simp [hy]))]
    ring

theorem getD_flatMap_uniform (f : Nat → List Nat) (l : List Nat) (k : Nat)
    (hsz : ∀ x ∈ l, (f x).length = k) (i j : Nat) (hi : i < l.length) (hj : j < k) :
    (l.flatMap f).getD (i * k + j) 0 = (f (l.getD i 0)).getD j 0 := by
  induction l generalizing i with
  | nil => simp at hi
  | cons x rest ih =>
    simp only [List.flatMap_cons]
    cases i with
    | zero =>
      simp only [Nat.zero_mul, Nat.zero_add, List.getD_cons_zero]
      rw [List.getD_append]
      rw [hsz x (by simp)]
      exact hj
    | succ i' =>
      have hx : (f x).length = k := hsz x (by simp)
      have harith : (i' + 1) * k + j = (f x).length + (i' * k + j) := by
        rw [hx]
        ring
      rw [harith, List.getD_append_right _ _ _ _ (by omega), List.getD_cons_succ]
      have hsub : (f x).length + (i' * k + j) - (f x).length = i' * k + j := by omega
      rw [hsub]
      exact ih (fun y hy => hsz y (by simp [hy])) i' (by simpa using hi)

theorem map_range_getD (l : List Nat) :
    (List.range l.length).map (fun i => l.getD i 0) = l := by
  refine List.ext_getElem (by simp) ?_
  intro i h1 h2
  simp only [List.getElem_map, List.getElem_range]
  rw [List.getD_eq_getElem l 0 h2]

theorem map_range_getD_chars (l : List (List Char)) :
    (List.range l.length).map (fun i => l.getD i []) = l := by
  refine List.ext_getElem (by simp) ?_
  intro i h1 h2
  simp only [List.getElem_map, List.getElem_range]
  rw [List.getD_eq_getElem l [] h2]

theorem takeWhile_all_append {α : Type} (p : α → Bool) (xs ys : List α)
    (h : ∀ x ∈ xs, p x = true) :
    (xs ++ ys).takeWhile p = xs ++ ys.takeWhile p := by
  induction xs with
  | nil => simp
  | cons x rest ih =>
    simp only [List.cons_append, List.takeWhile_cons, h x (by simp), if_true]
    rw [ih (fun y hy => h y (by simp [hy]))]

theorem dropWhile_all_append {α : Type} (p : α → Bool) (xs ys : List α)
    (h : ∀ x ∈ xs, p x = true) :
    (xs ++ ys).dropWhile p = ys.dropWhile p := by
  induction xs with
  | nil => simp
  | cons x rest ih =>
    simp only [List.cons_append, List.dropWhile_cons, h x (by simp), if_true]
    exact ih (fun y hy => h y (by simp [hy]))

theorem splitWsGo_nil (fuel : Nat) : splitWsGo fuel [] = [] := by
  cases fuel <;> rfl

theorem splitWsGo_joinSpace (ws : List (List Char))
    (hne : ∀ w ∈ ws, w ≠ [])
    (hnw : ∀ w ∈ ws, ∀ c ∈ w, isWsChar c = false) :
    ∀ fuel, (joinSpace ws).length ≤ fuel → splitWsGo fuel (joinSpace ws) = ws := by
  induction ws with
  | nil =>
    intro fuel hf
    rw [show joinSpace [] = [] from rfl, splitWsGo_nil]
  | cons w rest ih =>
    intro fuel hf
    have hwne : w ≠ [] := hne w (by simp)
    obtain ⟨c, w', rfl⟩ := List.exists_cons_of_ne_nil hwne
    have hcw : isWsChar c = false := hnw (c :: w') (by simp) c (by simp)
    have hw' : ∀ x ∈ w', (fun ch => !(isWsChar ch)) x = true := by
      intro x hx
      simp [hnw (c :: w') (by simp) x (by simp [hx])]
    cases rest with
    | nil =>
      show splitWsGo fuel (joinSpace [c :: w']) = [c :: w']
      rw [show joinSpace [c :: w'] = c :: w' from rfl]
      have hlen : (c :: w').length ≤ fuel := hf
      cases fuel with
      | zero => simp at hlen
      | succ fuel =>
        simp only [splitWsGo]
        rw [if_neg (by simp [hcw])]
        rw [List.takeWhile_eq_self_iff.mpr hw',
          List.dropWhile_eq_nil_iff.mpr (fun x hx => hw' x hx), splitWsGo_nil]
    | cons v rest' =>
      show splitWsGo fuel ((c :: w') ++ ' ' :: joinSpace (v :: rest')) = (c :: w') :: v :: rest'
      have hflen : (c :: w').length + 1 + (joinSpace (v :: rest')).length ≤ fuel := by
        have := hf
        simp only [show joinSpace ((c :: w') :: v :: rest')
            = (c :: w') ++ ' ' :: joinSpace (v :: rest') from rfl,
          List.length_append, List.length_cons] at this
        simp only [List.length_cons]
        omega
      cases fuel with
      | zero => simp at hflen
      | succ fuel =>
        simp only [List.cons_append, splitWsGo]
        rw [if_neg (by simp [hcw])]
        rw [takeWhile_all_append _ _ _ hw', dropWhile_all_append _ _ _ hw']
        have hsp : (' ' :: joinSpace (v :: rest')).takeWhile (fun ch => !(isWsChar ch)) = [] := by
          simp [List.takeWhile_cons, isWsChar]
        have hsp2 : (' ' :: joinSpace (v :: rest')).dropWhile (fun ch => !(isWsChar ch))
            = ' ' :: joinSpace (v :: rest') := by
          simp [List.dropWhile_cons, isWsChar]
        rw [hsp, hsp2, List.append_nil]
        cases fuel with
        | zero =>
          exfalso
          simp only [List.length_cons] at hflen
          omega
        | succ fuel =>
          have hws : isWsChar ' ' = true := by simp [isWsChar]
          simp only [splitWsGo]
          rw [if_pos hws]
          rw [ih (fun x hx => hne x (by simp [hx])) (fun x hx => hnw x (by simp [hx]))
            fuel (by simp only [List.length_cons] at hflen; omega)]

theorem splitWs_joinSpace (ws : List (List Char))
    (hne : ∀ w ∈ ws, w ≠ [])
    (hnw : ∀ w ∈ ws, ∀ c ∈ w, isWsChar c = false) :
    splitWs (joinSpace ws) = ws :=
  splitWsGo_joinSpace ws hne hnw (joinSpace ws).length (Nat.le_refl _)

theorem wordlist_length : WORDLIST.length = 2048 := by
  simp [WORDLIST]

theorem char_ofNat_lower_toNat (k : Nat) (hk : k < 26) :
    (Char.ofNat (97 + k)).toNat = 97 + k := by
  have hv : (97 + k).isValidChar := Or.inl (by omega)
  unfold Char.ofNat
  rw [dif_pos hv]
  rfl

theorem wordlist_words_shape (w : List Char) (hw : w ∈ WORDLIST) :
    ∃ a b c : Nat, a < 26 ∧ b < 26 ∧ c < 26 ∧
      w = [Char.ofNat (97 + a), Char.ofNat (97 + b), Char.ofNat (97 + c)] := by
  simp only [WORDLIST, List.mem_map, List.mem_range] at hw
  obtain ⟨n, -, rfl⟩ := hw
  exact ⟨n / 676 % 26, n / 26 % 26, n % 26, Nat.mod_lt _ (by norm_num),
    Nat.mod_lt _ (by norm_num), Nat.mod_lt _ (by norm_num), rfl⟩

theorem wordlist_ne_nil (w : List Char) (hw : w ∈ WORDLIST) : w ≠ [] := by
  obtain ⟨a, b, c, -, -, -, rfl⟩ := wordlist_words_shape w hw
  simp

theorem wordlist_no_ws (w : List Char) (hw : w ∈ WORDLIST) :
    ∀ ch ∈ w, isWsChar ch = false := by
  obtain ⟨a, b, c, ha, hb, hc, rfl⟩ := wordlist_words_shape w hw
  intro ch hch
  have htn : 97 ≤ ch.toNat ∧ ch.toNat ≤ 122 := by
    rcases List.mem_cons.mp hch with rfl | hch2
    · rw [char_ofNat_lower_toNat a ha]; omega
    · rcases List.mem_cons.mp hch2 with rfl | hch3
      · rw [char_ofNat_lower_toNat b hb]; omega
      · rcases List.mem_cons.mp hch3 with rfl | hch4
        · rw [char_ofNat_lower_toNat c hc]; omega
        · simp at hch4
  by_contra hws
  rw [Bool.not_eq_false] at hws
  simp [isWsChar, List.contains] at hws
  rcases htn with ⟨h1, h2⟩
  rcases hws with h | h | h | h | h | h | h | h | h | h | h | h |
    h | h | h | h | h | h | h | h | h | h | h | h | h <;> omega

theorem wordlist_nodup : WORDLIST.Nodup := by
  refine List.Nodup.map_on ?_ (List.nodup_range 2048)
  intro n hn m hm heq
  rw [List.mem_range] at hn hm
  have h1 := congrArg (fun l => (l.getD 0 ' ').toNat) heq
  have h2 := congrArg (fun l => (l.getD 1 ' ').toNat) heq
  have h3 := congrArg (fun l => (l.getD 2 ' ').toNat) heq
  simp only [List.getD_cons_zero, List.getD_cons_succ] at h1 h2 h3
  rw [char_ofNat_lower_toNat _ (Nat.mod_lt _ (by norm_num)),
    char_ofNat_lower_toNat _ (Nat.mod_lt _ (by norm_num))] at h1 h2 h3
  omega

theorem findIdx?_beq_getD (l : List (List Char)) (hnd : l.Nodup) (i : Nat)
    (hi : i < l.length) :
    l.findIdx? (fun wx => wx == l.getD i []) = some i := by
  induction l generalizing i with
  | nil => simp at hi
  | cons w rest ih =>
    cases i with
    | zero =>
      rw [List.findIdx?_cons]
      simp
    | succ i' =>
      rw [List.findIdx?_cons]
      have hne : (w == rest.getD i' []) = false := by
        have hwr : w ∉ rest := (List.nodup_cons.mp hnd).1
        have hmem : rest.getD i' [] ∈ rest := by
          rw [List.getD_eq_getElem rest [] (by simpa using hi)]
          exact List.getElem_mem _
        rw [beq_eq_false_iff_ne]
        intro hcontra
        exact hwr (hcontra ▸ hmem)
      rw [List.getD_cons_succ, hne]
      simp only [Bool.false_eq_true, if_false]
      rw [show (0 : Nat) + 1 = 0 + 1 from rfl, List.findIdx?_succ,
        ih (List.nodup_cons.mp hnd).2 i' (by simpa using hi)]
      rfl

theorem mapM_map_eq_some {α β : Type} (h : α → β) (f : β → Option α) (l : List α)
    (hfh : ∀ x ∈ l, f (h x) = some x) : (l.map h).mapM f = some l := by
  induction l with
  | nil => rfl
  | cons x rest ih =>
    simp only [List.map_cons, List.mapM_cons, hfh x (by simp),
      ih (fun y hy => hfh y (by simp [hy])), Option.pure_def, Option.bind_eq_bind,
      Option.some_bind]

theorem entropy_reconstruct (entropy tail : List Nat) (hB : ∀ b ∈ entropy, b < 256) :
    (List.range entropy.length).map
      (fun i => (List.range 8).foldl
        (fun byte j => (byte <<< 1) |||
          (entropy.flatMap (fun byte => (List.range 8).reverse.map fun k => byte >>> k &&& 1)
            ++ tail).getD (i * 8 + j) 0) 0)
      = entropy := by
  set entBits := entropy.flatMap
    (fun byte => (List.range 8).reverse.map fun k => byte >>> k &&& 1) with hentBits
  have hunif : ∀ x ∈ entropy,
      ((List.range 8).reverse.map fun k => x >>> k &&& 1).length = 8 := by
    intro x hx
    simp
  have hentLen : entBits.length = 8 * entropy.length :=
    length_flatMap_uniform _ entropy 8 hunif
  conv_rhs => rw [← map_range_getD entropy]
  refine List.map_congr_left ?_
  intro i hi
  rw [List.mem_range] at hi
  have hbyte_mem : entropy.getD i 0 ∈ entropy := by
    rw [List.getD_eq_getElem entropy 0 hi]
    exact List.getElem_mem _
  have hbyte_lt : entropy.getD i 0 < 256 := hB _ hbyte_mem
  have hgetd : ∀ j, j < 8 →
      (entBits ++ tail).getD (i * 8 + j) 0 = (bitsBE 8 (entropy.getD i 0)).getD j 0 := by
    intro j hj
    rw [List.getD_append _ _ _ _ (by rw [hentLen]; nlinarith)]
    exact getD_flatMap_uniform (fun b => (List.range 8).reverse.map fun k => b >>> k &&& 1)
      entropy 8 hunif i j hi hj
  have hfold : (List.range 8).foldl
      (fun byte j => (byte <<< 1) ||| (entBits ++ tail).getD (i * 8 + j) 0) 0
      = ((List.range 8).map (fun j => (entBits ++ tail).getD (i * 8 + j) 0)).foldl
        (fun byte b => (byte <<< 1) ||| b) 0 := (List.foldl_map _ _ _ _).symm
  rw [hfold]
  have hmap : (List.range 8).map (fun j => (entBits ++ tail).getD (i * 8 + j) 0)
      = bitsBE 8 (entropy.getD i 0) := by
    have h1 : (List.range 8).map (fun j => (entBits ++ tail).getD (i * 8 + j) 0)
        = (List.range 8).map (fun j => (bitsBE 8 (entropy.getD i 0)).getD j 0) := by
      refine List.map_congr_left ?_
      intro j hj
      rw [List.mem_range] at hj
      exact hgetd j hj
    have h2 := map_range_getD (bitsBE 8 (entropy.getD i 0))
    rw [bitsBE_length] at h2
    rw [h1, h2]
  rw [hmap, foldl_or_eq_two_mul _ _ (bitsBE_le_one 8 _), foldl_bitsBE 8 _ hbyte_lt]

theorem chunks_bits_reconstruct (bits : List Nat) (hle : ∀ b ∈ bits, b ≤ 1)
    (hdvd : 11 ∣ bits.length) :
    ((chunksExact 11 bits).map
        (fun chunk => chunk.foldl (fun idx bit => (idx <<< 1) ||| bit) 0)).flatMap
      (fun index => (List.range 11).reverse.map (fun i => index >>> i &&& 1)) = bits := by
  set f := fun (chunk : List Nat) => chunk.foldl (fun idx bit => (idx <<< 1) ||| bit) 0 with hf
  set g := fun (index : Nat) => (List.range 11).reverse.map (fun i => index >>> i &&& 1) with hg
  have hpt : ∀ c ∈ chunksExact 11 bits, g (f c) = c := by
    intro c hc
    have hcl : c.length = 11 := chunksExact_mem_length 11 bits c hc
    have hcb : ∀ x ∈ c, x ≤ 1 := fun x hx =>
      hle x (chunksExact_mem_subset 11 bits c hc x hx)
    show bitsBE 11 (c.foldl (fun idx bit => (idx <<< 1) ||| bit) 0) = c
    rw [foldl_or_eq_two_mul _ _ hcb]
    have hfb := bitsBE_foldl c hcb
    rw [hcl] at hfb
    exact hfb
  have h1 : ((chunksExact 11 bits).map f).flatMap g
      = (((chunksExact 11 bits).map f).map g).flatten := by
    simp [List.flatMap]
  rw [h1, List.map_map]
  have h2 : (chunksExact 11 bits).map (g ∘ f) = (chunksExact 11 bits).map (fun c => c) :=
    List.map_congr_left (fun c hc => hpt c hc)
  rw [h2]
  have h3 : (chunksExact 11 bits).map (fun c => c) = chunksExact 11 bits :=
    List.map_id' _
  rw [h3]
  exact chunksExact_flatten 11 bits (by norm_num) hdvd

theorem entropy_roundtrip (entropy : List Nat) (mtype : MnemonicType)
    (hmt : mtypeOfEntropyLen entropy.length = some mtype)
    (hB : ∀ b ∈ entropy, b < 256) :
    ∃ m, entropy_to_mnemonic entropy = .ok m ∧ validate_mnemonic m = true := by
  have hlen : entropy.length = mtype.entropy_bytes := by
    unfold mtypeOfEntropyLen at hmt
    split_ifs at hmt with h16 h20 h24 h28 h32 <;>
      first
        | (injection hmt with he
           subst he
           simp only [MnemonicType.entropy_bytes]
           omega)
        | cases hmt
  set hash := sha256.digest entropy with hhash
  set entBits := entropy.flatMap
    (fun byte => (List.range 8).reverse.map (fun i => byte >>> i &&& 1)) with hentBitsDef
  set csBits := (List.range mtype.checksum_bits).map
    (fun i => hash.getD (i / 8) 0 >>> (7 - i % 8) &&& 1) with hcsBitsDef
  set bits := entBits ++ csBits with hbitsDef
  set chunks := chunksExact 11 bits with hchunksDef
  set indices := chunks.map
    (fun chunk => chunk.foldl (fun idx bit => (idx <<< 1) ||| bit) 0) with hindicesDef
  set words := chunks.map
    (fun chunk => WORDLIST.getD (chunk.foldl (fun idx bit => (idx <<< 1) ||| bit) 0) [])
    with hwordsDef
  have hok : entropy_to_mnemonic entropy = .ok (joinSpace words) := by
    unfold entropy_to_mnemonic
    rw [hmt]
  have hwi : words = indices.map (fun idx => WORDLIST.getD idx []) := by
    rw [hwordsDef, hindicesDef, List.map_map]
    rfl
  have hbits_le : ∀ b ∈ bits, b ≤ 1 := by
    intro b hb
    rw [hbitsDef] at hb
    rcases List.mem_append.mp hb with h | h
    · rw [hentBitsDef] at h
      rcases List.mem_flatMap.mp h with ⟨byte, -, hmem⟩
      rcases List.mem_map.mp hmem with ⟨i, -, rfl⟩
      rw [shiftRight_and_one]
      omega
    · rw [hcsBitsDef] at h
      rcases List.mem_map.mp h with ⟨i, -, rfl⟩
      rw [shiftRight_and_one]
      omega
  have hentLen : entBits.length = 8 * entropy.length :=
    length_flatMap_uniform _ entropy 8 (fun x _ => by simp)
  have hcsLen : csBits.length = mtype.checksum_bits := by
    rw [hcsBitsDef]
    simp
  have hfact : 8 * mtype.entropy_bytes + mtype.checksum_bits = 11 * mtype.word_count := by
    cases mtype <;> rfl
  have hbLen : bits.length = 11 * mtype.word_count := by
    rw [hbitsDef, List.length_append, hentLen, hcsLen, hlen, hfact]
  have hdvd : 11 ∣ bits.length := by
    rw [hbLen]
    exact Dvd.intro _ rfl
  have hcount : words.length = mtype.word_count := by
    rw [hwordsDef, List.length_map, hchunksDef, chunksExact_length 11 bits (by norm_num) hdvd,
      hbLen, Nat.mul_div_cancel_left _ (by norm_num)]
  have hidx_lt : ∀ idx ∈ indices, idx < 2048 := by
    intro idx hidx
    rw [hindicesDef] at hidx
    rcases List.mem_map.mp hidx with ⟨c, hc, rfl⟩
    rw [hchunksDef] at hc
    have hcl : c.length = 11 := chunksExact_mem_length 11 bits c hc
    have hcb : ∀ x ∈ c, x ≤ 1 := fun x hx =>
      hbits_le x (chunksExact_mem_subset 11 bits c hc x hx)
    rw [foldl_or_eq_two_mul _ _ hcb]
    have := foldl_two_mul_lt c hcb
    rw [hcl] at this
    exact this
  have hwords_mem : ∀ w ∈ words, w ∈ WORDLIST := by
    intro w hw
    rw [hwi] at hw
    rcases List.mem_map.mp hw with ⟨idx, hidx, rfl⟩
    have h2048 : idx < WORDLIST.length := by
      rw [wordlist_length]
      exact hidx_lt idx hidx
    rw [List.getD_eq_getElem WORDLIST [] h2048]
    exact List.getElem_mem _
  refine ⟨joinSpace words, hok, ?_⟩
  unfold validate_mnemonic
  rw [splitWs_joinSpace words (fun w hw => wordlist_ne_nil w (hwords_mem w hw))
    (fun w hw => wordlist_no_ws w (hwords_mem w hw))]
  dsimp only
  have hmtw : mtypeOfWordCount words.length = some mtype := by
    rw [hcount]
    cases mtype <;> rfl
  rw [hmtw]
  have hmapM : words.mapM (fun w => WORDLIST.findIdx? (fun wx => wx == w)) = some indices := by
    rw [hwi]
    refine mapM_map_eq_some _ _ indices ?_
    intro idx hidx
    exact findIdx?_beq_getD WORDLIST wordlist_nodup idx
      (by rw [wordlist_length]; exact hidx_lt idx hidx)
  rw [hmapM]
  dsimp only
  have hbits' : indices.flatMap
      (fun index => (List.range 11).reverse.map (fun i => index >>> i &&& 1)) = bits := by
    rw [hindicesDef, hchunksDef]
    exact chunks_bits_reconstruct bits hbits_le hdvd
  rw [hbits']
  have hrec : (List.range mtype.entropy_bytes).map
      (fun i => (List.range 8).foldl
        (fun byte j => (byte <<< 1) ||| bits.getD (i * 8 + j) 0) 0) = entropy := by
    rw [← hlen]
    rw [hbitsDef, hentBitsDef]
    exact entropy_reconstruct entropy csBits hB
  rw [hrec]
  have hdrop : bits.drop mtype.entropy_bits = csBits := by
    rw [hbitsDef]
    have hE : mtype.entropy_bits = entBits.length := by
      rw [hentLen, hlen, MnemonicType.entropy_bits]
      ring
    rw [hE, List.drop_left]
  rw [hdrop]
  show (csBits == csBits) = true
  simp

theorem mapM_none_of_mem {α β : Type} (f : α → Option β) (l : List α) (x : α)
    (hx : x ∈ l) (hf : f x = none) : l.mapM f = none := by
  induction l with
  | nil => simp at hx
  | cons y rest ih =>
    rw [List.mapM_cons]
    rcases List.mem_cons.mp hx with rfl | hmem
    · rw [hf]
      rfl
    · cases hfy : f y with
      | none => rfl
      | some b =>
        rw [ih hmem]
        rfl

theorem validate_wrong_count (m : List Char)
    (h : (splitWs m).length ∉ ([12, 15, 18, 21, 24] : List Nat)) :
    validate_mnemonic m = false := by
  unfold validate_mnemonic
  dsimp only
  have hnone : mtypeOfWordCount (splitWs m).length = none := by
    simp only [List.mem_cons, not_or] at h
    unfold mtypeOfWordCount
    split_ifs with h1 h2 h3 h4 h5 <;> first | (exfalso; simp at h; omega) | rfl
  rw [hnone]

theorem validate_unknown_word (m : List Char) (w : List Char)
    (hw : w ∈ splitWs m) (hnotin : w ∉ WORDLIST) :
    validate_mnemonic m = false := by
  unfold validate_mnemonic
  dsimp only
  cases hmt : mtypeOfWordCount (splitWs m).length with
  | none => rfl
  | some mtype =>
    have hfind : WORDLIST.findIdx? (fun wx => wx == w) = none := by
      rw [List.findIdx?_eq_none_iff]
      intro x hx
      rw [beq_eq_false_iff_ne]
      intro hcontra
      exact hnotin (hcontra ▸ hx)
    rw [mapM_none_of_mem _ _ w hw hfind]

/-- C2: for every entropy byte string of valid length (16/20/24/28/32
bytes), `entropy_to_mnemonic` succeeds and `validate_mnemonic` accepts the
result; `validate_mnemonic` returns false for a word count other than
12/15/18/21/24, for a word outside the 2048-entry wordlist, and for a
mismatched checksum (the all-zero 16-byte mnemonic with its last word
swapped). -/
theorem claim_C2_bip39_roundtrip (entropy : List Nat)
    (hlen : entropy.length = 16 ∨ entropy.length = 20 ∨ entropy.length = 24
      ∨ entropy.length = 28 ∨ entropy.length = 32)
    (hB : ∀ b ∈ entropy, b < 256) :
    (∃ m, entropy_to_mnemonic entropy = .ok m ∧ validate_mnemonic m = true)
    ∧ (∀ m, (splitWs m).length ∉ ([12, 15, 18, 21, 24] : List Nat) →
        validate_mnemonic m = false)
    ∧ (∀ m w, w ∈ splitWs m → w ∉ WORDLIST → validate_mnemonic m = false)
    ∧ validate_mnemonic "aaa aaa aaa aaa aaa aaa aaa aaa aaa aaa aaa aae".toList
        = false := by
  refine ⟨?_, fun m h => validate_wrong_count m h,
    fun m w h1 h2 => validate_unknown_word m w h1 h2, by decide⟩
  rcases hlen with hl | hl | hl | hl | hl
  · exact entropy_roundtrip entropy .Words12 (by rw [hl]; rfl) hB
  · exact entropy_roundtrip entropy .Words15 (by rw [hl]; rfl) hB
  · exact entropy_roundtrip entropy .Words18 (by rw [hl]; rfl) hB
  · exact entropy_roundtrip entropy .Words21 (by rw [hl]; rfl) hB
  · exact entropy_roundtrip entropy .Words24 (by rw [hl]; rfl) hB

theorem claim_C2_witness :
    ((List.replicate 16 (0 : Nat)).length = 16 ∨ (List.replicate 16 (0 : Nat)).length = 20
      ∨ (List.replicate 16 (0 : Nat)).length = 24 ∨ (List.replicate 16 (0 : Nat)).length = 28
      ∨ (List.replicate 16 (0 : Nat)).length = 32)
    ∧ ((∃ m, entropy_to_mnemonic (List.replicate 16 0) = .ok m ∧ validate_mnemonic m = true)
      ∧ (∀ m, (splitWs m).length ∉ ([12, 15, 18, 21, 24] : List Nat) →
          validate_mnemonic m = false)
      ∧ (∀ m w, w ∈ splitWs m → w ∉ WORDLIST → validate_mnemonic m = false)
      ∧ validate_mnemonic "aaa aaa aaa aaa aaa aaa aaa aaa aaa aaa aaa aae".toList
          = false) :=
  ⟨by decide,
    claim_C2_bip39_roundtrip (List.replicate 16 0) (by decide) (by decide)⟩

/-! ### Limb arithmetic lemmas (field.rs / scalar.rs shared layer) -/

theorem bitN_le (b : Bool) : bitN b ≤ 1 := by cases b <;> simp [bitN]

theorem valL_nil : valL ([] : List Nat) = 0 := by simp [valL, Nat.ofDigits]

theorem valL_cons (d : Nat) (l : List Nat) : valL (d :: l) = d + 2 ^ 64 * valL l := by
  simp [valL, Nat.ofDigits_cons]

theorem valL_append (l1 l2 : List Nat) :
    valL (l1 ++ l2) = valL l1 + 2 ^ (64 * l1.length) * valL l2 := by
  simp only [valL, Nat.ofDigits_append, pow_mul]

theorem valL_lt (l : List Nat) (h : ∀ x ∈ l, x < 2 ^ 64) :
    valL l < 2 ^ (64 * l.length) := by
  rw [pow_mul]
  exact Nat.ofDigits_lt_base_pow_length (by norm_num) h

theorem valL_eq_zero (l : List Nat) : valL l = 0 ↔ ∀ x ∈ l, x = 0 := by
  induction l with
  | nil => simp [valL_nil]
  | cons d t ih =>
    rw [valL_cons]
    constructor
    · intro h
      have hd : d = 0 := by omega
      have hv : valL t = 0 := by omega
      intro x hx
      rcases List.mem_cons.mp hx with rfl | hx
      · exact hd
      · exact ih.mp hv x hx
    · intro h
      have hv := ih.mpr (fun x hx => h x (List.mem_cons_of_mem _ hx))
      have hd := h d (List.mem_cons_self _ _)
      omega

theorem isZeroL_iff (l : List Nat) : isZeroL l = true ↔ valL l = 0 := by
  rw [valL_eq_zero]
  simp [isZeroL, List.all_eq_true]

theorem carryingAdd_spec (a b : Nat) (c : Bool) (ha : a < 2 ^ 64) (hb : b < 2 ^ 64) :
    (carryingAdd a b c).1 + 2 ^ 64 * bitN (carryingAdd a b c).2 = a + b + bitN c ∧
      (carryingAdd a b c).1 < 2 ^ 64 := by
  unfold carryingAdd bitN
  dsimp only
  split_ifs with h1 h2 h2 <;> simp_all <;> omega

theorem borrowingSub_spec (a b : Nat) (c : Bool) (ha : a < 2 ^ 64) (hb : b < 2 ^ 64) :
    (borrowingSub a b c).1 + b + bitN c = a + 2 ^ 64 * bitN (borrowingSub a b c).2 ∧
      (borrowingSub a b c).1 < 2 ^ 64 := by
  unfold borrowingSub bitN
  dsimp only
  split_ifs with h1 h2 h3 <;> simp_all <;> omega

theorem addLimbs_spec (a : List Nat) : ∀ (b : List Nat) (c : Bool),
    a.length = b.length → (∀ x ∈ a, x < 2 ^ 64) → (∀ x ∈ b, x < 2 ^ 64) →
    valL (addLimbs a b c).1 + 2 ^ (64 * a.length) * bitN (addLimbs a b c).2
        = valL a + valL b + bitN c ∧
      (addLimbs a b c).1.length = a.length ∧
      ∀ x ∈ (addLimbs a b c).1, x < 2 ^ 64 := by
  induction a with
  | nil =>
    intro b c hlen _ _
    cases b with
    | nil => simp [addLimbs, valL_nil]
    | cons b bs => simp at hlen
  | cons a as ih =>
    intro b c hlen ha hb
    cases b with
    | nil => simp at hlen
    | cons b bs =>
      have hca := carryingAdd_spec a b c (ha a (List.mem_cons_self _ _))
        (hb b (List.mem_cons_self _ _))
      have hih := ih bs (carryingAdd a b c).2 (by simpa using hlen)
        (fun x hx => ha x (List.mem_cons_of_mem _ hx))
        (fun x hx => hb x (List.mem_cons_of_mem _ hx))
      simp only [addLimbs]
      set t1 := carryingAdd a b c with ht1
      set t2 := addLimbs as bs t1.2 with ht2
      refine ⟨?_, by simp [hih.2.1], ?_⟩
      · simp only [List.length_cons, valL_cons]
        have hp : 2 ^ (64 * (as.length + 1)) = 2 ^ 64 * 2 ^ (64 * as.length) := by
          rw [Nat.mul_succ, pow_add, Nat.mul_comm]
        rw [hp]
        have h1 := hca.1
        have h2 := hih.1
        -- eliminate the nonlinear product by case-splitting the two flags
        cases hx : t2.2 <;> cases hy : t1.2 <;>
          simp [hx, hy, bitN] at h1 h2 ⊢ <;> omega
      · intro x hx
        rcases List.mem_cons.mp hx with rfl | hx
        · exact hca.2
        · exact hih.2.2 x hx

theorem subLimbs_spec (a : List Nat) : ∀ (b : List Nat) (c : Bool),
    a.length = b.length → (∀ x ∈ a, x < 2 ^ 64) → (∀ x ∈ b, x < 2 ^ 64) →
    valL (subLimbs a b c).1 + valL b + bitN c
        = valL a + 2 ^ (64 * a.length) * bitN (subLimbs a b c).2 ∧
      (subLimbs a b c).1.length = a.length ∧
      ∀ x ∈ (subLimbs a b c).1, x < 2 ^ 64 := by
  induction a with
  | nil =>
    intro b c hlen _ _
    cases b with
    | nil => simp [subLimbs, valL_nil]
    | cons b bs => simp at hlen
  | cons a as ih =>
    intro b c hlen ha hb
    cases b with
    | nil => simp at hlen
    | cons b bs =>
      have hca := borrowingSub_spec a b c (ha a (List.mem_cons_self _ _))
        (hb b (List.mem_cons_self _ _))
      have hih := ih bs (borrowingSub a b c).2 (by simpa using hlen)
        (fun x hx => ha x (List.mem_cons_of_mem _ hx))
        (fun x hx => hb x (List.mem_cons_of_mem _ hx))
      simp only [subLimbs]
      set t1 := borrowingSub a b c with ht1
      set t2 := subLimbs as bs t1.2 with ht2
      refine ⟨?_, by simp [hih.2.1], ?_⟩
      · simp only [List.length_cons, valL_cons]
        have hp : 2 ^ (64 * (as.length + 1)) = 2 ^ 64 * 2 ^ (64 * as.length) := by
          rw [Nat.mul_succ, pow_add, Nat.mul_comm]
        rw [hp]
        have h1 := hca.1
        have h2 := hih.1
        cases hx : t2.2 <;> cases hy : t1.2 <;>
          simp [hx, hy, bitN] at h1 h2 ⊢ <;> omega
      · intro x hx
        rcases List.mem_cons.mp hx with rfl | hx
        · exact hca.2
        · exact hih.2.2 x hx

theorem len4_explode (l : List Nat) (h : l.length = 4) :
    ∃ a b c d, l = [a, b, c, d] := by
  rcases l with _ | ⟨a, _ | ⟨b, _ | ⟨c, _ | ⟨d, _ | ⟨e, t⟩⟩⟩⟩⟩ <;> simp_all

theorem len8_explode (l : List Nat) (h : l.length = 8) :
    ∃ w0 w1 w2 w3 w4 w5 w6 w7, l = [w0, w1, w2, w3, w4, w5, w6, w7] := by
  rcases l with _ | ⟨a, _ | ⟨b, _ | ⟨c, _ | ⟨d, _ | ⟨e, _ | ⟨f, _ | ⟨g, _ | ⟨i, _ | ⟨j, t⟩⟩⟩⟩⟩⟩⟩⟩⟩ <;>
    simp_all

theorem gteModBE_spec (m a : List Nat) (hm : m.length = 4) (ha : a.length = 4)
    (hmb : ∀ x ∈ m, x < 2 ^ 64) (hab : ∀ x ∈ a, x < 2 ^ 64) :
    (gteModBE m a = true ↔ valL m ≤ valL a) := by
  obtain ⟨m0, m1, m2, m3, rfl⟩ := len4_explode m hm
  obtain ⟨a0, a1, a2, a3, rfl⟩ := len4_explode a ha
  have hm0 := hmb m0 (by simp)
  have hm1 := hmb m1 (by simp)
  have hm2 := hmb m2 (by simp)
  have hm3 := hmb m3 (by simp)
  have ha0 := hab a0 (by simp)
  have ha1 := hab a1 (by simp)
  have ha2 := hab a2 (by simp)
  have ha3 := hab a3 (by simp)
  simp only [gteModBE, List.reverse_cons, List.reverse_nil, List.nil_append,
    List.cons_append, cmpGeBE, valL_cons, valL_nil]
  split_ifs <;> simp <;> omega

theorem modAdd_spec (m a b : List Nat) (hm4 : m.length = 4) (hmb : ∀ x ∈ m, x < 2 ^ 64)
    (hm1 : 2 ^ 256 < 2 * valL m)
    (ha : IsCanonical (valL m) a) (hb : IsCanonical (valL m) b) :
    IsCanonical (valL m) (modAdd m a b) ∧
      valL (modAdd m a b) = (valL a + valL b) % valL m := by
  obtain ⟨ha4, hab, hav⟩ := ha
  obtain ⟨hb4, hbb, hbv⟩ := hb
  have hmlt : valL m < 2 ^ 256 := by
    have := valL_lt m hmb
    rw [hm4] at this
    simpa using this
  have hadd := addLimbs_spec a b false (by rw [ha4, hb4]) hab hbb
  rw [ha4] at hadd
  set rc := addLimbs a b false with hrc
  have hrl : rc.1.length = 4 := hadd.2.1
  have hrb := hadd.2.2
  have hrv : valL rc.1 < 2 ^ 256 := by
    have := valL_lt rc.1 hrb
    rw [hrl] at this
    simpa using this
  have h1 := hadd.1
  simp only [modAdd, ← hrc]
  cases hc : rc.2 with
  | true =>
    simp only [hc, Bool.true_or]
    rw [if_true]
    have hsub := subLimbs_spec rc.1 m false (by rw [hrl, hm4]) hrb hmb
    rw [hrl] at hsub
    set sb := subLimbs rc.1 m false with hsb
    have hsl : sb.1.length = 4 := hsub.2.1
    have hsbnd := hsub.2.2
    have hsv : valL sb.1 < 2 ^ 256 := by
      have := valL_lt sb.1 hsbnd
      rw [hsl] at this
      simpa using this
    have h2 := hsub.1
    cases hbo : sb.2 with
    | false =>
      simp [hc, hbo, bitN] at h1 h2
      exfalso
      omega
    | true =>
      simp [hc, hbo, bitN] at h1 h2
      have hle : valL m ≤ valL a + valL b := by omega
      have hmod : (valL a + valL b) % valL m = valL a + valL b - valL m := by
        rw [Nat.mod_eq_sub_mod hle, Nat.mod_eq_of_lt (by omega)]
      exact ⟨⟨hsl, hsbnd, by omega⟩, by omega⟩
  | false =>
    have hspec := gteModBE_spec m rc.1 hm4 hrl hmb hrb
    cases hge : gteModBE m rc.1 with
    | false =>
      simp only [hc, hge, Bool.or_self]
      rw [if_neg (by simp)]
      simp [hc, bitN] at h1
      have hlt : valL rc.1 < valL m := by
        by_contra hcon
        rw [hge] at hspec
        simp at hspec
        omega
      refine ⟨⟨hrl, hrb, hlt⟩, ?_⟩
      rw [Nat.mod_eq_of_lt (by omega)]
      omega
    | true =>
      simp only [hc, hge, Bool.false_or]
      rw [if_true]
      have hgev : valL m ≤ valL rc.1 := by
        rw [hge] at hspec
        simpa using hspec
      simp [hc, bitN] at h1
      have hsub := subLimbs_spec rc.1 m false (by rw [hrl, hm4]) hrb hmb
      rw [hrl] at hsub
      set sb := subLimbs rc.1 m false with hsb
      have hsl : sb.1.length = 4 := hsub.2.1
      have hsbnd := hsub.2.2
      have hsv : valL sb.1 < 2 ^ 256 := by
        have := valL_lt sb.1 hsbnd
        rw [hsl] at this
        simpa using this
      have h2 := hsub.1
      cases hbo : sb.2 with
      | true =>
        simp [hbo, bitN] at h2
        exfalso
        omega
      | false =>
        simp [hbo, bitN] at h2
        have hle : valL m ≤ valL a + valL b := by omega
        have hmod : (valL a + valL b) % valL m = valL a + valL b - valL m := by
          rw [Nat.mod_eq_sub_mod hle, Nat.mod_eq_of_lt (by omega)]
        exact ⟨⟨hsl, hsbnd, by omega⟩, by omega⟩

theorem modSub_spec (m a b : List Nat) (hm4 : m.length = 4) (hmb : ∀ x ∈ m, x < 2 ^ 64)
    (ha : IsCanonical (valL m) a) (hb : IsCanonical (valL m) b) :
    IsCanonical (valL m) (modSub m a b) ∧
      valL (modSub m a b) = (valL m + valL a - valL b) % valL m := by
  obtain ⟨ha4, hab, hav⟩ := ha
  obtain ⟨hb4, hbb, hbv⟩ := hb
  have hmlt : valL m < 2 ^ 256 := by
    have := valL_lt m hmb
    rw [hm4] at this
    simpa using this
  have hsub := subLimbs_spec a b false (by rw [ha4, hb4]) hab hbb
  rw [ha4] at hsub
  set rb := subLimbs a b false with hrb
  have hrl : rb.1.length = 4 := hsub.2.1
  have hrbnd := hsub.2.2
  have hrv : valL rb.1 < 2 ^ 256 := by
    have := valL_lt rb.1 hrbnd
    rw [hrl] at this
    simpa using this
  have h1 := hsub.1
  simp only [modSub, ← hrb]
  cases hc : rb.2 with
  | false =>
    rw [if_neg (by simp)]
    simp [hc, bitN] at h1
    have hba : valL b ≤ valL a := by omega
    refine ⟨⟨hrl, hrbnd, by omega⟩, ?_⟩
    have hsplit : valL m + valL a - valL b = valL m + (valL a - valL b) := by omega
    rw [hsplit, Nat.add_mod_left, Nat.mod_eq_of_lt (by omega)]
    omega
  | true =>
    rw [if_pos rfl]
    simp [hc, bitN] at h1
    have hab2 : valL a < valL b := by omega
    have haddn := addLimbs_spec rb.1 m false (by rw [hrl, hm4]) hrbnd hmb
    rw [hrl] at haddn
    set ad := addLimbs rb.1 m false with had
    have hal : ad.1.length = 4 := haddn.2.1
    have habnd := haddn.2.2
    have hadv : valL ad.1 < 2 ^ 256 := by
      have := valL_lt ad.1 habnd
      rw [hal] at this
      simpa using this
    have h2 := haddn.1
    cases hco : ad.2 with
    | false =>
      simp [hco, bitN] at h2
      exfalso
      omega
    | true =>
      simp [hco, bitN] at h2
      refine ⟨⟨hal, habnd, by omega⟩, ?_⟩
      rw [Nat.mod_eq_of_lt (by omega)]
      omega

theorem modNeg_spec (m a : List Nat) (hm4 : m.length = 4) (hmb : ∀ x ∈ m, x < 2 ^ 64)
    (hmpos : 0 < valL m) (ha : IsCanonical (valL m) a) :
    IsCanonical (valL m) (modNeg m a) ∧
      valL (modNeg m a) = (valL m - valL a) % valL m := by
  obtain ⟨ha4, hab, hav⟩ := ha
  have hmlt : valL m < 2 ^ 256 := by
    have := valL_lt m hmb
    rw [hm4] at this
    simpa using this
  cases hz : isZeroL a with
  | true =>
    have hva : valL a = 0 := (isZeroL_iff a).mp hz
    simp only [modNeg, hz]
    rw [if_true]
    rw [hva, Nat.sub_zero, Nat.mod_self]
    exact ⟨⟨ha4, hab, hav⟩, rfl⟩
  | false =>
    have hva : valL a ≠ 0 := by
      intro h0
      have := (isZeroL_iff a).mpr h0
      rw [hz] at this
      simp at this
    simp only [modNeg, hz]
    rw [if_neg (by simp)]
    have hsub := subLimbs_spec m a false (by rw [ha4, hm4]) hmb hab
    rw [hm4] at hsub
    set sb := subLimbs m a false with hsb
    have hsl : sb.1.length = 4 := hsub.2.1
    have hsbnd := hsub.2.2
    have hsv : valL sb.1 < 2 ^ 256 := by
      have := valL_lt sb.1 hsbnd
      rw [hsl] at this
      simpa using this
    have h1 := hsub.1
    cases hbo : sb.2 with
    | true =>
      simp [hbo, bitN] at h1
      exfalso
      omega
    | false =>
      simp [hbo, bitN] at h1
      refine ⟨⟨hsl, hsbnd, by omega⟩, ?_⟩
      rw [Nat.mod_eq_of_lt (by omega)]
      omega

theorem spillCarry_spec (ws : List Nat) : ∀ c : Nat,
    c + valL ws < 2 ^ (64 * ws.length) → (∀ x ∈ ws, x < 2 ^ 64) →
    valL (spillCarry c ws) = c + valL ws ∧ (spillCarry c ws).length = ws.length ∧
      ∀ x ∈ spillCarry c ws, x < 2 ^ 64 := by
  induction ws with
  | nil =>
    intro c hb _
    simp [valL_nil] at hb
    simp [spillCarry, valL_nil]
    omega
  | cons w ws ih =>
    intro c hb hbound
    have hw := hbound w (List.mem_cons_self _ _)
    have hwt := fun x hx => hbound x (List.mem_cons_of_mem _ hx)
    have hp : 2 ^ (64 * (ws.length + 1)) = 2 ^ 64 * 2 ^ (64 * ws.length) := by
      rw [Nat.mul_succ, pow_add, Nat.mul_comm]
    rw [List.length_cons, hp, valL_cons] at hb
    by_cases hc : c = 0
    · subst hc
      rw [spillCarry, if_pos rfl]
      exact ⟨(Nat.zero_add _).symm, rfl, hbound⟩
    · rw [spillCarry, if_neg hc]
      have hih := ih ((w + c) / 2 ^ 64) (by omega) hwt
      refine ⟨?_, by simp only [List.length_cons, hih.2.1], ?_⟩
      · rw [valL_cons, hih.1, valL_cons]
        omega
      · intro x hx
        rcases List.mem_cons.mp hx with rfl | hx
        · omega
        · exact hih.2.2 x hx

theorem mulAddRow_spec (bs : List Nat) : ∀ (ws : List Nat) (ai c : Nat),
    bs.length ≤ ws.length → (∀ x ∈ bs, x < 2 ^ 64) → (∀ x ∈ ws, x < 2 ^ 64) →
    c + valL ws + ai * valL bs < 2 ^ (64 * ws.length) →
    valL (mulAddRow ai c bs ws) = c + valL ws + ai * valL bs ∧
      (mulAddRow ai c bs ws).length = ws.length ∧
      ∀ x ∈ mulAddRow ai c bs ws, x < 2 ^ 64 := by
  induction bs with
  | nil =>
    intro ws ai c hlen hbb hwb hb
    rw [valL_nil, Nat.mul_zero, Nat.add_zero] at hb ⊢
    simpa [mulAddRow] using spillCarry_spec ws c hb hwb
  | cons b bs ih =>
    intro ws ai c hlen hbb hwb hb
    cases ws with
    | nil => simp at hlen
    | cons w ws =>
      have hw := hwb w (List.mem_cons_self _ _)
      have hwt := fun x hx => hwb x (List.mem_cons_of_mem _ hx)
      have hbv := hbb b (List.mem_cons_self _ _)
      have hbt := fun x hx => hbb x (List.mem_cons_of_mem _ hx)
      have hp : 2 ^ (64 * (ws.length + 1)) = 2 ^ 64 * 2 ^ (64 * ws.length) := by
        rw [Nat.mul_succ, pow_add, Nat.mul_comm]
      have hY : ai * valL (b :: bs) = ai * b + 2 ^ 64 * (ai * valL bs) := by
        rw [valL_cons]; ring
      rw [List.length_cons, hp, valL_cons, hY] at hb
      simp only [mulAddRow]
      have hih := ih ws ai ((w + ai * b % 2 ^ 64 + c) / 2 ^ 64 + ai * b / 2 ^ 64)
        (by simpa using hlen) hbt hwt (by omega)
      refine ⟨?_, by simp only [List.length_cons, hih.2.1], ?_⟩
      · rw [valL_cons, hih.1, valL_cons, hY]
        omega
      · intro x hx
        rcases List.mem_cons.mp hx with rfl | hx
        · omega
        · exact hih.2.2 x hx

theorem mulWideGo_spec (b : List Nat) (hbb : ∀ x ∈ b, x < 2 ^ 64) (as : List Nat) :
    ∀ wide : List Nat, (∀ x ∈ as, x < 2 ^ 64) → (∀ x ∈ wide, x < 2 ^ 64) →
    as.length + b.length ≤ wide.length →
    valL wide + valL as * valL b < 2 ^ (64 * wide.length) →
    valL (mulWideGo b as wide) = valL wide + valL as * valL b ∧
      (mulWideGo b as wide).length = wide.length ∧
      ∀ x ∈ mulWideGo b as wide, x < 2 ^ 64 := by
  induction as with
  | nil =>
    intro wide _ hwb _ _
    simp [mulWideGo, valL_nil]
    exact hwb
  | cons ai as ih =>
    intro wide hab hwb hlen hb
    have hai := hab ai (List.mem_cons_self _ _)
    have hat := fun x hx => hab x (List.mem_cons_of_mem _ hx)
    have hmono : ai * valL b ≤ valL (ai :: as) * valL b :=
      Nat.mul_le_mul_right _ (by rw [valL_cons]; omega)
    have hY : valL (ai :: as) * valL b = ai * valL b + 2 ^ 64 * (valL as * valL b) := by
      rw [valL_cons]; ring
    have hrow := mulAddRow_spec b wide ai 0
      (by simp at hlen; omega) hbb hwb (by omega)
    simp only [mulWideGo]
    cases hrw : mulAddRow ai 0 b wide with
    | nil =>
      exfalso
      rw [hrw] at hrow
      have := hrow.2.1
      simp at this hlen
      omega
    | cons w0 wrest =>
      rw [hrw] at hrow
      have hlw : wrest.length + 1 = wide.length := by
        have := hrow.2.1
        simpa using this
      have hw0 := hrow.2.2 w0 (List.mem_cons_self _ _)
      have hwrt := fun x hx => hrow.2.2 x (List.mem_cons_of_mem _ hx)
      have hv1 := hrow.1
      rw [valL_cons] at hv1
      have hp : 2 ^ (64 * wide.length) = 2 ^ 64 * 2 ^ (64 * wrest.length) := by
        rw [← hlw, Nat.mul_succ, pow_add, Nat.mul_comm]
      rw [hp, hY] at hb
      have hih := ih wrest hat hwrt (by simp at hlen; omega) (by omega)
      refine ⟨?_, ?_, ?_⟩
      · rw [valL_cons, hih.1, hY]
        omega
      · rw [List.length_cons, hih.2.1]
        exact hlw
      · intro x hx
        rcases List.mem_cons.mp hx with rfl | hx
        · exact hw0
        · exact hih.2.2 x hx

theorem mulWide_spec (a b : List Nat) (ha4 : a.length = 4) (hb4 : b.length = 4)
    (hab : ∀ x ∈ a, x < 2 ^ 64) (hbb : ∀ x ∈ b, x < 2 ^ 64) :
    valL (mulWide a b) = valL a * valL b ∧ (mulWide a b).length = 8 ∧
      ∀ x ∈ mulWide a b, x < 2 ^ 64 := by
  have hva : valL a < 2 ^ 256 := by
    have := valL_lt a hab
    rw [ha4] at this
    simpa using this
  have hvb : valL b < 2 ^ 256 := by
    have := valL_lt b hbb
    rw [hb4] at this
    simpa using this
  have hrep : valL (List.replicate 8 0) = 0 := by decide
  have hprod : valL a * valL b < 2 ^ (64 * (List.replicate 8 (0 : Nat)).length) := by
    calc valL a * valL b < 2 ^ 256 * 2 ^ 256 := Nat.mul_lt_mul'' hva hvb
    _ = 2 ^ (64 * (List.replicate 8 (0 : Nat)).length) := by norm_num
  have hgo := mulWideGo_spec b hbb a (List.replicate 8 0) hab (by simp)
    (by simp [ha4, hb4]) (by rw [hrep]; omega)
  rw [mulWide]
  refine ⟨by rw [hgo.1, hrep]; omega, by simpa using hgo.2.1, hgo.2.2⟩

theorem carryChain_spec (as : List Nat) : ∀ c : Nat,
    c + valL as < 2 ^ (64 * as.length) →
    valL (carryChain c as) = c + valL as ∧ (carryChain c as).length = as.length ∧
      ∀ x ∈ carryChain c as, x < 2 ^ 64 := by
  induction as with
  | nil =>
    intro c hb
    simp [valL_nil] at hb
    simp [carryChain, valL_nil]
    omega
  | cons a as ih =>
    intro c hb
    have hp : 2 ^ (64 * (as.length + 1)) = 2 ^ 64 * 2 ^ (64 * as.length) := by
      rw [Nat.mul_succ, pow_add, Nat.mul_comm]
    rw [List.length_cons, hp, valL_cons] at hb
    simp only [carryChain]
    have hih := ih ((c + a) / 2 ^ 64) (by omega)
    refine ⟨?_, by simp only [List.length_cons, hih.2.1], ?_⟩
    · rw [valL_cons, hih.1, valL_cons]
      omega
    · intro x hx
      rcases List.mem_cons.mp hx with rfl | hx
      · omega
      · exact hih.2.2 x hx

theorem len5_explode (l : List Nat) (h : l.length = 5) :
    ∃ a b c d e, l = [a, b, c, d, e] := by
  rcases l with _ | ⟨a, _ | ⟨b, _ | ⟨c, _ | ⟨d, _ | ⟨e, _ | ⟨f, t⟩⟩⟩⟩⟩⟩ <;> simp_all

theorem reduceAccs_spec (wide : List Nat) (hw : wide.length = 8)
    (hb : ∀ x ∈ wide, x < 2 ^ 64) :
    valL (FieldElement.reduceAccs wide) + pVal * valL (List.drop 4 wide) = valL wide ∧
      valL (FieldElement.reduceAccs wide) < 2 ^ (64 * 5) := by
  obtain ⟨w0, w1, w2, w3, w4, w5, w6, w7, rfl⟩ := len8_explode wide hw
  have h0 := hb w0 (by simp)
  have h1 := hb w1 (by simp)
  have h2 := hb w2 (by simp)
  have h3 := hb w3 (by simp)
  have h4 := hb w4 (by simp)
  have h5 := hb w5 (by simp)
  have h6 := hb w6 (by simp)
  have h7 := hb w7 (by simp)
  constructor <;>
    · simp [FieldElement.reduceAccs, valL_cons, valL_nil, pVal]
      omega

theorem reduceStep_spec (r : List Nat) (hr : r.length = 5) (hb : ∀ x ∈ r, x < 2 ^ 64) :
    valL (FieldElement.reduceStep r) + pVal * r.getD 4 0 = valL r ∧
      (FieldElement.reduceStep r).length = 5 ∧
      ∀ x ∈ FieldElement.reduceStep r, x < 2 ^ 64 := by
  obtain ⟨a, b, c, d, e, rfl⟩ := len5_explode r hr
  have h0 := hb a (by simp)
  have h1 := hb b (by simp)
  have h2 := hb c (by simp)
  have h3 := hb d (by simp)
  have h4 := hb e (by simp)
  refine ⟨?_, by simp [FieldElement.reduceStep], ?_⟩
  · simp [FieldElement.reduceStep, valL_cons, valL_nil, pVal]
    omega
  · simp [FieldElement.reduceStep]
    omega

theorem reduceLoopGo_spec : ∀ (fuel : Nat) (r : List Nat), r.length = 5 →
    (∀ x ∈ r, x < 2 ^ 64) → valL r ≤ fuel →
    ∃ k, valL (FieldElement.reduceLoopGo fuel r) + pVal * k = valL r ∧
      (FieldElement.reduceLoopGo fuel r).length = 5 ∧
      (∀ x ∈ FieldElement.reduceLoopGo fuel r, x < 2 ^ 64) ∧
      (FieldElement.reduceLoopGo fuel r).getD 4 0 = 0 := by
  intro fuel
  induction fuel with
  | zero =>
    intro r hr hb hle
    obtain ⟨a, b, c, d, e, rfl⟩ := len5_explode r hr
    simp only [valL_cons, valL_nil] at hle
    refine ⟨0, by simp only [FieldElement.reduceLoopGo, Nat.mul_zero, Nat.add_zero],
      by simp [FieldElement.reduceLoopGo],
      by simpa [FieldElement.reduceLoopGo] using hb,
      by simp [FieldElement.reduceLoopGo]; omega⟩
  | succ fuel ih =>
    intro r hr hb hle
    by_cases h4 : r.getD 4 0 = 0
    · rw [FieldElement.reduceLoopGo, if_pos h4]
      exact ⟨0, by omega, hr, hb, h4⟩
    · rw [FieldElement.reduceLoopGo, if_neg h4]
      have hstep := reduceStep_spec r hr hb
      have hp1 : 0 < pVal := by decide
      have hr4 : 1 ≤ r.getD 4 0 := by omega
      have hmul : pVal ≤ pVal * r.getD 4 0 := Nat.le_mul_of_pos_right _ hr4
      have hih := ih (FieldElement.reduceStep r) hstep.2.1 hstep.2.2 (by omega)
      obtain ⟨k, hk, hlen, hbnd, hget⟩ := hih
      refine ⟨r.getD 4 0 + k, ?_, hlen, hbnd, hget⟩
      have := hstep.1
      rw [Nat.mul_add]
      omega

theorem subPLoopGo_spec : ∀ (fuel : Nat) (fe : List Nat), fe.length = 4 →
    (∀ x ∈ fe, x < 2 ^ 64) → valL fe ≤ fuel →
    ∃ k, valL (FieldElement.subPLoopGo fuel fe) + pVal * k = valL fe ∧
      IsCanonical pVal (FieldElement.subPLoopGo fuel fe) := by
  have hpv : valL P_LIMBS = pVal := by decide
  have hp4 : P_LIMBS.length = 4 := by decide
  have hpb : ∀ x ∈ P_LIMBS, x < 2 ^ 64 := by decide
  have hp1 : 0 < pVal := by decide
  have hplt : pVal < 2 ^ 256 := by decide
  intro fuel
  induction fuel with
  | zero =>
    intro fe hr hb hle
    rw [FieldElement.subPLoopGo]
    exact ⟨0, by omega, hr, hb, by omega⟩
  | succ fuel ih =>
    intro fe hr hb hle
    have hspec := gteModBE_spec P_LIMBS fe hp4 hr hpb hb
    rw [hpv] at hspec
    cases hge : FieldElement.gte_p fe with
    | false =>
      rw [FieldElement.subPLoopGo, hge, if_neg (by simp)]
      have : ¬ (pVal ≤ valL fe) := by
        rw [FieldElement.gte_p, gteModBE] at hge
        rw [gteModBE] at hspec
        simp [hge] at hspec
        omega
      exact ⟨0, by omega, hr, hb, by omega⟩
    | true =>
      rw [FieldElement.subPLoopGo, hge, if_pos rfl]
      have hgev : pVal ≤ valL fe := by
        rw [FieldElement.gte_p, gteModBE] at hge
        rw [gteModBE] at hspec
        simp [hge] at hspec
        exact hspec
      have hsub := subLimbs_spec fe P_LIMBS false (by rw [hr, hp4]) hb hpb
      rw [hr, hpv] at hsub
      have hfv : valL fe < 2 ^ 256 := by
        have := valL_lt fe hb
        rw [hr] at this
        simpa using this
      have hsv : valL (subLimbs fe P_LIMBS false).1 < 2 ^ 256 := by
        have := valL_lt (subLimbs fe P_LIMBS false).1 hsub.2.2
        rw [hsub.2.1] at this
        simpa using this
      have h1 := hsub.1
      cases hbo : (subLimbs fe P_LIMBS false).2 with
      | true =>
        simp [hbo, bitN] at h1
        exfalso
        omega
      | false =>
        simp [hbo, bitN] at h1
        have hih := ih (subLimbs fe P_LIMBS false).1 hsub.2.1 hsub.2.2 (by omega)
        obtain ⟨k, hk, hcan⟩ := hih
        exact ⟨k + 1, by rw [Nat.mul_add]; omega, hcan⟩

theorem reduce_spec (wide : List Nat) (hw : wide.length = 8)
    (hb : ∀ x ∈ wide, x < 2 ^ 64) :
    valL (FieldElement.reduce wide) = valL wide % pVal ∧
      IsCanonical pVal (FieldElement.reduce wide) := by
  have haccs := reduceAccs_spec wide hw hb
  have hlen5 : (FieldElement.reduceAccs wide).length = 5 := by
    simp [FieldElement.reduceAccs]
  have hcc := carryChain_spec (FieldElement.reduceAccs wide) 0
    (by rw [hlen5]; omega)
  set r1 := carryChain 0 (FieldElement.reduceAccs wide) with hr1
  have hr1len : r1.length = 5 := by rw [hcc.2.1, hlen5]
  have hloop := reduceLoopGo_spec (valL r1) r1 hr1len hcc.2.2 le_rfl
  obtain ⟨k1, hk1, hr2len, hr2b, hr2get⟩ := hloop
  set r2 := FieldElement.reduceLoopGo (valL r1) r1 with hr2
  obtain ⟨a, b, c, d, e, hexp⟩ := len5_explode r2 hr2len
  have he0 : e = 0 := by
    rw [hexp] at hr2get
    simpa using hr2get
  have htake : List.take 4 r2 = [a, b, c, d] := by rw [hexp]; rfl
  have htv : valL (List.take 4 r2) = valL r2 := by
    rw [htake, hexp, he0]
    simp [valL_cons, valL_nil]
  have htb : ∀ x ∈ List.take 4 r2, x < 2 ^ 64 := by
    intro x hx
    exact hr2b x (List.mem_of_mem_take hx)
  have htl : (List.take 4 r2).length = 4 := by rw [htake]; rfl
  have hsub := subPLoopGo_spec (valL (List.take 4 r2)) (List.take 4 r2) htl htb le_rfl
  obtain ⟨k2, hk2, hcan⟩ := hsub
  have hfin : FieldElement.reduce wide =
      FieldElement.subPLoopGo (valL (List.take 4 r2)) (List.take 4 r2) := by
    rw [FieldElement.reduce]
  refine ⟨?_, hfin ▸ hcan⟩
  rw [hfin]
  have hval : valL (FieldElement.subPLoopGo (valL (List.take 4 r2)) (List.take 4 r2)) +
      pVal * (k2 + k1 + valL (List.drop 4 wide)) = valL wide := by
    rw [Nat.mul_add, Nat.mul_add]
    omega
  have hlt : valL (FieldElement.subPLoopGo (valL (List.take 4 r2)) (List.take 4 r2)) < pVal :=
    hcan.2.2
  rw [← hval, Nat.add_mul_mod_self_left, Nat.mod_eq_of_lt hlt]

theorem fieldMul_spec (a b : List Nat) (ha4 : a.length = 4) (hb4 : b.length = 4)
    (hab : ∀ x ∈ a, x < 2 ^ 64) (hbb : ∀ x ∈ b, x < 2 ^ 64) :
    valL (FieldElement.mul a b) = valL a * valL b % pVal ∧
      IsCanonical pVal (FieldElement.mul a b) := by
  have hmw := mulWide_spec a b ha4 hb4 hab hbb
  have hred := reduce_spec (mulWide a b) hmw.2.1 hmw.2.2
  rw [FieldElement.mul]
  exact ⟨by rw [hred.1, hmw.1], hred.2⟩

theorem fieldAdd_spec (a b : List Nat) (ha : IsCanonical pVal a) (hb : IsCanonical pVal b) :
    IsCanonical pVal (FieldElement.add a b) ∧
      valL (FieldElement.add a b) = (valL a + valL b) % pVal := by
  have hpv : valL P_LIMBS = pVal := by decide
  rw [← hpv] at ha hb ⊢
  exact modAdd_spec P_LIMBS a b (by decide) (by decide) (by decide) ha hb

theorem fieldSub_spec (a b : List Nat) (ha : IsCanonical pVal a) (hb : IsCanonical pVal b) :
    IsCanonical pVal (FieldElement.sub a b) ∧
      valL (FieldElement.sub a b) = (pVal + valL a - valL b) % pVal := by
  have hpv : valL P_LIMBS = pVal := by decide
  rw [← hpv] at ha hb ⊢
  exact modSub_spec P_LIMBS a b (by decide) (by decide) ha hb

theorem fieldNeg_spec (a : List Nat) (ha : IsCanonical pVal a) :
    IsCanonical pVal (FieldElement.neg a) ∧
      valL (FieldElement.neg a) = (pVal - valL a) % pVal := by
  have hpv : valL P_LIMBS = pVal := by decide
  rw [← hpv] at ha ⊢
  exact modNeg_spec P_LIMBS a (by decide) (by decide) (by decide) ha

theorem scalarAdd_spec (a b : List Nat) (ha : IsCanonical nVal a) (hb : IsCanonical nVal b) :
    IsCanonical nVal (Scalar.add a b) ∧
      valL (Scalar.add a b) = (valL a + valL b) % nVal := by
  have hnv : valL N_LIMBS = nVal := by decide
  rw [← hnv] at ha hb ⊢
  exact modAdd_spec N_LIMBS a b (by decide) (by decide) (by decide) ha hb

theorem scalarSub_spec (a b : List Nat) (ha : IsCanonical nVal a) (hb : IsCanonical nVal b) :
    IsCanonical nVal (Scalar.sub a b) ∧
      valL (Scalar.sub a b) = (nVal + valL a - valL b) % nVal := by
  have hnv : valL N_LIMBS = nVal := by decide
  rw [← hnv] at ha hb ⊢
  exact modSub_spec N_LIMBS a b (by decide) (by decide) ha hb

theorem scalarNeg_spec (a : List Nat) (ha : IsCanonical nVal a) :
    IsCanonical nVal (Scalar.neg a) ∧
      valL (Scalar.neg a) = (nVal - valL a) % nVal := by
  have hnv : valL N_LIMBS = nVal := by decide
  rw [← hnv] at ha ⊢
  exact modNeg_spec N_LIMBS a (by decide) (by decide) (by decide) ha

theorem modMulAdd (x y z n : Nat) : (x % n * y + z) % n = (x * y + z) % n := by
  conv_rhs => rw [← Nat.div_add_mod x n]
  have h : (n * (x / n) + x % n) * y + z = x % n * y + z + x / n * y * n := by ring
  rw [h, Nat.add_mul_mod_self_right]

theorem mod_pow_two_succ (m k : Nat) :
    m % 2 ^ (k + 1) = m % 2 ^ k + 2 ^ k * (m / 2 ^ k % 2) := by
  rw [pow_succ, Nat.mod_mul]

theorem scalarBits_fold (limb : Nat) : ∀ (k : Nat) (rem : List Nat), IsCanonical nVal rem →
    IsCanonical nVal ((List.range k).reverse.foldl
      (fun rem bit_idx =>
        let rem2 := Scalar.add rem rem
        if (limb >>> bit_idx) &&& 1 = 1 then Scalar.add rem2 Scalar.ONE else rem2) rem) ∧
    valL ((List.range k).reverse.foldl
      (fun rem bit_idx =>
        let rem2 := Scalar.add rem rem
        if (limb >>> bit_idx) &&& 1 = 1 then Scalar.add rem2 Scalar.ONE else rem2) rem)
      = (valL rem * 2 ^ k + limb % 2 ^ k) % nVal := by
  intro k
  induction k with
  | zero =>
    intro rem hrem
    simp only [List.range_zero, List.reverse_nil, List.foldl_nil, pow_zero, Nat.mul_one,
      Nat.mod_one, Nat.add_zero]
    exact ⟨hrem, (Nat.mod_eq_of_lt hrem.2.2).symm⟩
  | succ k ihk =>
    intro rem hrem
    have hrangerev : (List.range (k + 1)).reverse = k :: (List.range k).reverse := by
      rw [List.range_succ, List.reverse_append]
      rfl
    rw [hrangerev]
    simp only [List.foldl_cons]
    have hadd := scalarAdd_spec rem rem hrem hrem
    have hshift : (limb >>> k) &&& 1 = limb / 2 ^ k % 2 := by
      rw [Nat.shiftRight_eq_div_pow, Nat.and_one_is_mod]
    by_cases hbit : (limb >>> k) &&& 1 = 1
    · rw [if_pos hbit]
      have hone := scalarAdd_spec (Scalar.add rem rem) Scalar.ONE hadd.1 (by decide)
      have hih := ihk (Scalar.add (Scalar.add rem rem) Scalar.ONE) hone.1
      refine ⟨hih.1, ?_⟩
      rw [hih.2, hone.2, hadd.2]
      have ho : valL Scalar.ONE = 1 := by decide
      rw [ho, Nat.mod_add_mod, modMulAdd, mod_pow_two_succ]
      rw [hshift] at hbit
      rw [hbit]
      congr 1
      rw [pow_succ]
      ring
    · rw [if_neg hbit]
      have hih := ihk (Scalar.add rem rem) hadd.1
      refine ⟨hih.1, ?_⟩
      rw [hih.2, hadd.2]
      have hbit0 : limb / 2 ^ k % 2 = 0 := by
        rw [hshift] at hbit
        omega
      rw [modMulAdd, mod_pow_two_succ, hbit0]
      congr 1
      rw [pow_succ]
      ring

theorem scalarLimbs_fold : ∀ (limbs : List Nat) (rem : List Nat), IsCanonical nVal rem →
    (∀ x ∈ limbs, x < 2 ^ 64) →
    IsCanonical nVal (limbs.foldl
      (fun rem limb =>
        (List.range 64).reverse.foldl
          (fun rem bit_idx =>
            let rem2 := Scalar.add rem rem
            if (limb >>> bit_idx) &&& 1 = 1 then Scalar.add rem2 Scalar.ONE else rem2) rem)
      rem) ∧
    valL (limbs.foldl
      (fun rem limb =>
        (List.range 64).reverse.foldl
          (fun rem bit_idx =>
            let rem2 := Scalar.add rem rem
            if (limb >>> bit_idx) &&& 1 = 1 then Scalar.add rem2 Scalar.ONE else rem2) rem)
      rem) = (valL rem * 2 ^ (64 * limbs.length) + valL limbs.reverse) % nVal := by
  intro limbs
  induction limbs with
  | nil =>
    intro rem hrem
    simp only [List.foldl_nil, List.length_nil, Nat.mul_zero, pow_zero, Nat.mul_one,
      List.reverse_nil, valL_nil, Nat.add_zero]
    exact fun _ => ⟨hrem, (Nat.mod_eq_of_lt hrem.2.2).symm⟩
  | cons l ls ih =>
    intro rem hrem hb
    have hl := hb l (List.mem_cons_self _ _)
    have hlt := fun x hx => hb x (List.mem_cons_of_mem _ hx)
    simp only [List.foldl_cons]
    have hinner := scalarBits_fold l 64 rem hrem
    have hih := ih _ hinner.1 hlt
    refine ⟨hih.1, ?_⟩
    rw [hih.2, hinner.2, Nat.mod_eq_of_lt hl, modMulAdd]
    have hrev : valL (l :: ls).reverse = valL ls.reverse + 2 ^ (64 * ls.length) * l := by
      rw [List.reverse_cons, valL_append, List.length_reverse]
      rw [valL_cons, valL_nil]
      ring
    rw [hrev, List.length_cons]
    have hp : 2 ^ (64 * (ls.length + 1)) = 2 ^ (64 * ls.length) * 2 ^ 64 := by
      rw [Nat.mul_succ, pow_add]
    rw [hp]
    have heq : (valL rem * 2 ^ 64 + l) * 2 ^ (64 * ls.length) + valL ls.reverse
        = valL rem * (2 ^ (64 * ls.length) * 2 ^ 64) +
          (valL ls.reverse + 2 ^ (64 * ls.length) * l) := by
      ring
    rw [heq]

theorem reduce_wide_spec (wide : List Nat) (hw : wide.length = 8)
    (hb : ∀ x ∈ wide, x < 2 ^ 64) :
    IsCanonical nVal (Scalar.reduce_wide wide) ∧
      valL (Scalar.reduce_wide wide) = valL wide % nVal := by
  have h := scalarLimbs_fold wide.reverse Scalar.ZERO (by decide)
    (fun x hx => hb x (List.mem_reverse.mp hx))
  rw [Scalar.reduce_wide]
  refine ⟨h.1, ?_⟩
  rw [h.2, List.reverse_reverse]
  have hz : valL Scalar.ZERO = 0 := by decide
  rw [hz, Nat.zero_mul, Nat.zero_add]

theorem scalarMul_spec (a b : List Nat) (ha4 : a.length = 4) (hb4 : b.length = 4)
    (hab : ∀ x ∈ a, x < 2 ^ 64) (hbb : ∀ x ∈ b, x < 2 ^ 64) :
    IsCanonical nVal (Scalar.mul a b) ∧
      valL (Scalar.mul a b) = valL a * valL b % nVal := by
  have hmw := mulWide_spec a b ha4 hb4 hab hbb
  have hred := reduce_wide_spec (mulWide a b) hmw.2.1 hmw.2.2
  rw [Scalar.mul]
  exact ⟨hred.1, by rw [hred.2, hmw.1]⟩

theorem foldl_preserves {α β : Type} (P : β → Prop) (f : β → α → β)
    (hf : ∀ acc x, P acc → P (f acc x)) :
    ∀ (l : List α) (acc : β), P acc → P (l.foldl f acc) := by
  intro l
  induction l with
  | nil => intro acc h; exact h
  | cons x xs ih =>
    intro acc h
    exact ih _ (hf acc x h)

theorem fieldPow_inner_preserved (limb : Nat) (acc : List Nat × List Nat) (bit : Nat)
    (h1 : IsCanonical pVal acc.1) (h2 : acc.2.length = 4)
    (h3 : ∀ x ∈ acc.2, x < 2 ^ 64) :
    IsCanonical pVal
        (if (limb >>> bit) &&& 1 = 1 then FieldElement.mul acc.1 acc.2 else acc.1) ∧
      (FieldElement.square acc.2).length = 4 ∧
      ∀ x ∈ FieldElement.square acc.2, x < 2 ^ 64 := by
  have hsq := (fieldMul_spec acc.2 acc.2 h2 h2 h3 h3).2
  rw [← FieldElement.square] at hsq
  refine ⟨?_, hsq.1, hsq.2.1⟩
  by_cases hbit : (limb >>> bit) &&& 1 = 1
  · rw [if_pos hbit]
    exact (fieldMul_spec acc.1 acc.2 h1.1 h2 h1.2.1 h3).2
  · rw [if_neg hbit]
    exact h1

theorem fieldPow_canonical (a exp : List Nat) (ha4 : a.length = 4)
    (hab : ∀ x ∈ a, x < 2 ^ 64) : IsCanonical pVal (FieldElement.pow a exp) := by
  have key := foldl_preserves
    (fun acc : List Nat × List Nat =>
      IsCanonical pVal acc.1 ∧ acc.2.length = 4 ∧ ∀ x ∈ acc.2, x < 2 ^ 64)
    (fun acc limb =>
      (List.range 64).foldl
        (fun acc bit =>
          ((if (limb >>> bit) &&& 1 = 1 then FieldElement.mul acc.1 acc.2 else acc.1),
            FieldElement.square acc.2))
        acc)
    (fun acc limb hacc =>
      foldl_preserves
        (fun acc : List Nat × List Nat =>
          IsCanonical pVal acc.1 ∧ acc.2.length = 4 ∧ ∀ x ∈ acc.2, x < 2 ^ 64)
        (fun acc bit =>
          ((if (limb >>> bit) &&& 1 = 1 then FieldElement.mul acc.1 acc.2 else acc.1),
            FieldElement.square acc.2))
        (fun acc2 bit hacc2 =>
          fieldPow_inner_preserved limb acc2 bit hacc2.1 hacc2.2.1 hacc2.2.2)
        (List.range 64) acc hacc)
    exp (FieldElement.ONE, a) ⟨(by decide : IsCanonical pVal FieldElement.ONE), ha4, hab⟩
  rw [FieldElement.pow]
  exact key.1

theorem fieldInv_canonical (a r : List Nat) (ha4 : a.length = 4)
    (hab : ∀ x ∈ a, x < 2 ^ 64) (h : FieldElement.inv a = some r) :
    IsCanonical pVal r := by
  rw [FieldElement.inv] at h
  by_cases hz : FieldElement.is_zero a
  · rw [if_pos hz] at h
    exact absurd h (by simp)
  · rw [if_neg hz] at h
    have := fieldPow_canonical a P_MINUS_2_LIMBS ha4 hab
    injection h with h
    rw [← h]
    exact this

/-- C4: for canonical inputs (4 limbs, each below `2^64`, value below the
modulus), every `FieldElement` operation (`add`, `sub`, `neg`, `mul`,
`square`, `pow`, `inv`) returns a canonical result `0 ≤ x < p`, and every
`Scalar` operation (`add`, `sub`, `neg`, `mul`, `square`) returns a canonical
result `0 ≤ x < n`. -/
theorem claim_C4_canonical_ops (a b s t e : List Nat)
    (ha : IsCanonical pVal a) (hb : IsCanonical pVal b)
    (hs : IsCanonical nVal s) (ht : IsCanonical nVal t) :
    IsCanonical pVal (FieldElement.add a b) ∧
    IsCanonical pVal (FieldElement.sub a b) ∧
    IsCanonical pVal (FieldElement.neg a) ∧
    IsCanonical pVal (FieldElement.mul a b) ∧
    IsCanonical pVal (FieldElement.square a) ∧
    IsCanonical pVal (FieldElement.pow a e) ∧
    (∀ r, FieldElement.inv a = some r → IsCanonical pVal r) ∧
    IsCanonical nVal (Scalar.add s t) ∧
    IsCanonical nVal (Scalar.sub s t) ∧
    IsCanonical nVal (Scalar.neg s) ∧
    IsCanonical nVal (Scalar.mul s t) ∧
    IsCanonical nVal (Scalar.square s) := by
  have hsqf : IsCanonical pVal (FieldElement.square a) := by
    have := (fieldMul_spec a a ha.1 ha.1 ha.2.1 ha.2.1).2
    rw [← FieldElement.square] at this
    exact this
  have hsqs : IsCanonical nVal (Scalar.square s) := by
    have := (scalarMul_spec s s hs.1 hs.1 hs.2.1 hs.2.1).1
    rw [← Scalar.square] at this
    exact this
  exact ⟨(fieldAdd_spec a b ha hb).1, (fieldSub_spec a b ha hb).1, (fieldNeg_spec a ha).1,
    (fieldMul_spec a b ha.1 hb.1 ha.2.1 hb.2.1).2, hsqf,
    fieldPow_canonical a e ha.1 ha.2.1,
    fun r hr => fieldInv_canonical a r ha.1 ha.2.1 hr,
    (scalarAdd_spec s t hs ht).1, (scalarSub_spec s t hs ht).1, (scalarNeg_spec s hs).1,
    (scalarMul_spec s t hs.1 ht.1 hs.2.1 ht.2.1).1, hsqs⟩

/-- Witness for C4 at concrete canonical inputs. -/
theorem claim_C4_witness :
    IsCanonical pVal [2, 0, 0, 0] ∧ IsCanonical pVal [3, 0, 0, 0] ∧
    IsCanonical nVal [5, 0, 0, 0] ∧ IsCanonical nVal [7, 0, 0, 0] ∧
    (IsCanonical pVal (FieldElement.add [2, 0, 0, 0] [3, 0, 0, 0]) ∧
     IsCanonical pVal (FieldElement.sub [2, 0, 0, 0] [3, 0, 0, 0]) ∧
     IsCanonical pVal (FieldElement.neg [2, 0, 0, 0]) ∧
     IsCanonical pVal (FieldElement.mul [2, 0, 0, 0] [3, 0, 0, 0]) ∧
     IsCanonical pVal (FieldElement.square [2, 0, 0, 0]) ∧
     IsCanonical pVal (FieldElement.pow [2, 0, 0, 0] [1, 0, 0, 0]) ∧
     (∀ r, FieldElement.inv [2, 0, 0, 0] = some r → IsCanonical pVal r) ∧
     IsCanonical nVal (Scalar.add [5, 0, 0, 0] [7, 0, 0, 0]) ∧
     IsCanonical nVal (Scalar.sub [5, 0, 0, 0] [7, 0, 0, 0]) ∧
     IsCanonical nVal (Scalar.neg [5, 0, 0, 0]) ∧
     IsCanonical nVal (Scalar.mul [5, 0, 0, 0] [7, 0, 0, 0]) ∧
     IsCanonical nVal (Scalar.square [5, 0, 0, 0])) :=
  ⟨by decide, by decide, by decide, by decide,
    claim_C4_canonical_ops [2, 0, 0, 0] [3, 0, 0, 0] [5, 0, 0, 0] [7, 0, 0, 0] [1, 0, 0, 0]
      (by decide) (by decide) (by decide) (by decide)⟩

/-- C5: for canonical scalars `a` and `b` (values below `n`), `Scalar.mul`
— the 4x4-limb schoolbook product to 8 limbs followed by the MSB-to-LSB
bitwise shift-and-conditional-add reduction — computes exactly
`a * b mod n`. -/
theorem claim_C5_scalar_mul (a b : List Nat)
    (ha : IsCanonical nVal a) (hb : IsCanonical nVal b) :
    valL (Scalar.mul a b) = valL a * valL b % nVal :=
  (scalarMul_spec a b ha.1 hb.1 ha.2.1 hb.2.1).2

/-- Witness for C5 at concrete canonical inputs. -/
theorem claim_C5_witness :
    IsCanonical nVal [2, 0, 0, 0] ∧ IsCanonical nVal [3, 0, 0, 0] ∧
    valL (Scalar.mul [2, 0, 0, 0] [3, 0, 0, 0]) =
      valL [2, 0, 0, 0] * valL [3, 0, 0, 0] % nVal :=
  ⟨by decide, by decide, claim_C5_scalar_mul [2, 0, 0, 0] [3, 0, 0, 0] (by decide) (by decide)⟩

/-! ### Point layer: field-op homomorphisms into `ZMod pVal` -/

theorem addCanP (a b : List Nat) (ha : IsCanonical pVal a) (hb : IsCanonical pVal b) :
    IsCanonical pVal (FieldElement.add a b) := (fieldAdd_spec a b ha hb).1

theorem subCanP (a b : List Nat) (ha : IsCanonical pVal a) (hb : IsCanonical pVal b) :
    IsCanonical pVal (FieldElement.sub a b) := (fieldSub_spec a b ha hb).1

theorem mulCanP (a b : List Nat) (ha : IsCanonical pVal a) (hb : IsCanonical pVal b) :
    IsCanonical pVal (FieldElement.mul a b) :=
  (fieldMul_spec a b ha.1 hb.1 ha.2.1 hb.2.1).2

theorem squareCanP (a : List Nat) (ha : IsCanonical pVal a) :
    IsCanonical pVal (FieldElement.square a) := by
  have := mulCanP a a ha ha
  rw [← FieldElement.square] at this
  exact this

theorem zmod_cast_mod_p (x : Nat) : ((x % pVal : Nat) : ZMod pVal) = (x : ZMod pVal) := by
  conv_rhs => rw [← Nat.div_add_mod x pVal]
  push_cast
  rw [ZMod.natCast_self]
  ring

theorem phiAdd (a b : List Nat) (ha : IsCanonical pVal a) (hb : IsCanonical pVal b) :
    ((valL (FieldElement.add a b) : Nat) : ZMod pVal)
      = (valL a : ZMod pVal) + (valL b : ZMod pVal) := by
  rw [(fieldAdd_spec a b ha hb).2, zmod_cast_mod_p]
  push_cast
  ring

theorem phiSub (a b : List Nat) (ha : IsCanonical pVal a) (hb : IsCanonical pVal b) :
    ((valL (FieldElement.sub a b) : Nat) : ZMod pVal)
      = (valL a : ZMod pVal) - (valL b : ZMod pVal) := by
  rw [(fieldSub_spec a b ha hb).2, zmod_cast_mod_p]
  have hle : valL b ≤ pVal + valL a := by
    have := hb.2.2
    omega
  rw [Nat.cast_sub hle]
  push_cast
  rw [ZMod.natCast_self]
  ring

theorem phiNeg (a : List Nat) (ha : IsCanonical pVal a) :
    ((valL (FieldElement.neg a) : Nat) : ZMod pVal) = -(valL a : ZMod pVal) := by
  rw [(fieldNeg_spec a ha).2, zmod_cast_mod_p]
  have hle : valL a ≤ pVal := Nat.le_of_lt ha.2.2
  rw [Nat.cast_sub hle, ZMod.natCast_self]
  ring

theorem phiMul (a b : List Nat) (ha : IsCanonical pVal a) (hb : IsCanonical pVal b) :
    ((valL (FieldElement.mul a b) : Nat) : ZMod pVal)
      = (valL a : ZMod pVal) * (valL b : ZMod pVal) := by
  rw [(fieldMul_spec a b ha.1 hb.1 ha.2.1 hb.2.1).1, zmod_cast_mod_p]
  push_cast
  ring

theorem phiSquare (a : List Nat) (ha : IsCanonical pVal a) :
    ((valL (FieldElement.square a) : Nat) : ZMod pVal)
      = (valL a : ZMod pVal) * (valL a : ZMod pVal) := by
  rw [FieldElement.square]
  exact phiMul a a ha ha

theorem val2z : ((valL [2, 0, 0, 0] : Nat) : ZMod pVal) = 2 := by
  have h : valL [2, 0, 0, 0] = 2 := by decide
  rw [h]
  push_cast
  rfl

theorem val3z : ((valL [3, 0, 0, 0] : Nat) : ZMod pVal) = 3 := by
  have h : valL [3, 0, 0, 0] = 3 := by decide
  rw [h]
  push_cast
  rfl

theorem val4z : ((valL [4, 0, 0, 0] : Nat) : ZMod pVal) = 4 := by
  have h : valL [4, 0, 0, 0] = 4 := by decide
  rw [h]
  push_cast
  rfl

theorem val8z : ((valL [8, 0, 0, 0] : Nat) : ZMod pVal) = 8 := by
  have h : valL [8, 0, 0, 0] = 8 := by decide
  rw [h]
  push_cast
  rfl

theorem ptCanonical_INFINITY : PtCanonical Point.INFINITY := by decide

theorem onCurveN_INFINITY : OnCurveN Point.INFINITY := by
  rw [OnCurveN]
  have hy : valL Point.INFINITY.y = 1 := by decide
  have hx : valL Point.INFINITY.x = 1 := by decide
  have hz : valL Point.INFINITY.z = 0 := by decide
  rw [hx, hy, hz]
  push_cast
  ring

set_option maxHeartbeats 1600000 in
theorem double_spec (p : Point) (hc : PtCanonical p) :
    PtCanonical (Point.double p) ∧ (OnCurveN p → OnCurveN (Point.double p)) := by
  obtain ⟨hx, hy, hz⟩ := hc
  by_cases hinf : (Point.is_infinity p || FieldElement.is_zero p.y) = true
  · rw [Point.double, if_pos hinf]
    exact ⟨ptCanonical_INFINITY, fun _ => onCurveN_INFINITY⟩
  · have hdx : (Point.double p).x = (FieldElement.sub (FieldElement.sub (FieldElement.square (FieldElement.mul (FieldElement.square p.x) [3, 0, 0, 0])) (FieldElement.mul (FieldElement.mul p.x (FieldElement.square p.y)) [4, 0, 0, 0])) (FieldElement.mul (FieldElement.mul p.x (FieldElement.square p.y)) [4, 0, 0, 0])) := by
      rw [Point.double, if_neg hinf]
    have hdy : (Point.double p).y = (FieldElement.sub (FieldElement.mul (FieldElement.mul (FieldElement.square p.x) [3, 0, 0, 0]) (FieldElement.sub (FieldElement.mul (FieldElement.mul p.x (FieldElement.square p.y)) [4, 0, 0, 0]) (FieldElement.sub (FieldElement.sub (FieldElement.square (FieldElement.mul (FieldElement.square p.x) [3, 0, 0, 0])) (FieldElement.mul (FieldElement.mul p.x (FieldElement.square p.y)) [4, 0, 0, 0])) (FieldElement.mul (FieldElement.mul p.x (FieldElement.square p.y)) [4, 0, 0, 0])))) (FieldElement.mul (FieldElement.square (FieldElement.square p.y)) [8, 0, 0, 0])) := by
      rw [Point.double, if_neg hinf]
    have hdz : (Point.double p).z = (FieldElement.mul (FieldElement.mul p.y p.z) [2, 0, 0, 0]) := by
      rw [Point.double, if_neg hinf]
    have h4 : IsCanonical pVal [4, 0, 0, 0] := by decide
    have h3 : IsCanonical pVal [3, 0, 0, 0] := by decide
    have h8 : IsCanonical pVal [8, 0, 0, 0] := by decide
    have h2 : IsCanonical pVal [2, 0, 0, 0] := by decide
    have c1 := squareCanP _ hy
    have c2 := mulCanP _ _ hx c1
    have c3 := mulCanP _ _ c2 h4
    have c4 := squareCanP _ hx
    have c5 := mulCanP _ _ c4 h3
    have c6 := squareCanP _ c5
    have c7 := subCanP _ _ c6 c3
    have c8 := subCanP _ _ c7 c3
    have c9 := squareCanP _ c1
    have c10 := mulCanP _ _ c9 h8
    have c11 := subCanP _ _ c3 c8
    have c12 := mulCanP _ _ c5 c11
    have c13 := subCanP _ _ c12 c10
    have c14 := mulCanP _ _ hy hz
    have c15 := mulCanP _ _ c14 h2
    refine ⟨⟨?_, ?_, ?_⟩, fun h => ?_⟩
    · rw [hdx]
      exact c8
    · rw [hdy]
      exact c13
    · rw [hdz]
      exact c15
    · rw [OnCurveN] at h ⊢
      rw [hdx, hdy, hdz]
      simp only [phiSub, phiMul, phiSquare, c1, c2, c3, c4, c5, c6, c7, c8, c9, c10, c11,
        c12, c13, c14, c15, hx, hy, hz, h2, h3, h4, h8, val2z, val3z, val4z, val8z]
      linear_combination ((64 : ZMod pVal) * ((valL p.y : Nat) : ZMod pVal) ^ 6) * h

set_option maxHeartbeats 3200000 in
theorem add_spec (p q : Point) (hp : PtCanonical p) (hq : PtCanonical q) :
    PtCanonical (Point.add p q) ∧
      (OnCurveN p → OnCurveN q → OnCurveN (Point.add p q)) := by
  obtain ⟨hpx, hpy, hpz⟩ := hp
  obtain ⟨hqx, hqy, hqz⟩ := hq
  by_cases hp1 : Point.is_infinity p = true
  · rw [Point.add, if_pos hp1]
    exact ⟨⟨hqx, hqy, hqz⟩, fun _ h2 => h2⟩
  · by_cases hq1 : Point.is_infinity q = true
    · rw [Point.add, if_neg hp1, if_pos hq1]
      exact ⟨⟨hpx, hpy, hpz⟩, fun h1 _ => h1⟩
    · by_cases hH : FieldElement.is_zero (FieldElement.sub (FieldElement.mul q.x (FieldElement.square p.z)) (FieldElement.mul p.x (FieldElement.square q.z))) = true
      · by_cases hR : FieldElement.is_zero (FieldElement.sub (FieldElement.mul q.y (FieldElement.mul (FieldElement.square p.z) p.z)) (FieldElement.mul p.y (FieldElement.mul (FieldElement.square q.z) q.z))) = true
        · rw [Point.add, if_neg hp1, if_neg hq1, if_pos hH, if_pos hR]
          exact ⟨(double_spec p ⟨hpx, hpy, hpz⟩).1,
            fun h1 _ => (double_spec p ⟨hpx, hpy, hpz⟩).2 h1⟩
        · rw [Point.add, if_neg hp1, if_neg hq1, if_pos hH, if_neg hR]
          exact ⟨ptCanonical_INFINITY, fun _ _ => onCurveN_INFINITY⟩
      · have hax : (Point.add p q).x = (FieldElement.sub (FieldElement.sub (FieldElement.sub (FieldElement.square (FieldElement.sub (FieldElement.mul q.y (FieldElement.mul (FieldElement.square p.z) p.z)) (FieldElement.mul p.y (FieldElement.mul (FieldElement.square q.z) q.z)))) (FieldElement.mul (FieldElement.square (FieldElement.sub (FieldElement.mul q.x (FieldElement.square p.z)) (FieldElement.mul p.x (FieldElement.square q.z)))) (FieldElement.sub (FieldElement.mul q.x (FieldElement.square p.z)) (FieldElement.mul p.x (FieldElement.square q.z))))) (FieldElement.mul (FieldElement.mul p.x (FieldElement.square q.z)) (FieldElement.square (FieldElement.sub (FieldElement.mul q.x (FieldElement.square p.z)) (FieldElement.mul p.x (FieldElement.square q.z)))))) (FieldElement.mul (FieldElement.mul p.x (FieldElement.square q.z)) (FieldElement.square (FieldElement.sub (FieldElement.mul q.x (FieldElement.square p.z)) (FieldElement.mul p.x (FieldElement.square q.z)))))) := by
          rw [Point.add, if_neg hp1, if_neg hq1, if_neg hH]
        have hay : (Point.add p q).y = (FieldElement.sub (FieldElement.mul (FieldElement.sub (FieldElement.mul q.y (FieldElement.mul (FieldElement.square p.z) p.z)) (FieldElement.mul p.y (FieldElement.mul (FieldElement.square q.z) q.z))) (FieldElement.sub (FieldElement.mul (FieldElement.mul p.x (FieldElement.square q.z)) (FieldElement.square (FieldElement.sub (FieldElement.mul q.x (FieldElement.square p.z)) (FieldElement.mul p.x (FieldElement.square q.z))))) (FieldElement.sub (FieldElement.sub (FieldElement.sub (FieldElement.square (FieldElement.sub (FieldElement.mul q.y (FieldElement.mul (FieldElement.square p.z) p.z)) (FieldElement.mul p.y (FieldElement.mul (FieldElement.square q.z) q.z)))) (FieldElement.mul (FieldElement.square (FieldElement.sub (FieldElement.mul q.x (FieldElement.square p.z)) (FieldElement.mul p.x (FieldElement.square q.z)))) (FieldElement.sub (FieldElement.mul q.x (FieldElement.square p.z)) (FieldElement.mul p.x (FieldElement.square q.z))))) (FieldElement.mul (FieldElement.mul p.x (FieldElement.square q.z)) (FieldElement.square (FieldElement.sub (FieldElement.mul q.x (FieldElement.square p.z)) (FieldElement.mul p.x (FieldElement.square q.z)))))) (FieldElement.mul (FieldElement.mul p.x (FieldElement.square q.z)) (FieldElement.square (FieldElement.sub (FieldElement.mul q.x (FieldElement.square p.z)) (FieldElement.mul p.x (FieldElement.square q.z)))))))) (FieldElement.mul (FieldElement.mul p.y (FieldElement.mul (FieldElement.square q.z) q.z)) (FieldElement.mul (FieldElement.square (FieldElement.sub (FieldElement.mul q.x (FieldElement.square p.z)) (FieldElement.mul p.x (FieldElement.square q.z)))) (FieldElement.sub (FieldElement.mul q.x (FieldElement.square p.z)) (FieldElement.mul p.x (FieldElement.square q.z)))))) := by
          rw [Point.add, if_neg hp1, if_neg hq1, if_neg hH]
        have haz : (Point.add p q).z = (FieldElement.mul (FieldElement.mul (FieldElement.sub (FieldElement.mul q.x (FieldElement.square p.z)) (FieldElement.mul p.x (FieldElement.square q.z))) p.z) q.z) := by
          rw [Point.add, if_neg hp1, if_neg hq1, if_neg hH]
        have d1 := squareCanP _ hpz
        have d2 := squareCanP _ hqz
        have d3 := mulCanP _ _ d1 hpz
        have d4 := mulCanP _ _ d2 hqz
        have d5 := mulCanP _ _ hpx d2
        have d6 := mulCanP _ _ hqx d1
        have d7 := mulCanP _ _ hpy d4
        have d8 := mulCanP _ _ hqy d3
        have d9 := subCanP _ _ d6 d5
        have d10 := subCanP _ _ d8 d7
        have d11 := squareCanP _ d9
        have d12 := mulCanP _ _ d11 d9
        have d13 := mulCanP _ _ d5 d11
        have d14 := squareCanP _ d10
        have d15 := subCanP _ _ d14 d12
        have d16 := subCanP _ _ d15 d13
        have d17 := subCanP _ _ d16 d13
        have d18 := subCanP _ _ d13 d17
        have d19 := mulCanP _ _ d10 d18
        have d20 := mulCanP _ _ d7 d12
        have d21 := subCanP _ _ d19 d20
        have d22 := mulCanP _ _ d9 hpz
        have d23 := mulCanP _ _ d22 hqz
        refine ⟨⟨?_, ?_, ?_⟩, fun h1 h2 => ?_⟩
        · rw [hax]
          exact d17
        · rw [hay]
          exact d21
        · rw [haz]
          exact d23
        · rw [OnCurveN] at h1 h2 ⊢
          rw [hax, hay, haz]
          simp only [phiSub, phiMul, phiSquare, d1, d2, d3, d4, d5, d6, d7, d8, d9, d10,
            d11, d12, d13, d14, d15, d16, d17, d18, d19, d20, d21, d22, d23,
            hpx, hpy, hpz, hqx, hqy, hqz]
          linear_combination
            (((-7 : ZMod pVal) * ((valL p.z : Nat) : ZMod pVal) ^ 12 * ((valL q.x : Nat) : ZMod pVal) ^ 3 * ((valL q.z : Nat) : ZMod pVal) ^ 12) +
      ((1 : ZMod pVal) * ((valL p.z : Nat) : ZMod pVal) ^ 12 * ((valL q.x : Nat) : ZMod pVal) ^ 6 * ((valL q.z : Nat) : ZMod pVal) ^ 6) +
      ((2 : ZMod pVal) * ((valL p.y : Nat) : ZMod pVal) * ((valL p.z : Nat) : ZMod pVal) ^ 9 * ((valL q.x : Nat) : ZMod pVal) ^ 3 * ((valL q.y : Nat) : ZMod pVal) * ((valL q.z : Nat) : ZMod pVal) ^ 9) +
      ((-1 : ZMod pVal) * ((valL p.y : Nat) : ZMod pVal) ^ 2 * ((valL p.z : Nat) : ZMod pVal) ^ 6 * ((valL q.x : Nat) : ZMod pVal) ^ 3 * ((valL q.z : Nat) : ZMod pVal) ^ 12) +
      ((21 : ZMod pVal) * ((valL p.x : Nat) : ZMod pVal) * ((valL p.z : Nat) : ZMod pVal) ^ 10 * ((valL q.x : Nat) : ZMod pVal) ^ 2 * ((valL q.z : Nat) : ZMod pVal) ^ 14) +
      ((-6 : ZMod pVal) * ((valL p.x : Nat) : ZMod pVal) * ((valL p.z : Nat) : ZMod pVal) ^ 10 * ((valL q.x : Nat) : ZMod pVal) ^ 5 * ((valL q.z : Nat) : ZMod pVal) ^ 8) +
      ((-6 : ZMod pVal) * ((valL p.x : Nat) : ZMod pVal) * ((valL p.y : Nat) : ZMod pVal) * ((valL p.z : Nat) : ZMod pVal) ^ 7 * ((valL q.x : Nat) : ZMod pVal) ^ 2 * ((valL q.y : Nat) : ZMod pVal) * ((valL q.z : Nat) : ZMod pVal) ^ 11) +
      ((3 : ZMod pVal) * ((valL p.x : Nat) : ZMod pVal) * ((valL p.y : Nat) : ZMod pVal) ^ 2 * ((valL p.z : Nat) : ZMod pVal) ^ 4 * ((valL q.x : Nat) : ZMod pVal) ^ 2 * ((valL q.z : Nat) : ZMod pVal) ^ 14) +
      ((-21 : ZMod pVal) * ((valL p.x : Nat) : ZMod pVal) ^ 2 * ((valL p.z : Nat) : ZMod pVal) ^ 8 * ((valL q.x : Nat) : ZMod pVal) * ((valL q.z : Nat) : ZMod pVal) ^ 16) +
      ((12 : ZMod pVal) * ((valL p.x : Nat) : ZMod pVal) ^ 2 * ((valL p.z : Nat) : ZMod pVal) ^ 8 * ((valL q.x : Nat) : ZMod pVal) ^ 4 * ((valL q.z : Nat) : ZMod pVal) ^ 10) +
      ((6 : ZMod pVal) * ((valL p.x : Nat) : ZMod pVal) ^ 2 * ((valL p.y : Nat) : ZMod pVal) * ((valL p.z : Nat) : ZMod pVal) ^ 5 * ((valL q.x : Nat) : ZMod pVal) * ((valL q.y : Nat) : ZMod pVal) * ((valL q.z : Nat) : ZMod pVal) ^ 13) +
      ((-3 : ZMod pVal) * ((valL p.x : Nat) : ZMod pVal) ^ 2 * ((valL p.y : Nat) : ZMod pVal) ^ 2 * ((valL p.z : Nat) : ZMod pVal) ^ 2 * ((valL q.x : Nat) : ZMod pVal) * ((valL q.z : Nat) : ZMod pVal) ^ 16) +
      ((7 : ZMod pVal) * ((valL p.x : Nat) : ZMod pVal) ^ 3 * ((valL p.z : Nat) : ZMod pVal) ^ 6 * ((valL q.z : Nat) : ZMod pVal) ^ 18) +
      ((-9 : ZMod pVal) * ((valL p.x : Nat) : ZMod pVal) ^ 3 * ((valL p.z : Nat) : ZMod pVal) ^ 6 * ((valL q.x : Nat) : ZMod pVal) ^ 3 * ((valL q.z : Nat) : ZMod pVal) ^ 12) +
      ((-2 : ZMod pVal) * ((valL p.x : Nat) : ZMod pVal) ^ 3 * ((valL p.y : Nat) : ZMod pVal) * ((valL p.z : Nat) : ZMod pVal) ^ 3 * ((valL q.y : Nat) : ZMod pVal) * ((valL q.z : Nat) : ZMod pVal) ^ 15) +
      ((1 : ZMod pVal) * ((valL p.x : Nat) : ZMod pVal) ^ 3 * ((valL p.y : Nat) : ZMod pVal) ^ 2 * ((valL q.z : Nat) : ZMod pVal) ^ 18) +
      ((3 : ZMod pVal) * ((valL p.x : Nat) : ZMod pVal) ^ 5 * ((valL p.z : Nat) : ZMod pVal) ^ 2 * ((valL q.x : Nat) : ZMod pVal) * ((valL q.z : Nat) : ZMod pVal) ^ 16) +
      ((-1 : ZMod pVal) * ((valL p.x : Nat) : ZMod pVal) ^ 6 * ((valL q.z : Nat) : ZMod pVal) ^ 18)) * h1 +
            (((7 : ZMod pVal) * ((valL p.z : Nat) : ZMod pVal) ^ 18 * ((valL q.x : Nat) : ZMod pVal) ^ 3 * ((valL q.z : Nat) : ZMod pVal) ^ 6) +
      ((1 : ZMod pVal) * ((valL p.z : Nat) : ZMod pVal) ^ 18 * ((valL q.x : Nat) : ZMod pVal) ^ 3 * ((valL q.y : Nat) : ZMod pVal) ^ 2) +
      ((-1 : ZMod pVal) * ((valL p.z : Nat) : ZMod pVal) ^ 18 * ((valL q.x : Nat) : ZMod pVal) ^ 6) +
      ((-2 : ZMod pVal) * ((valL p.y : Nat) : ZMod pVal) * ((valL p.z : Nat) : ZMod pVal) ^ 15 * ((valL q.x : Nat) : ZMod pVal) ^ 3 * ((valL q.y : Nat) : ZMod pVal) * ((valL q.z : Nat) : ZMod pVal) ^ 3) +
      ((-21 : ZMod pVal) * ((valL p.x : Nat) : ZMod pVal) * ((valL p.z : Nat) : ZMod pVal) ^ 16 * ((valL q.x : Nat) : ZMod pVal) ^ 2 * ((valL q.z : Nat) : ZMod pVal) ^ 8) +
      ((-3 : ZMod pVal) * ((valL p.x : Nat) : ZMod pVal) * ((valL p.z : Nat) : ZMod pVal) ^ 16 * ((valL q.x : Nat) : ZMod pVal) ^ 2 * ((valL q.y : Nat) : ZMod pVal) ^ 2 * ((valL q.z : Nat) : ZMod pVal) ^ 2) +
      ((3 : ZMod pVal) * ((valL p.x : Nat) : ZMod pVal) * ((valL p.z : Nat) : ZMod pVal) ^ 16 * ((valL q.x : Nat) : ZMod pVal) ^ 5 * ((valL q.z : Nat) : ZMod pVal) ^ 2) +
      ((6 : ZMod pVal) * ((valL p.x : Nat) : ZMod pVal) * ((valL p.y : Nat) : ZMod pVal) * ((valL p.z : Nat) : ZMod pVal) ^ 13 * ((valL q.x : Nat) : ZMod pVal) ^ 2 * ((valL q.y : Nat) : ZMod pVal) * ((valL q.z : Nat) : ZMod pVal) ^ 5) +
      ((21 : ZMod pVal) * ((valL p.x : Nat) : ZMod pVal) ^ 2 * ((valL p.z : Nat) : ZMod pVal) ^ 14 * ((valL q.x : Nat) : ZMod pVal) * ((valL q.z : Nat) : ZMod pVal) ^ 10) +
      ((3 : ZMod pVal) * ((valL p.x : Nat) : ZMod pVal) ^ 2 * ((valL p.z : Nat) : ZMod pVal) ^ 14 * ((valL q.x : Nat) : ZMod pVal) * ((valL q.y : Nat) : ZMod pVal) ^ 2 * ((valL q.z : Nat) : ZMod pVal) ^ 4) +
      ((-6 : ZMod pVal) * ((valL p.x : Nat) : ZMod pVal) ^ 2 * ((valL p.y : Nat) : ZMod pVal) * ((valL p.z : Nat) : ZMod pVal) ^ 11 * ((valL q.x : Nat) : ZMod pVal) * ((valL q.y : Nat) : ZMod pVal) * ((valL q.z : Nat) : ZMod pVal) ^ 7) +
      ((-7 : ZMod pVal) * ((valL p.x : Nat) : ZMod pVal) ^ 3 * ((valL p.z : Nat) : ZMod pVal) ^ 12 * ((valL q.z : Nat) : ZMod pVal) ^ 12) +
      ((-1 : ZMod pVal) * ((valL p.x : Nat) : ZMod pVal) ^ 3 * ((valL p.z : Nat) : ZMod pVal) ^ 12 * ((valL q.y : Nat) : ZMod pVal) ^ 2 * ((valL q.z : Nat) : ZMod pVal) ^ 6) +
      ((-9 : ZMod pVal) * ((valL p.x : Nat) : ZMod pVal) ^ 3 * ((valL p.z : Nat) : ZMod pVal) ^ 12 * ((valL q.x : Nat) : ZMod pVal) ^ 3 * ((valL q.z : Nat) : ZMod pVal) ^ 6) +
      ((2 : ZMod pVal) * ((valL p.x : Nat) : ZMod pVal) ^ 3 * ((valL p.y : Nat) : ZMod pVal) * ((valL p.z : Nat) : ZMod pVal) ^ 9 * ((valL q.y : Nat) : ZMod pVal) * ((valL q.z : Nat) : ZMod pVal) ^ 9) +
      ((12 : ZMod pVal) * ((valL p.x : Nat) : ZMod pVal) ^ 4 * ((valL p.z : Nat) : ZMod pVal) ^ 10 * ((valL q.x : Nat) : ZMod pVal) ^ 2 * ((valL q.z : Nat) : ZMod pVal) ^ 8) +
      ((-6 : ZMod pVal) * ((valL p.x : Nat) : ZMod pVal) ^ 5 * ((valL p.z : Nat) : ZMod pVal) ^ 8 * ((valL q.x : Nat) : ZMod pVal) * ((valL q.z : Nat) : ZMod pVal) ^ 10) +
      ((1 : ZMod pVal) * ((valL p.x : Nat) : ZMod pVal) ^ 6 * ((valL p.z : Nat) : ZMod pVal) ^ 6 * ((valL q.z : Nat) : ZMod pVal) ^ 12)) * h2

/-! ### Primality of the field prime `p = 2^256 - 2^32 - 977`
(Lucas certificates; the witnesses and the factorisations of the `q - 1`
chain are checked by `decide` / `norm_num`). -/

theorem powModGo_spec : ∀ (fuel b e m : Nat), 0 < m → e ≤ fuel →
    powModGo fuel b e m = b ^ e % m := by
  intro fuel
  induction fuel with
  | zero =>
    intro b e m hm he
    have he0 : e = 0 := by omega
    subst he0
    simp [powModGo, pow_zero]
  | succ fuel ih =>
    intro b e m hm he
    by_cases he0 : e = 0
    · subst he0
      rw [powModGo, if_pos rfl]
      simp [pow_zero]
    · rw [powModGo, if_neg he0]
      have hrec := ih (b * b % m) (e / 2) m hm (by omega)
      have he2 : 2 * (e / 2) + e % 2 = e := Nat.div_add_mod e 2
      have hsplit : b ^ e = (b * b) ^ (e / 2) * b ^ (e % 2) := by
        calc b ^ e = b ^ (2 * (e / 2) + e % 2) := by rw [he2]
        _ = (b ^ 2) ^ (e / 2) * b ^ (e % 2) := by rw [pow_add, pow_mul]
        _ = (b * b) ^ (e / 2) * b ^ (e % 2) := by ring
      simp only [hrec]
      rw [← Nat.pow_mod]
      by_cases hodd : e % 2 = 1
      · rw [if_pos hodd, hsplit, hodd, pow_one, Nat.mod_mul_mod]
      · rw [if_neg hodd]
        have h0 : e % 2 = 0 := by omega
        rw [hsplit, h0, pow_zero, Nat.mul_one]

theorem powMod_spec (b e m : Nat) (hm : 0 < m) : powMod b e m = b ^ e % m :=
  powModGo_spec e b e m hm le_rfl

theorem zmod_cast_mod (n x : Nat) : ((x % n : Nat) : ZMod n) = (x : ZMod n) := by
  conv_rhs => rw [← Nat.div_add_mod x n]
  push_cast
  rw [ZMod.natCast_self]
  ring

theorem zmod_pow_powMod (w e n : Nat) (hn : 0 < n) :
    ((w : Nat) : ZMod n) ^ e = ((powMod w e n : Nat) : ZMod n) := by
  rw [powMod_spec w e n hn, zmod_cast_mod, Nat.cast_pow]

theorem powMod_eq_one_zmod (w e P : Nat) (hP : 0 < P) (h : powMod w e P % P = 1 % P) :
    ((w : Nat) : ZMod P) ^ e = 1 := by
  rw [zmod_pow_powMod w e P hP, ← Nat.cast_one]
  exact (ZMod.natCast_eq_natCast_iff _ _ _).mpr h

theorem powMod_ne_one_zmod (w e P : Nat) (hP : 0 < P) (h : ¬ powMod w e P % P = 1 % P) :
    ((w : Nat) : ZMod P) ^ e ≠ 1 := by
  rw [zmod_pow_powMod w e P hP, ← Nat.cast_one]
  intro hcon
  exact h ((ZMod.natCast_eq_natCast_iff _ _ _).mp hcon)


/-- Lucas certificate for `1206781` (avoids a deep trial-division term). -/
theorem prime_chain_1206781 : Nat.Prime 1206781 := by
  apply lucas_primality 1206781 ((10 : Nat) : ZMod 1206781)
  · exact powMod_eq_one_zmod 10 (1206781 - 1) 1206781 (by norm_num) (by decide)
  · intro q hq hdvd
    have hfact : 1206781 - 1 = 2 ^ 2 * (3 * (5 * (20113))) := by norm_num
    rw [hfact] at hdvd
    have hq2 : q = 2 ∨ q = 3 ∨ q = 5 ∨ q = 20113 := by
      rcases (Nat.Prime.dvd_mul hq).mp hdvd with h | hdvd
      · exact Or.inl ((Nat.prime_dvd_prime_iff_eq hq (by norm_num)).mp (hq.dvd_of_dvd_pow h))
      rcases (Nat.Prime.dvd_mul hq).mp hdvd with h | hdvd
      · exact Or.inr (Or.inl ((Nat.prime_dvd_prime_iff_eq hq (by norm_num)).mp h))
      rcases (Nat.Prime.dvd_mul hq).mp hdvd with h | hdvd
      · exact Or.inr (Or.inr (Or.inl ((Nat.prime_dvd_prime_iff_eq hq (by norm_num)).mp h)))
      exact Or.inr (Or.inr (Or.inr ((Nat.prime_dvd_prime_iff_eq hq (by norm_num)).mp hdvd)))
    rcases hq2 with rfl | rfl | rfl | rfl <;>
      exact powMod_ne_one_zmod 10 _ 1206781 (by norm_num) (by decide)

/-- Lucas certificate for `7240687` (avoids a deep trial-division term). -/
theorem prime_chain_7240687 : Nat.Prime 7240687 := by
  apply lucas_primality 7240687 ((3 : Nat) : ZMod 7240687)
  · exact powMod_eq_one_zmod 3 (7240687 - 1) 7240687 (by norm_num) (by decide)
  · intro q hq hdvd
    have hfact : 7240687 - 1 = 2 * (3 * (1206781)) := by norm_num
    rw [hfact] at hdvd
    have hq2 : q = 2 ∨ q = 3 ∨ q = 1206781 := by
      rcases (Nat.Prime.dvd_mul hq).mp hdvd with h | hdvd
      · exact Or.inl ((Nat.prime_dvd_prime_iff_eq hq (by norm_num)).mp h)
      rcases (Nat.Prime.dvd_mul hq).mp hdvd with h | hdvd
      · exact Or.inr (Or.inl ((Nat.prime_dvd_prime_iff_eq hq (by norm_num)).mp h))
      exact Or.inr (Or.inr ((Nat.prime_dvd_prime_iff_eq hq prime_chain_1206781).mp hdvd))
    rcases hq2 with rfl | rfl | rfl <;>
      exact powMod_ne_one_zmod 3 _ 7240687 (by norm_num) (by decide)

/-- Lucas certificate for `13331831` (avoids a deep trial-division term). -/
theorem prime_chain_13331831 : Nat.Prime 13331831 := by
  apply lucas_primality 13331831 ((13 : Nat) : ZMod 13331831)
  · exact powMod_eq_one_zmod 13 (13331831 - 1) 13331831 (by norm_num) (by decide)
  · intro q hq hdvd
    have hfact : 13331831 - 1 = 2 * (5 * (971 * (1373))) := by norm_num
    rw [hfact] at hdvd
    have hq2 : q = 2 ∨ q = 5 ∨ q = 971 ∨ q = 1373 := by
      rcases (Nat.Prime.dvd_mul hq).mp hdvd with h | hdvd
      · exact Or.inl ((Nat.prime_dvd_prime_iff_eq hq (by norm_num)).mp h)
      rcases (Nat.Prime.dvd_mul hq).mp hdvd with h | hdvd
      · exact Or.inr (Or.inl ((Nat.prime_dvd_prime_iff_eq hq (by norm_num)).mp h))
      rcases (Nat.Prime.dvd_mul hq).mp hdvd with h | hdvd
      · exact Or.inr (Or.inr (Or.inl ((Nat.prime_dvd_prime_iff_eq hq (by norm_num)).mp h)))
      exact Or.inr (Or.inr (Or.inr ((Nat.prime_dvd_prime_iff_eq hq (by norm_num)).mp hdvd)))
    rcases hq2 with rfl | rfl | rfl | rfl <;>
      exact powMod_ne_one_zmod 13 _ 13331831 (by norm_num) (by decide)

/-- Lucas certificate for `107590001` (avoids a deep trial-division term). -/
theorem prime_chain_107590001 : Nat.Prime 107590001 := by
  apply lucas_primality 107590001 ((3 : Nat) : ZMod 107590001)
  · exact powMod_eq_one_zmod 3 (107590001 - 1) 107590001 (by norm_num) (by decide)
  · intro q hq hdvd
    have hfact : 107590001 - 1 = 2 ^ 4 * (5 ^ 4 * (7 * (29 * (53)))) := by norm_num
    rw [hfact] at hdvd
    have hq2 : q = 2 ∨ q = 5 ∨ q = 7 ∨ q = 29 ∨ q = 53 := by
      rcases (Nat.Prime.dvd_mul hq).mp hdvd with h | hdvd
      · exact Or.inl ((Nat.prime_dvd_prime_iff_eq hq (by norm_num)).mp (hq.dvd_of_dvd_pow h))
      rcases (Nat.Prime.dvd_mul hq).mp hdvd with h | hdvd
      · exact Or.inr (Or.inl ((Nat.prime_dvd_prime_iff_eq hq (by norm_num)).mp (hq.dvd_of_dvd_pow h)))
      rcases (Nat.Prime.dvd_mul hq).mp hdvd with h | hdvd
      · exact Or.inr (Or.inr (Or.inl ((Nat.prime_dvd_prime_iff_eq hq (by norm_num)).mp h)))
      rcases (Nat.Prime.dvd_mul hq).mp hdvd with h | hdvd
      · exact Or.inr (Or.inr (Or.inr (Or.inl ((Nat.prime_dvd_prime_iff_eq hq (by norm_num)).mp h))))
      exact Or.inr (Or.inr (Or.inr (Or.inr ((Nat.prime_dvd_prime_iff_eq hq (by norm_num)).mp hdvd))))
    rcases hq2 with rfl | rfl | rfl | rfl | rfl <;>
      exact powMod_ne_one_zmod 3 _ 107590001 (by norm_num) (by decide)

/-- Lucas certificate: `P18` in the `p - 1` chain is prime. -/
theorem prime_chain_P18 : Nat.Prime 173378833005251801 := by
  apply lucas_primality 173378833005251801 ((6 : Nat) : ZMod 173378833005251801)
  · exact powMod_eq_one_zmod 6 (173378833005251801 - 1) 173378833005251801 (by norm_num) (by decide)
  · intro q hq hdvd
    have hfact : 173378833005251801 - 1 = 2 ^ 3 * (5 ^ 2 * (2621 * (24809 * (13331831)))) := by norm_num
    rw [hfact] at hdvd
    have hq2 : q = 2 ∨ q = 5 ∨ q = 2621 ∨ q = 24809 ∨ q = 13331831 := by
      rcases (Nat.Prime.dvd_mul hq).mp hdvd with h | hdvd
      · exact Or.inl ((Nat.prime_dvd_prime_iff_eq hq (by norm_num)).mp (hq.dvd_of_dvd_pow h))
      rcases (Nat.Prime.dvd_mul hq).mp hdvd with h | hdvd
      · exact Or.inr (Or.inl ((Nat.prime_dvd_prime_iff_eq hq (by norm_num)).mp (hq.dvd_of_dvd_pow h)))
      rcases (Nat.Prime.dvd_mul hq).mp hdvd with h | hdvd
      · exact Or.inr (Or.inr (Or.inl ((Nat.prime_dvd_prime_iff_eq hq (by norm_num)).mp h)))
      rcases (Nat.Prime.dvd_mul hq).mp hdvd with h | hdvd
      · exact Or.inr (Or.inr (Or.inr (Or.inl ((Nat.prime_dvd_prime_iff_eq hq (by norm_num)).mp h))))
      exact Or.inr (Or.inr (Or.inr (Or.inr ((Nat.prime_dvd_prime_iff_eq hq prime_chain_13331831).mp hdvd))))
    rcases hq2 with rfl | rfl | rfl | rfl | rfl <;>
      exact powMod_ne_one_zmod 6 _ 173378833005251801 (by norm_num) (by decide)

/-- Lucas certificate: `P23` in the `p - 1` chain is prime. -/
theorem prime_chain_P23 : Nat.Prime 22149492674086928081353 := by
  apply lucas_primality 22149492674086928081353 ((5 : Nat) : ZMod 22149492674086928081353)
  · exact powMod_eq_one_zmod 5 (22149492674086928081353 - 1) 22149492674086928081353 (by norm_num) (by decide)
  · intro q hq hdvd
    have hfact : 22149492674086928081353 - 1 = 2 ^ 3 * (3 * (5323 * (173378833005251801))) := by norm_num
    rw [hfact] at hdvd
    have hq2 : q = 2 ∨ q = 3 ∨ q = 5323 ∨ q = 173378833005251801 := by
      rcases (Nat.Prime.dvd_mul hq).mp hdvd with h | hdvd
      · exact Or.inl ((Nat.prime_dvd_prime_iff_eq hq (by norm_num)).mp (hq.dvd_of_dvd_pow h))
      rcases (Nat.Prime.dvd_mul hq).mp hdvd with h | hdvd
      · exact Or.inr (Or.inl ((Nat.prime_dvd_prime_iff_eq hq (by norm_num)).mp h))
      rcases (Nat.Prime.dvd_mul hq).mp hdvd with h | hdvd
      · exact Or.inr (Or.inr (Or.inl ((Nat.prime_dvd_prime_iff_eq hq (by norm_num)).mp h)))
      exact Or.inr (Or.inr (Or.inr ((Nat.prime_dvd_prime_iff_eq hq prime_chain_P18).mp hdvd)))
    rcases hq2 with rfl | rfl | rfl | rfl <;>
      exact powMod_ne_one_zmod 5 _ 22149492674086928081353 (by norm_num) (by decide)

/-- Lucas certificate: `P24` in the `p - 1` chain is prime. -/
theorem prime_chain_P24 : Nat.Prime 132896956044521568488119 := by
  apply lucas_primality 132896956044521568488119 ((6 : Nat) : ZMod 132896956044521568488119)
  · exact powMod_eq_one_zmod 6 (132896956044521568488119 - 1) 132896956044521568488119 (by norm_num) (by decide)
  · intro q hq hdvd
    have hfact : 132896956044521568488119 - 1 = 2 * (3 * (22149492674086928081353)) := by norm_num
    rw [hfact] at hdvd
    have hq2 : q = 2 ∨ q = 3 ∨ q = 22149492674086928081353 := by
      rcases (Nat.Prime.dvd_mul hq).mp hdvd with h | hdvd
      · exact Or.inl ((Nat.prime_dvd_prime_iff_eq hq (by norm_num)).mp h)
      rcases (Nat.Prime.dvd_mul hq).mp hdvd with h | hdvd
      · exact Or.inr (Or.inl ((Nat.prime_dvd_prime_iff_eq hq (by norm_num)).mp h))
      exact Or.inr (Or.inr ((Nat.prime_dvd_prime_iff_eq hq prime_chain_P23).mp hdvd))
    rcases hq2 with rfl | rfl | rfl <;>
      exact powMod_ne_one_zmod 6 _ 132896956044521568488119 (by norm_num) (by decide)

/-- Lucas certificate: `P39` in the `p - 1` chain is prime. -/
theorem prime_chain_P39 : Nat.Prime 255515944373312847190720520512484175977 := by
  apply lucas_primality 255515944373312847190720520512484175977 ((3 : Nat) : ZMod 255515944373312847190720520512484175977)
  · exact powMod_eq_one_zmod 3 (255515944373312847190720520512484175977 - 1) 255515944373312847190720520512484175977 (by norm_num) (by decide)
  · intro q hq hdvd
    have hfact : 255515944373312847190720520512484175977 - 1 = 2 ^ 3 * (7 ^ 2 * (11 * (1627 * (2657 * (4423 * (41201 * (96557 * (7240687 * (107590001))))))))) := by norm_num
    rw [hfact] at hdvd
    have hq2 : q = 2 ∨ q = 7 ∨ q = 11 ∨ q = 1627 ∨ q = 2657 ∨ q = 4423 ∨ q = 41201 ∨ q = 96557 ∨ q = 7240687 ∨ q = 107590001 := by
      rcases (Nat.Prime.dvd_mul hq).mp hdvd with h | hdvd
      · exact Or.inl ((Nat.prime_dvd_prime_iff_eq hq (by norm_num)).mp (hq.dvd_of_dvd_pow h))
      rcases (Nat.Prime.dvd_mul hq).mp hdvd with h | hdvd
      · exact Or.inr (Or.inl ((Nat.prime_dvd_prime_iff_eq hq (by norm_num)).mp (hq.dvd_of_dvd_pow h)))
      rcases (Nat.Prime.dvd_mul hq).mp hdvd with h | hdvd
      · exact Or.inr (Or.inr (Or.inl ((Nat.prime_dvd_prime_iff_eq hq (by norm_num)).mp h)))
      rcases (Nat.Prime.dvd_mul hq).mp hdvd with h | hdvd
      · exact Or.inr (Or.inr (Or.inr (Or.inl ((Nat.prime_dvd_prime_iff_eq hq (by norm_num)).mp h))))
      rcases (Nat.Prime.dvd_mul hq).mp hdvd with h | hdvd
      · exact Or.inr (Or.inr (Or.inr (Or.inr (Or.inl ((Nat.prime_dvd_prime_iff_eq hq (by norm_num)).mp h)))))
      rcases (Nat.Prime.dvd_mul hq).mp hdvd with h | hdvd
      · exact Or.inr (Or.inr (Or.inr (Or.inr (Or.inr (Or.inl ((Nat.prime_dvd_prime_iff_eq hq (by norm_num)).mp h))))))
      rcases (Nat.Prime.dvd_mul hq).mp hdvd with h | hdvd
      · exact Or.inr (Or.inr (Or.inr (Or.inr (Or.inr (Or.inr (Or.inl ((Nat.prime_dvd_prime_iff_eq hq (by norm_num)).mp h)))))))
      rcases (Nat.Prime.dvd_mul hq).mp hdvd with h | hdvd
      · exact Or.inr (Or.inr (Or.inr (Or.inr (Or.inr (Or.inr (Or.inr (Or.inl ((Nat.prime_dvd_prime_iff_eq hq (by norm_num)).mp h))))))))
      rcases (Nat.Prime.dvd_mul hq).mp hdvd with h | hdvd
      · exact Or.inr (Or.inr (Or.inr (Or.inr (Or.inr (Or.inr (Or.inr (Or.inr (Or.inl ((Nat.prime_dvd_prime_iff_eq hq prime_chain_7240687).mp h)))))))))
      exact Or.inr (Or.inr (Or.inr (Or.inr (Or.inr (Or.inr (Or.inr (Or.inr (Or.inr ((Nat.prime_dvd_prime_iff_eq hq prime_chain_107590001).mp hdvd)))))))))
    rcases hq2 with rfl | rfl | rfl | rfl | rfl | rfl | rfl | rfl | rfl | rfl <;>
      exact powMod_ne_one_zmod 3 _ 255515944373312847190720520512484175977 (by norm_num) (by decide)

/-- Lucas certificate: `q237` in the `p - 1` chain is prime. -/
theorem prime_chain_q237 : Nat.Prime 205115282021455665897114700593932402728804164701536103180137503955397371 := by
  apply lucas_primality 205115282021455665897114700593932402728804164701536103180137503955397371 ((10 : Nat) : ZMod 205115282021455665897114700593932402728804164701536103180137503955397371)
  · exact powMod_eq_one_zmod 10 (205115282021455665897114700593932402728804164701536103180137503955397371 - 1) 205115282021455665897114700593932402728804164701536103180137503955397371 (by norm_num) (by decide)
  · intro q hq hdvd
    have hfact : 205115282021455665897114700593932402728804164701536103180137503955397371 - 1 = 2 * (3 * (5 * (29 ^ 2 * (31 * (7723 * (132896956044521568488119 * (255515944373312847190720520512484175977))))))) := by norm_num
    rw [hfact] at hdvd
    have hq2 : q = 2 ∨ q = 3 ∨ q = 5 ∨ q = 29 ∨ q = 31 ∨ q = 7723 ∨ q = 132896956044521568488119 ∨ q = 255515944373312847190720520512484175977 := by
      rcases (Nat.Prime.dvd_mul hq).mp hdvd with h | hdvd
      · exact Or.inl ((Nat.prime_dvd_prime_iff_eq hq (by norm_num)).mp h)
      rcases (Nat.Prime.dvd_mul hq).mp hdvd with h | hdvd
      · exact Or.inr (Or.inl ((Nat.prime_dvd_prime_iff_eq hq (by norm_num)).mp h))
      rcases (Nat.Prime.dvd_mul hq).mp hdvd with h | hdvd
      · exact Or.inr (Or.inr (Or.inl ((Nat.prime_dvd_prime_iff_eq hq (by norm_num)).mp h)))
      rcases (Nat.Prime.dvd_mul hq).mp hdvd with h | hdvd
      · exact Or.inr (Or.inr (Or.inr (Or.inl ((Nat.prime_dvd_prime_iff_eq hq (by norm_num)).mp (hq.dvd_of_dvd_pow h)))))
      rcases (Nat.Prime.dvd_mul hq).mp hdvd with h | hdvd
      · exact Or.inr (Or.inr (Or.inr (Or.inr (Or.inl ((Nat.prime_dvd_prime_iff_eq hq (by norm_num)).mp h)))))
      rcases (Nat.Prime.dvd_mul hq).mp hdvd with h | hdvd
      · exact Or.inr (Or.inr (Or.inr (Or.inr (Or.inr (Or.inl ((Nat.prime_dvd_prime_iff_eq hq (by norm_num)).mp h))))))
      rcases (Nat.Prime.dvd_mul hq).mp hdvd with h | hdvd
      · exact Or.inr (Or.inr (Or.inr (Or.inr (Or.inr (Or.inr (Or.inl ((Nat.prime_dvd_prime_iff_eq hq prime_chain_P24).mp h)))))))
      exact Or.inr (Or.inr (Or.inr (Or.inr (Or.inr (Or.inr (Or.inr ((Nat.prime_dvd_prime_iff_eq hq prime_chain_P39).mp hdvd)))))))
    rcases hq2 with rfl | rfl | rfl | rfl | rfl | rfl | rfl | rfl <;>
      exact powMod_ne_one_zmod 10 _ 205115282021455665897114700593932402728804164701536103180137503955397371 (by norm_num) (by decide)

/-- Lucas certificate: `aux` in the `p - 1` chain is prime. -/
theorem prime_pVal_aux : Nat.Prime 115792089237316195423570985008687907853269984665640564039457584007908834671663 := by
  apply lucas_primality 115792089237316195423570985008687907853269984665640564039457584007908834671663 ((3 : Nat) : ZMod 115792089237316195423570985008687907853269984665640564039457584007908834671663)
  · exact powMod_eq_one_zmod 3 (115792089237316195423570985008687907853269984665640564039457584007908834671663 - 1) 115792089237316195423570985008687907853269984665640564039457584007908834671663 (by norm_num) (by decide)
  · intro q hq hdvd
    have hfact : 115792089237316195423570985008687907853269984665640564039457584007908834671663 - 1 = 2 * (3 * (7 * (13441 * (205115282021455665897114700593932402728804164701536103180137503955397371)))) := by norm_num
    rw [hfact] at hdvd
    have hq2 : q = 2 ∨ q = 3 ∨ q = 7 ∨ q = 13441 ∨ q = 205115282021455665897114700593932402728804164701536103180137503955397371 := by
      rcases (Nat.Prime.dvd_mul hq).mp hdvd with h | hdvd
      · exact Or.inl ((Nat.prime_dvd_prime_iff_eq hq (by norm_num)).mp h)
      rcases (Nat.Prime.dvd_mul hq).mp hdvd with h | hdvd
      · exact Or.inr (Or.inl ((Nat.prime_dvd_prime_iff_eq hq (by norm_num)).mp h))
      rcases (Nat.Prime.dvd_mul hq).mp hdvd with h | hdvd
      · exact Or.inr (Or.inr (Or.inl ((Nat.prime_dvd_prime_iff_eq hq (by norm_num)).mp h)))
      rcases (Nat.Prime.dvd_mul hq).mp hdvd with h | hdvd
      · exact Or.inr (Or.inr (Or.inr (Or.inl ((Nat.prime_dvd_prime_iff_eq hq (by norm_num)).mp h))))
      exact Or.inr (Or.inr (Or.inr (Or.inr ((Nat.prime_dvd_prime_iff_eq hq prime_chain_q237).mp hdvd))))
    rcases hq2 with rfl | rfl | rfl | rfl | rfl <;>
      exact powMod_ne_one_zmod 3 _ 115792089237316195423570985008687907853269984665640564039457584007908834671663 (by norm_num) (by decide)

/-- The secp256k1 field prime really is prime. -/
theorem prime_pVal : Nat.Prime pVal := by
  have h : pVal = 2 ^ 256 - 2 ^ 32 - 977 := rfl
  rw [h]
  have : (2 : Nat) ^ 256 - 2 ^ 32 - 977 = 115792089237316195423570985008687907853269984665640564039457584007908834671663 := by norm_num
  rw [this]
  exact prime_pVal_aux

theorem isZero_phi (l : List Nat) (hc : IsCanonical pVal l) :
    FieldElement.is_zero l = true ↔ ((valL l : Nat) : ZMod pVal) = 0 := by
  rw [FieldElement.is_zero, isZeroL_iff]
  constructor
  · intro h
    rw [h]
    exact Nat.cast_zero
  · intro h
    have hd := (CharP.cast_eq_zero_iff (ZMod pVal) pVal (valL l)).mp h
    exact Nat.eq_zero_of_dvd_of_lt hd hc.2.2

theorem two_ne_zero_zmodp : (2 : ZMod pVal) ≠ 0 := by
  intro h
  have h2 : ((2 : Nat) : ZMod pVal) = 0 := by exact_mod_cast h
  have := (CharP.cast_eq_zero_iff (ZMod pVal) pVal 2).mp h2
  exact absurd this (by decide)

theorem ptMulStep_preserved (byte : Nat) (acc : Point × Point) (bit : Nat)
    (h1 : PtCanonical acc.1 ∧ OnCurveN acc.1) (h2 : PtCanonical acc.2 ∧ OnCurveN acc.2) :
    (PtCanonical (if (byte >>> bit) &&& 1 = 1 then Point.add acc.1 acc.2 else acc.1) ∧
      OnCurveN (if (byte >>> bit) &&& 1 = 1 then Point.add acc.1 acc.2 else acc.1)) ∧
    (PtCanonical (Point.double acc.2) ∧ OnCurveN (Point.double acc.2)) := by
  refine ⟨?_, (double_spec acc.2 h2.1).1, (double_spec acc.2 h2.1).2 h2.2⟩
  by_cases hbit : (byte >>> bit) &&& 1 = 1
  · rw [if_pos hbit]
    exact ⟨(add_spec acc.1 acc.2 h1.1 h2.1).1,
      (add_spec acc.1 acc.2 h1.1 h2.1).2 h1.2 h2.2⟩
  · rw [if_neg hbit]
    exact h1

theorem mulPt_spec (p : Point) (k : List Nat) (hc : PtCanonical p) (h : OnCurveN p) :
    PtCanonical (Point.mul p k) ∧ OnCurveN (Point.mul p k) := by
  rw [Point.mul]
  by_cases hz : (Scalar.is_zero k || Point.is_infinity p) = true
  · rw [if_pos hz]
    exact ⟨ptCanonical_INFINITY, onCurveN_INFINITY⟩
  · rw [if_neg hz]
    have key := foldl_preserves
      (fun acc : Point × Point =>
        (PtCanonical acc.1 ∧ OnCurveN acc.1) ∧ (PtCanonical acc.2 ∧ OnCurveN acc.2))
      (fun acc byte =>
        (List.range 8).foldl
          (fun acc bit =>
            ((if (byte >>> bit) &&& 1 = 1 then Point.add acc.1 acc.2 else acc.1),
              Point.double acc.2))
          acc)
      (fun acc byte hacc =>
        foldl_preserves
          (fun acc : Point × Point =>
            (PtCanonical acc.1 ∧ OnCurveN acc.1) ∧ (PtCanonical acc.2 ∧ OnCurveN acc.2))
          (fun acc bit =>
            ((if (byte >>> bit) &&& 1 = 1 then Point.add acc.1 acc.2 else acc.1),
              Point.double acc.2))
          (fun acc2 bit hacc2 => ptMulStep_preserved byte acc2 bit hacc2.1 hacc2.2)
          (List.range 8) acc hacc)
      (scalarToBytesBE k).reverse (Point.INFINITY, p)
      ⟨⟨ptCanonical_INFINITY, onCurveN_INFINITY⟩, hc, h⟩
    exact key.1

/-- C7: the claimed invariant — every non-infinity `Point` satisfies the
curve equation `Y^2 = X^3 + 7 Z^6` over `GF(p)` (the Jacobian form of
`y^2 = x^3 + 7`), maintained by every way of constructing a `Point` — is
wrong as stated: `from_affine` performs no validation (as its source
comment says), and `from_affine 0 1` is a non-infinity point violating the
equation. The operational part does hold: the equation is preserved by
`double`, `add` and scalar `mul` on canonical points, and the stored
point-at-infinity representative satisfies it. -/
theorem claim_C7_on_curve_invariant :
    (Point.is_infinity (Point.from_affine FieldElement.ZERO FieldElement.ONE) = false ∧
      ¬ OnCurveN (Point.from_affine FieldElement.ZERO FieldElement.ONE)) ∧
    (∀ p : Point, PtCanonical p → OnCurveN p → OnCurveN (Point.double p)) ∧
    (∀ p q : Point, PtCanonical p → PtCanonical q → OnCurveN p → OnCurveN q →
      OnCurveN (Point.add p q)) ∧
    (∀ (p : Point) (k : List Nat), PtCanonical p → OnCurveN p →
      OnCurveN (Point.mul p k)) ∧
    OnCurveN Point.INFINITY := by
  refine ⟨⟨by decide, ?_⟩, fun p hc h => (double_spec p hc).2 h,
    fun p q hp hq h1 h2 => (add_spec p q hp hq).2 h1 h2,
    fun p k hc h => (mulPt_spec p k hc h).2, onCurveN_INFINITY⟩
  rw [OnCurveN]
  have hx : valL (Point.from_affine FieldElement.ZERO FieldElement.ONE).x = 0 := by decide
  have hy : valL (Point.from_affine FieldElement.ZERO FieldElement.ONE).y = 1 := by decide
  have hz : valL (Point.from_affine FieldElement.ZERO FieldElement.ONE).z = 1 := by decide
  rw [hx, hy, hz]
  push_cast
  intro hcon
  have h17 : ((1 : Nat) : ZMod pVal) = ((7 : Nat) : ZMod pVal) := by
    push_cast
    linear_combination hcon
  rw [ZMod.natCast_eq_natCast_iff] at h17
  exact absurd h17 (by decide)

theorem double_phi (p : Point) (hc : PtCanonical p)
    (hinf : ¬(Point.is_infinity p || FieldElement.is_zero p.y) = true) :
    (valL (Point.double p).x : ZMod pVal) = (3 * (valL p.x : ZMod pVal) ^ 2) ^ 2 - 2 * (4 * (valL p.x : ZMod pVal) * (valL p.y : ZMod pVal) ^ 2) ∧
      (valL (Point.double p).y : ZMod pVal) = (3 * (valL p.x : ZMod pVal) ^ 2) * ((4 * (valL p.x : ZMod pVal) * (valL p.y : ZMod pVal) ^ 2) - ((3 * (valL p.x : ZMod pVal) ^ 2) ^ 2 - 2 * (4 * (valL p.x : ZMod pVal) * (valL p.y : ZMod pVal) ^ 2))) - 8 * (valL p.y : ZMod pVal) ^ 4 ∧
      (valL (Point.double p).z : ZMod pVal) = 2 * (valL p.y : ZMod pVal) * (valL p.z : ZMod pVal) := by
  obtain ⟨hx, hy, hz⟩ := hc
  have hdx : (Point.double p).x = (FieldElement.sub (FieldElement.sub (FieldElement.square (FieldElement.mul (FieldElement.square p.x) [3, 0, 0, 0])) (FieldElement.mul (FieldElement.mul p.x (FieldElement.square p.y)) [4, 0, 0, 0])) (FieldElement.mul (FieldElement.mul p.x (FieldElement.square p.y)) [4, 0, 0, 0])) := by
    rw [Point.double, if_neg hinf]
  have hdy : (Point.double p).y = (FieldElement.sub (FieldElement.mul (FieldElement.mul (FieldElement.square p.x) [3, 0, 0, 0]) (FieldElement.sub (FieldElement.mul (FieldElement.mul p.x (FieldElement.square p.y)) [4, 0, 0, 0]) (FieldElement.sub (FieldElement.sub (FieldElement.square (FieldElement.mul (FieldElement.square p.x) [3, 0, 0, 0])) (FieldElement.mul (FieldElement.mul p.x (FieldElement.square p.y)) [4, 0, 0, 0])) (FieldElement.mul (FieldElement.mul p.x (FieldElement.square p.y)) [4, 0, 0, 0])))) (FieldElement.mul (FieldElement.square (FieldElement.square p.y)) [8, 0, 0, 0])) := by
    rw [Point.double, if_neg hinf]
  have hdz : (Point.double p).z = (FieldElement.mul (FieldElement.mul p.y p.z) [2, 0, 0, 0]) := by
    rw [Point.double, if_neg hinf]
  have h4 : IsCanonical pVal [4, 0, 0, 0] := by decide
  have h3 : IsCanonical pVal [3, 0, 0, 0] := by decide
  have h8 : IsCanonical pVal [8, 0, 0, 0] := by decide
  have h2 : IsCanonical pVal [2, 0, 0, 0] := by decide
  have c1 := squareCanP _ hy
  have c2 := mulCanP _ _ hx c1
  have c3 := mulCanP _ _ c2 h4
  have c4 := squareCanP _ hx
  have c5 := mulCanP _ _ c4 h3
  have c6 := squareCanP _ c5
  have c7 := subCanP _ _ c6 c3
  have c8 := subCanP _ _ c7 c3
  have c9 := squareCanP _ c1
  have c10 := mulCanP _ _ c9 h8
  have c11 := subCanP _ _ c3 c8
  have c12 := mulCanP _ _ c5 c11
  have c13 := subCanP _ _ c12 c10
  have c14 := mulCanP _ _ hy hz
  have c15 := mulCanP _ _ c14 h2
  refine ⟨?_, ?_, ?_⟩
  · rw [hdx]
    simp only [phiSub, phiMul, phiSquare, c1, c2, c3, c4, c5, c6, c7, c8, c9, c10, c11,
      c12, c13, c14, c15, hx, hy, hz, h2, h3, h4, h8, val2z, val3z, val4z, val8z]
    ring
  · rw [hdy]
    simp only [phiSub, phiMul, phiSquare, c1, c2, c3, c4, c5, c6, c7, c8, c9, c10, c11,
      c12, c13, c14, c15, hx, hy, hz, h2, h3, h4, h8, val2z, val3z, val4z, val8z]
    ring
  · rw [hdz]
    simp only [phiSub, phiMul, phiSquare, c1, c2, c3, c4, c5, c6, c7, c8, c9, c10, c11,
      c12, c13, c14, c15, hx, hy, hz, h2, h3, h4, h8, val2z, val3z, val4z, val8z]
    ring

theorem double_infinity_iff (p : Point) (hc : PtCanonical p) :
    ((Point.double p).is_infinity = true ↔
      (Point.is_infinity p = true ∨ FieldElement.is_zero p.y = true)) := by
  obtain ⟨hx, hy, hz⟩ := hc
  constructor
  · intro hdi
    by_cases hinfc : (Point.is_infinity p || FieldElement.is_zero p.y) = true
    · by_cases hpi : Point.is_infinity p = true
      · exact Or.inl hpi
      · refine Or.inr ?_
        simp only [Bool.or_eq_true] at hinfc
        rcases hinfc with h | h
        · exact absurd h hpi
        · exact h
    · exfalso
      have hdz : (Point.double p).z = (FieldElement.mul (FieldElement.mul p.y p.z) [2, 0, 0, 0]) := by
        rw [Point.double, if_neg hinfc]
      rw [Point.is_infinity, hdz] at hdi
      have h2 : IsCanonical pVal [2, 0, 0, 0] := by decide
      have c14 := mulCanP _ _ hy hz
      have c15 := mulCanP _ _ c14 h2
      haveI : Fact (Nat.Prime pVal) := ⟨prime_pVal⟩
      have h0 := (isZero_phi _ c15).mp hdi
      simp only [phiMul, c14, hy, hz, h2, val2z] at h0
      rcases mul_eq_zero.mp h0 with h' | h'
      · rcases mul_eq_zero.mp h' with h'' | h''
        · have hzy := (isZero_phi p.y hy).mpr h''
          exact hinfc (by simp [hzy])
        · have hzz := (isZero_phi p.z hz).mpr h''
          exact hinfc (by simp [Point.is_infinity, hzz])
      · exact two_ne_zero_zmodp h'
  · intro hor
    have hcond : (Point.is_infinity p || FieldElement.is_zero p.y) = true := by
      rcases hor with h | h <;> simp [h]
    rw [Point.double, if_pos hcond]
    decide

/-- C6: for canonical points, `Point.double` returns the point at infinity
exactly when the input is infinity or its `Y` coordinate is zero, and
otherwise computes the listed `a = 0` Jacobian doubling formulas
(`S = 4XY^2`, `M = 3X^2`, `X3 = M^2 - 2S`, `Y3 = M(S - X3) - 8Y^4`,
`Z3 = 2YZ`, over `GF(p)`); `Point.add` returns the other operand when one
operand is infinity (in particular `G + O = G` and `O + O = O`), returns
`double p` when `H = 0` and `R = 0`, and returns infinity when `H = 0` and
`R ≠ 0`. -/
theorem claim_C6_point_ops :
    (∀ p : Point, PtCanonical p →
      ((Point.double p).is_infinity = true ↔
        (Point.is_infinity p = true ∨ FieldElement.is_zero p.y = true))) ∧
    (∀ p : Point, PtCanonical p →
      ¬(Point.is_infinity p || FieldElement.is_zero p.y) = true →
      (valL (Point.double p).x : ZMod pVal) = (3 * (valL p.x : ZMod pVal) ^ 2) ^ 2 - 2 * (4 * (valL p.x : ZMod pVal) * (valL p.y : ZMod pVal) ^ 2) ∧
        (valL (Point.double p).y : ZMod pVal) = (3 * (valL p.x : ZMod pVal) ^ 2) * ((4 * (valL p.x : ZMod pVal) * (valL p.y : ZMod pVal) ^ 2) - ((3 * (valL p.x : ZMod pVal) ^ 2) ^ 2 - 2 * (4 * (valL p.x : ZMod pVal) * (valL p.y : ZMod pVal) ^ 2))) - 8 * (valL p.y : ZMod pVal) ^ 4 ∧
        (valL (Point.double p).z : ZMod pVal) = 2 * (valL p.y : ZMod pVal) * (valL p.z : ZMod pVal)) ∧
    (∀ p q : Point, Point.is_infinity p = true → Point.add p q = q) ∧
    (∀ p q : Point, Point.is_infinity p = false → Point.is_infinity q = true →
      Point.add p q = p) ∧
    Point.add Point.generator Point.INFINITY = Point.generator ∧
    Point.add Point.INFINITY Point.INFINITY = Point.INFINITY ∧
    (∀ p q : Point, Point.is_infinity p = false → Point.is_infinity q = false →
      FieldElement.is_zero (FieldElement.sub (FieldElement.mul q.x (FieldElement.square p.z)) (FieldElement.mul p.x (FieldElement.square q.z))) = true →
      FieldElement.is_zero (FieldElement.sub (FieldElement.mul q.y (FieldElement.mul (FieldElement.square p.z) p.z)) (FieldElement.mul p.y (FieldElement.mul (FieldElement.square q.z) q.z))) = true →
      Point.add p q = Point.double p) ∧
    (∀ p q : Point, Point.is_infinity p = false → Point.is_infinity q = false →
      FieldElement.is_zero (FieldElement.sub (FieldElement.mul q.x (FieldElement.square p.z)) (FieldElement.mul p.x (FieldElement.square q.z))) = true →
      FieldElement.is_zero (FieldElement.sub (FieldElement.mul q.y (FieldElement.mul (FieldElement.square p.z) p.z)) (FieldElement.mul p.y (FieldElement.mul (FieldElement.square q.z) q.z))) = false →
      Point.add p q = Point.INFINITY) := by
  refine ⟨fun p hc => double_infinity_iff p hc,
    fun p hc hinf => double_phi p hc hinf,
    fun p q h => by rw [Point.add, if_pos h],
    fun p q h1 h2 => by rw [Point.add, if_neg (by simp [h1]), if_pos h2],
    by rw [Point.add, if_neg (by decide), if_pos (by decide)],
    by rw [Point.add, if_pos (by decide)],
    fun p q h1 h2 hH hR => by
      rw [Point.add, if_neg (by simp [h1]), if_neg (by simp [h2]), if_pos hH, if_pos hR],
    fun p q h1 h2 hH hR => by
      rw [Point.add, if_neg (by simp [h1]), if_neg (by simp [h2]), if_pos hH,
        if_neg (by simp [hR])]⟩

/-- C7 counterexample: `from_affine 0 1` — constructed with no validation,
as the source comment warns — is a non-infinity `Point` that does not
satisfy the curve equation (`1^2 ≠ 0^3 + 7` in `GF(p)`). -/
theorem claim_C7_counterexample :
    Point.is_infinity (Point.from_affine FieldElement.ZERO FieldElement.ONE) = false ∧
      ¬ OnCurveN (Point.from_affine FieldElement.ZERO FieldElement.ONE) := by
  refine ⟨by decide, ?_⟩
  rw [OnCurveN]
  have hx : valL (Point.from_affine FieldElement.ZERO FieldElement.ONE).x = 0 := by decide
  have hy : valL (Point.from_affine FieldElement.ZERO FieldElement.ONE).y = 1 := by decide
  have hz : valL (Point.from_affine FieldElement.ZERO FieldElement.ONE).z = 1 := by decide
  rw [hx, hy, hz]
  push_cast
  intro hcon
  have h17 : ((1 : Nat) : ZMod pVal) = ((7 : Nat) : ZMod pVal) := by
    push_cast
    linear_combination hcon
  rw [ZMod.natCast_eq_natCast_iff] at h17
  exact absurd h17 (by decide)

